import Mathlib

/-!
# Verification of the Boolean-algebra / Karnaugh-map simulator core

Shallow embedding of `src/script.js`: the tokenizer, the shunting-yard
parser with implicit conjunction, the RPN evaluator, the truth-table
generator, the Quine–McCluskey minimizer with its SOP/POS renderers, and
the Gray-code K-map layout generator.  Strings are modelled as `List Char`,
JavaScript exceptions as `Except`, and JavaScript objects with numeric keys
(whose enumeration order is ascending) as key-sorted association lists.
-/

set_option maxHeartbeats 1000000
set_option maxRecDepth 10000

deriving instance DecidableEq for Except

namespace KMap

/-- JavaScript strings, modelled as lists of characters. -/
abbrev Str := List Char

/-- Operator kinds; the source stores them as the strings
`"AND" | "OR" | "XOR" | "NOT"`, a closed set. -/
inductive OpKind
  | AND
  | OR
  | XOR
  | NOT
deriving DecidableEq

/-- Operator associativity, stored as `'left' | 'right'` in the source. -/
inductive Assoc
  | left
  | right
deriving DecidableEq

/-- Tokens produced by `tokenize` (plus the implicit-AND tokens added by the
parser).  `op value unary post precedence assoc implicit` carries the same
fields as the source's operator token objects; absent JS fields are `false`. -/
inductive Token
  | num (value : Nat)
  | var (value : Char)
  | op (value : OpKind) (unary : Bool) (post : Bool) (precedence : Nat)
      (assoc : Assoc) (implicit : Bool)
  | lp
  | rp
deriving DecidableEq

/-- The postfix-NOT token pushed after a variable with an odd apostrophe run. -/
def notPostTok : Token := .op .NOT true true 4 .right false

/-- The prefix-NOT token produced by `!` and `~`. -/
def notPreTok : Token := .op .NOT true false 4 .right false

/-- A binary operator token: AND, OR or XOR with its precedence. -/
def binTok (k : OpKind) (prec : Nat) : Token := .op k false false prec .left false

/-- The implicit AND inserted by the parser between adjacent operands. -/
def implicitAndTok : Token := .op .AND false false 3 .left true

/-- The OR token, precedence 1. -/
def orTok : Token := binTok .OR 1

/-- The explicit AND token, precedence 3. -/
def andTok : Token := binTok .AND 3

/-- The XOR token, precedence 2. -/
def xorTok : Token := binTok .XOR 2

/-- `/[A-Za-z]/.test ch` from the source. -/
def isLetterChar (c : Char) : Bool := ('A' ≤ c && c ≤ 'Z') || ('a' ≤ c && c ≤ 'z')

/-- `raw.replace(/\s+/g, '')`: drop every whitespace character. -/
def stripWS (s : Str) : Str := s.filter (fun c => !c.isWhitespace)

/-- Lexical error: the unrecognised character and its 0-based position in the
whitespace-stripped input. -/
structure LexError where
  pos : Nat
  ch : Char
deriving DecidableEq

/-- Tokens emitted when an apostrophe run ends: one postfix NOT iff the run
length is odd. -/
def tkFlush (par : Nat) : List Token := if par % 2 = 1 then [notPostTok] else []

/-- The scanner of `tokenize`, written as a character-at-a-time state machine.
`inRun` records that the previous character was a letter or part of the
apostrophe run following one, and `par` counts the apostrophes of the current
run; the source instead consumes the whole run inside the letter branch and
pushes the postfix NOT right away, which emits the same token sequence: the
variable token at the letter, the NOT (for an odd run) before whatever comes
after the run, and an error at the position of any apostrophe that does not
extend such a run (the source's final `throw`). -/
def tkAux : Str → Nat → Bool → Nat → Except LexError (List Token)
  | [], _, inRun, par => .ok (if inRun then tkFlush par else [])
  | c :: rest, i, inRun, par =>
    if c = '\'' then
      if inRun then tkAux rest (i + 1) true (par + 1)
      else .error ⟨i, c⟩
    else
      let flushed := if inRun then tkFlush par else []
      if c = '0' ∨ c = '1' then
        match tkAux rest (i + 1) false 0 with
        | .error e => .error e
        | .ok ts => .ok (flushed ++ Token.num (if c = '1' then 1 else 0) :: ts)
      else if isLetterChar c then
        match tkAux rest (i + 1) true 0 with
        | .error e => .error e
        | .ok ts => .ok (flushed ++ Token.var c.toUpper :: ts)
      else if c = '(' then
        match tkAux rest (i + 1) false 0 with
        | .error e => .error e
        | .ok ts => .ok (flushed ++ Token.lp :: ts)
      else if c = ')' then
        match tkAux rest (i + 1) false 0 with
        | .error e => .error e
        | .ok ts => .ok (flushed ++ Token.rp :: ts)
      else if c = '!' ∨ c = '~' then
        match tkAux rest (i + 1) false 0 with
        | .error e => .error e
        | .ok ts => .ok (flushed ++ notPreTok :: ts)
      else if c = '&' ∨ c = '*' then
        match tkAux rest (i + 1) false 0 with
        | .error e => .error e
        | .ok ts => .ok (flushed ++ binTok .AND 3 :: ts)
      else if c = '+' ∨ c = '|' then
        match tkAux rest (i + 1) false 0 with
        | .error e => .error e
        | .ok ts => .ok (flushed ++ binTok .OR 1 :: ts)
      else if c = '^' then
        match tkAux rest (i + 1) false 0 with
        | .error e => .error e
        | .ok ts => .ok (flushed ++ binTok .XOR 2 :: ts)
      else .error ⟨i, c⟩

/-- `tokenize` from the source: strip whitespace, then scan. -/
def tokenize (raw : Str) : Except LexError (List Token) :=
  tkAux (stripWS raw) 0 false 0

/-- `isOperand` from the source: a token that can end an operand. -/
def isOperandT : Option Token → Bool
  | some (.var _) => true
  | some (.num _) => true
  | some .rp => true
  | some (.op _ _ post _ _ _) => post
  | _ => false

/-- `beginsOperand` from the source: a token that can begin an operand. -/
def beginsOperandT : Option Token → Bool
  | some (.var _) => true
  | some (.num _) => true
  | some .lp => true
  | some (.op k _ post _ _ _) => k = .NOT && !post
  | _ => false

/-- Phase 1 of `toRPN`: insert an implicit AND between a token that can end an
operand and a following token that can begin one. -/
def insertImplicit : List Token → List Token
  | [] => []
  | a :: rest =>
    a :: (if isOperandT (some a) && beginsOperandT rest.head? then [implicitAndTok] else [])
      ++ insertImplicit rest

/-- Parse errors: the two `throw` sites of `toRPN`. -/
inductive ParseErr
  | unmatchedRP
  | unbalanced
deriving DecidableEq

/-- Is the token an operator token? -/
def isOpT : Token → Bool
  | .op _ _ _ _ _ _ => true
  | _ => false

/-- Precedence field of a token (operators only; irrelevant otherwise). -/
def precOf : Token → Nat
  | .op _ _ _ p _ _ => p
  | _ => 0

/-- Associativity field of a token (operators only; irrelevant otherwise). -/
def assocOf : Token → Assoc
  | .op _ _ _ _ a _ => a
  | _ => .left

/-- The pop condition of the binary-operator branch: the stack top is an
operator that binds at least as tightly (strictly higher precedence, or equal
precedence with the incoming operator left-associative). -/
def popsOver (top t : Token) : Bool :=
  isOpT top && (precOf top > precOf t || (precOf top = precOf t && assocOf t = .left))

/-- Pop stack entries that bind over `t`; returns them in pop order and the
remaining stack. -/
def popOps (t : Token) : List Token → List Token × List Token
  | [] => ([], [])
  | top :: s =>
    if popsOver top t then
      let (p, r) := popOps t s
      (top :: p, r)
    else ([], top :: s)

/-- Pop the stack to the matching left paren; error if the stack empties. -/
def popToLP : List Token → Except ParseErr (List Token × List Token)
  | [] => .error .unmatchedRP
  | .lp :: s => .ok ([], s)
  | top :: s =>
    match popToLP s with
    | .error e => .error e
    | .ok (p, r) => .ok (top :: p, r)

/-- Drain the operator stack at end of input; a leftover paren is an error. -/
def flushStack : List Token → Except ParseErr (List Token)
  | [] => .ok []
  | .lp :: _ => .error .unbalanced
  | .rp :: _ => .error .unbalanced
  | t :: s =>
    match flushStack s with
    | .error e => .error e
    | .ok ts => .ok (t :: ts)

/-- Phase 2 of `toRPN`: the shunting-yard loop over the expanded token list;
`out` is the output so far, `stack` the operator stack (head = top). -/
def syAux : List Token → List Token → List Token → Except ParseErr (List Token)
  | [], out, stack =>
    match flushStack stack with
    | .error e => .error e
    | .ok ts => .ok (out ++ ts)
  | t :: ts, out, stack =>
    match t with
    | .var _ => syAux ts (out ++ [t]) stack
    | .num _ => syAux ts (out ++ [t]) stack
    | .op k u post _ _ _ =>
      if post && k = .NOT then syAux ts (out ++ [t]) stack
      else if u && !post then syAux ts out (t :: stack)
      else if !u then
        let (p, r) := popOps t stack
        syAux ts (out ++ p) (t :: r)
      else syAux ts out stack
    | .lp => syAux ts out (.lp :: stack)
    | .rp =>
      match popToLP stack with
      | .error e => .error e
      | .ok (p, r) => syAux ts (out ++ p) r

/-- `toRPN` from the source: implicit-AND insertion followed by shunting-yard. -/
def toRPN (tokens : List Token) : Except ParseErr (List Token) :=
  syAux (insertImplicit tokens) [] []

/-- Evaluation errors: the four `throw` sites of `evalRPN`. -/
inductive EvalErr
  | undefinedVariable
  | insufficientOperands
  | invalidExpression
  | unknownOperator
deriving DecidableEq

/-- The evaluation environment: the JS object mapping variable names to the
numbers 0/1 (`undefined` = `none`). -/
def Env := Str → Option Nat

/-- The empty environment. -/
def emptyEnv : Env := fun _ => none

/-- `env[k] = v` on a JS object: later assignments shadow earlier ones. -/
def envUpd (e : Env) (k : Str) (v : Nat) : Env :=
  fun s => if s = k then some v else e s

/-- The token-processing loop of `evalRPN`: a boolean stack machine.  The
stack holds the booleans the source pushes (`!!`-coerced); tokens of paren
type fall through all branches of the source's `if` chain and are skipped. -/
def evalAux : List Token → Env → List Bool → Except EvalErr (List Bool)
  | [], _, st => .ok st
  | .num v :: ts, env, st => evalAux ts env (decide (v ≠ 0) :: st)
  | .var c :: ts, env, st =>
    match env [c] with
    | none => .error .undefinedVariable
    | some v => evalAux ts env (decide (v ≠ 0) :: st)
  | .op k _ _ _ _ _ :: ts, env, st =>
    if k = .NOT then
      if st.length < 1 then .error .insufficientOperands
      else evalAux ts env ((!(st.headD false)) :: st.tail)
    else
      if st.length < 2 then .error .insufficientOperands
      else
        let b := st.headD false
        let a := st.tail.headD false
        let st' := st.tail.tail
        match k with
        | .AND => evalAux ts env ((a && b) :: st')
        | .OR => evalAux ts env ((a || b) :: st')
        | .XOR => evalAux ts env ((a != b) :: st')
        | .NOT => .error .unknownOperator
  | .lp :: ts, env, st => evalAux ts env st
  | .rp :: ts, env, st => evalAux ts env st

/-- `evalRPN` from the source: run the stack machine on an empty stack; the
final stack must hold exactly one value, returned as the bit 0/1. -/
def evalRPN (rpn : List Token) (env : Env) : Except EvalErr Nat :=
  match evalAux rpn env [] with
  | .error e => .error e
  | .ok st =>
    if st.length ≠ 1 then .error .invalidExpression
    else .ok (if st.headD false then 1 else 0)

/-- A truth-table row `{m, env, y}` as built by `buildTruthTable`. -/
structure TTRow where
  m : Nat
  env : Env
  y : Nat

/-- The environment `buildTruthTable` constructs for minterm index `m`:
variable `i` is assigned bit `(n-1-i)` of `m`. -/
def envFor (vars : List Str) (m : Nat) : Env :=
  let n := vars.length
  (List.range n).foldl (fun e i => envUpd e (vars.getD i []) ((m >>> (n - 1 - i)) &&& 1))
    emptyEnv

/-- A `for` loop collecting one result per element, stopping at the first
exception (JS exception propagation). -/
def exceptMap (f : α → Except ε β) : List α → Except ε (List β)
  | [] => .ok []
  | x :: xs =>
    match f x with
    | .error e => .error e
    | .ok r =>
      match exceptMap f xs with
      | .error e => .error e
      | .ok rs => .ok (r :: rs)

/-- `buildTruthTable` from the source: rows for `m = 0 .. 2^n - 1`; with no
expression every output is 0; an evaluation exception propagates out. -/
def buildTruthTable (vars : List Str) (rpn : Option (List Token)) :
    Except EvalErr (List TTRow) :=
  exceptMap
    (fun m =>
      let env := envFor vars m
      match rpn with
      | none => .ok ⟨m, env, 0⟩
      | some r =>
        match evalRPN r env with
        | .error e => .error e
        | .ok y => .ok ⟨m, env, y⟩)
    (List.range (1 <<< vars.length))

/-! ## Quine–McCluskey -/

/-- Binary digits of `n`, most significant first (`n.toString(2)`), via a
structural fuel so that the kernel can evaluate it; `binDigits` supplies
sufficient fuel. -/
def binDigitsAux : Nat → Nat → List Char
  | 0, _ => []
  | fuel + 1, n =>
    if n < 2 then [Nat.digitChar n]
    else binDigitsAux fuel (n / 2) ++ [Nat.digitChar (n % 2)]

/-- `n.toString(2)` for natural `n`. -/
def binDigits (n : Nat) : Str := binDigitsAux (n + 1) n

/-- `toBin` from the source: binary representation left-padded with `'0'` to
`width` characters (longer representations are returned unpadded). -/
def toBin (n width : Nat) : Str :=
  let s := binDigits n
  List.replicate (width - s.length) '0' ++ s

/-- `countOnes`: the number of `'1'` characters. -/
def countOnes (s : Str) : Nat := (s.filter (fun c => c = '1')).length

/-- Number of positions at which the two strings hold different characters;
positions beyond the second string always differ (`undefined` in JS). -/
def diffCount : Str → Str → Nat
  | [], _ => 0
  | _ :: a, [] => 1 + diffCount a []
  | c :: a, d :: b => (if c = d then 0 else 1) + diffCount a b

/-- `canCombine`: the strings differ in exactly one position. -/
def canCombine (a b : Str) : Bool := diffCount a b = 1

/-- `combine`: copy equal characters, put `'-'` where they differ. -/
def combine : Str → Str → Str
  | [], _ => []
  | _ :: a, [] => '-' :: combine a []
  | c :: a, d :: b => (if c = d then c else '-') :: combine a b

/-- `covers`: every non-dash position of the implicant matches the minterm
string (a position beyond the minterm string never matches). -/
def covers : Str → Str → Bool
  | [], _ => true
  | c :: p, [] => if c = '-' then covers p [] else false
  | c :: p, x :: xs => if c = '-' then covers p xs else (c = x && covers p xs)

/-- An implicant record `{bin, used, from}` of the minimizer. -/
structure Item where
  bin : Str
  used : Bool
  fromS : List Str
deriving DecidableEq

/-- The `groups` / `newGroups` objects: numeric keys enumerate in ascending
order, so they are modelled as key-sorted association lists of buckets. -/
abbrev Groups := List (Nat × List Item)

/-- Push an item into the bucket of key `k`, keeping keys sorted (JS objects
enumerate integer-like keys in ascending order) and appending within a
bucket (array push order). -/
def insertG : Groups → Nat → Item → Groups
  | [], k, it => [(k, [it])]
  | (k', its) :: rest, k, it =>
    if k < k' then (k, [it]) :: (k', its) :: rest
    else if k = k' then (k', its ++ [it]) :: rest
    else (k', its) :: insertG rest k it

/-- All items of all buckets, in enumeration order. -/
def itemsOf (g : Groups) : List Item := g.flatMap (fun kv => kv.2)

/-- Phase 1 of `qmSimplify`: group the binary strings by population count. -/
def initGroups (bins : List Str) : Groups :=
  bins.foldl (fun g b => insertG g (countOnes b) ⟨b, false, [b]⟩) []

/-- First-occurrence deduplication (a JS `Set` keeps insertion order). -/
def dedupFirstAux [DecidableEq α] : List α → List α → List α
  | [], _ => []
  | x :: xs, seen =>
    if x ∈ seen then dedupFirstAux xs seen
    else x :: dedupFirstAux xs (x :: seen)

/-- `[...new Set(l)]`. -/
def dedupFirst [DecidableEq α] (l : List α) : List α := dedupFirstAux l []

/-- The combined item for a pair `(a, b)`: dashed pattern and the
insertion-ordered union of the originating minterm strings. -/
def combinePair (a b : Item) : Item :=
  ⟨combine a.bin b.bin, false, dedupFirst (a.fromS ++ b.fromS)⟩

/-- All new items of one combination round: for each adjacent pair of present
population-count groups, every combinable `(a, b)` pair in iteration order. -/
def newItemsOf (g : Groups) : List Item :=
  (g.zip g.tail).flatMap fun p =>
    p.1.2.flatMap fun a =>
      p.2.2.filterMap fun b =>
        if canCombine a.bin b.bin then some (combinePair a b) else none

/-- The bucket at position `j` of the present-key list (empty if absent). -/
def bucketAt (g : Groups) (j : Nat) : List Item := (g.getD j (0, [])).2

/-- Did round `g` mark this item of bucket position `j` used?  Exactly when it
combines with some member of the neighbouring present bucket (as the `a` of a
`(keys[j], keys[j+1])` pair or the `b` of a `(keys[j-1], keys[j])` pair). -/
def usedInRound (g : Groups) (j : Nat) (a : Item) : Bool :=
  (bucketAt g (j + 1)).any (fun b => canCombine a.bin b.bin) ||
    (if j = 0 then false else (bucketAt g (j - 1)).any (fun c => canCombine c.bin a.bin))

/-- The groups with the round's `used` marks applied. -/
def markUsedRound (g : Groups) : Groups :=
  (List.range g.length).map fun j =>
    let kv := g.getD j (0, [])
    (kv.1, kv.2.map fun a => { a with used := a.used || usedInRound g j a })

/-- The dedup key `it.bin + '|' + it.from.join(',')`. -/
def joinWith (sep : Str) : List Str → Str
  | [] => []
  | [s] => s
  | s :: rest => s ++ sep ++ joinWith sep rest

/-- The string key used to deduplicate new implicants. -/
def itemKey (it : Item) : Str := it.bin ++ '|' :: joinWith [','] it.fromS

/-- Keep the first item of each key. -/
def dedupByKeyAux : List Item → List Str → List Item
  | [], _ => []
  | it :: its, seen =>
    if itemKey it ∈ seen then dedupByKeyAux its seen
    else it :: dedupByKeyAux its (itemKey it :: seen)

/-- Deduplicate one bucket of new implicants. -/
def dedupBucket (its : List Item) : List Item := dedupByKeyAux its []

/-- One iteration of the combination loop: the deduplicated new groups, the
prime implicants collected from the unused items of the current groups, and
whether any pair combined. -/
def qmRound (g : Groups) : Groups × List Str × Bool :=
  let ni := newItemsOf g
  let ng := ni.foldl (fun h it => insertG h (countOnes (it.bin.filter (fun c => c ≠ '-'))) it) []
  let ng2 := ng.map fun kv => (kv.1, dedupBucket kv.2)
  let primes := (markUsedRound g).flatMap fun kv =>
    (kv.2.filter (fun it => !it.used)).map (fun it => it.bin)
  (ng2, primes, !ni.isEmpty)

/-- The `while (anyCombined)` loop, with fuel: returns the collected
per-round prime lists (`allCombinedLevels`) and the final groups.  For
inputs below `2^W` the source loop runs at most `W + 1` times (every item of
round `r` carries exactly `r` dashes), so the fuel `W + 2` used by
`qmSimplify` never runs out there; the prime-implicant collection below also
folds in whatever remains in the final groups, exactly as the source does. -/
def qmLoop : Nat → Groups → List (List Str) × Groups
  | 0, g => ([], g)
  | fuel + 1, g =>
    let r := qmRound g
    if r.2.2 then
      let rest := qmLoop fuel r.1
      (r.2.1 :: rest.1, rest.2)
    else ([r.2.1], r.1)

/-- The prime-implicant chart: for each true minterm, the ascending list of
prime-implicant indices covering it. -/
def coverList (primeList : List Str) (minBin : List Str) : List (List Nat) :=
  minBin.map fun mb =>
    (List.range primeList.length).filter fun j => covers (primeList.getD j []) mb

/-- `chosen.add(j)` on the insertion-ordered JS `Set`. -/
def addChosen (ch : List Nat) (j : Nat) : List Nat := if j ∈ ch then ch else ch ++ [j]

/-- Phase 5: essential primes — any minterm covered by exactly one implicant
forces that implicant into the chosen set. -/
def essentialsOf (cover : Nat → List Nat) (nMin : Nat) : List Nat :=
  (List.range nMin).foldl
    (fun ch i => if (cover i).length = 1 then addChosen ch ((cover i).headD 0) else ch) []

/-- Is minterm `i` covered by the chosen set?  (`markCovered` keeps
`coveredRows` equal to exactly this set, since `chosen` only grows.) -/
def coveredB (cover : Nat → List Nat) (ch : List Nat) (i : Nat) : Bool :=
  (cover i).any fun j => decide (j ∈ ch)

/-- `minBin.length - coveredRows.size`: the number of uncovered minterms. -/
def uncoveredCount (cover : Nat → List Nat) (nMin : Nat) (ch : List Nat) : Nat :=
  ((List.range nMin).filter fun i => !(coveredB cover ch i)).length

/-- How many currently-uncovered minterms implicant `j` covers. -/
def countCov (cover : Nat → List Nat) (nMin : Nat) (ch : List Nat) (j : Nat) : Nat :=
  ((List.range nMin).filter fun i => !(coveredB cover ch i) && decide (j ∈ cover i)).length

/-- The greedy scan for `bestJ`: over ascending `j`, keep the strictly best
count (so ties go to the lowest index); `none` iff every implicant is chosen
(the source's `bestJ === -1`, since `bestCoverCount` starts at `-1`). -/
def bestOf (P : Nat) (cover : Nat → List Nat) (nMin : Nat) (ch : List Nat) :
    Option (Nat × Nat) :=
  (List.range P).foldl
    (fun best j =>
      if decide (j ∈ ch) then best
      else
        let cnt := countCov cover nMin ch j
        match best with
        | none => some (j, cnt)
        | some bc => if cnt > bc.2 then some (j, cnt) else best)
    none

/-- Phase 6, the greedy covering loop, with fuel.  Each pass adds a
not-yet-chosen index below `P`, so `P + 1` fuel (what `selectImplicants`
passes) always reaches the source loop's own exit. -/
def greedyAux (P : Nat) (cover : Nat → List Nat) (nMin : Nat) :
    Nat → List Nat → List Nat
  | 0, ch => ch
  | fuel + 1, ch =>
    if uncoveredCount cover nMin ch = 0 then ch
    else
      match bestOf P cover nMin ch with
      | none => ch
      | some jc => greedyAux P cover nMin fuel (addChosen ch jc.1)

/-- Phases 5–6 of `qmSimplify`: essential implicants, then greedy covering. -/
def selectImplicants (P : Nat) (cover : Nat → List Nat) (nMin : Nat) : List Nat :=
  greedyAux P cover nMin (P + 1) (essentialsOf cover nMin)

/-- JS string indexing out of range concatenates as the text `undefined`. -/
def varAt (vars : List Str) (i : Nat) : Str := vars.getD i ("undefined".data)

/-- The literal string of one SOP product term (before the `'1'` fallback):
non-dash position `i` contributes `vars[i]`, complemented when `'0'`. -/
def sopPartAux (vars : List Str) : Str → Nat → Str
  | [], _ => []
  | c :: rest, i =>
    (if c = '-' then [] else varAt vars i ++ (if c = '1' then [] else ['\'']))
      ++ sopPartAux vars rest (i + 1)

/-- One SOP product term; an all-dash implicant renders as `"1"`. -/
def sopPart (mask : Str) (vars : List Str) : Str :=
  let s := sopPartAux vars mask 0
  if s.isEmpty then ['1'] else s

/-- `implicantsToSOP`: terms joined with `" + "`, `"0"` when empty. -/
def implicantsToSOP (impls : List Str) (vars : List Str) : Str :=
  if impls.isEmpty then ['0']
  else joinWith (' ' :: '+' :: [' ']) (impls.map (fun m => sopPart m vars))

/-- The sum string of one POS term, built with `" + "` separators as in the
source (`if (s) s += ' + '`). -/
def posPartAux (vars : List Str) : Str → Nat → Str → Str
  | [], _, s => s
  | c :: rest, i, s =>
    posPartAux vars rest (i + 1)
      (if c = '-' then s
       else
         let lit := varAt vars i ++ (if c = '0' then [] else ['\''])
         if s.isEmpty then lit else s ++ ' ' :: '+' :: ' ' :: lit)

/-- One POS sum term, parenthesised; with no literals it renders as `"1"`. -/
def posPart (mask : Str) (vars : List Str) : Str :=
  let s := posPartAux vars mask 0 []
  if s.isEmpty then ['1'] else '(' :: s ++ [')']

/-- `implicantsToPOS`: sum terms concatenated with no separator, `"1"` when
empty. -/
def implicantsToPOS (impls : List Str) (vars : List Str) : Str :=
  if impls.isEmpty then ['1'] else (impls.map (fun m => posPart m vars)).flatten

/-- The minimization mode. -/
inductive QMode
  | SOP
  | POS
deriving DecidableEq

/-- Fuel for the combination loop; see `qmLoop`. -/
def qmLoopFuel (W : Nat) : Nat := W + 2

/-- Phases 2–4 of `qmSimplify`: the prime-implicant list — group the terms,
run the combination loop, union the collected primes with whatever remains
in the final groups, deduplicating in insertion order. -/
def qmPrimeList (minterms dontcares : List Nat) (W : Nat) : List Str :=
  let bins := (minterms ++ dontcares).map (fun m => toBin m W)
  let lf := qmLoop (qmLoopFuel W) (initGroups bins)
  dedupFirst (lf.1.flatten ++ (itemsOf lf.2).map (fun it => it.bin))

/-- Phases 4–6 of `qmSimplify`: the prime-implicant chart over the true
minterms and the index set chosen by essential + greedy selection. -/
def qmChosen (minterms dontcares : List Nat) (W : Nat) : List Nat :=
  let primeList := qmPrimeList minterms dontcares W
  let minBin := minterms.map (fun m => toBin m W)
  let cov := coverList primeList minBin
  selectImplicants primeList.length (fun i => cov.getD i []) minBin.length

/-- The chosen implicant patterns, in chosen order. -/
def qmImplicants (minterms dontcares : List Nat) (W : Nat) : List Str :=
  (qmChosen minterms dontcares W).map
    (fun j => (qmPrimeList minterms dontcares W).getD j [])

/-- `qmSimplify` from the source: the full Quine–McCluskey pipeline,
returning the chosen implicants and the rendered text. -/
def qmSimplify (minterms dontcares : List Nat) (varNames : List Str) (mode : QMode) :
    List Str × Str :=
  let allTerms := minterms ++ dontcares
  if allTerms.isEmpty then ([], if mode = .SOP then ['0'] else ['1'])
  else
    let implicants := qmImplicants minterms dontcares varNames.length
    match mode with
    | .SOP => (implicants, implicantsToSOP implicants varNames)
    | .POS => (implicants, implicantsToPOS implicants varNames)

/-! ## K-map layout -/

/-- `GRAY2` from the source. -/
def GRAY2 : List Nat := [0, 1]

/-- `GRAY4` from the source. -/
def GRAY4 : List Nat := [0, 1, 3, 2]

/-- A K-map layout: Gray-code row/column sequences, axis variable names, and
the grid-position-to-minterm-index function. -/
structure KMapLayout where
  rows : List Nat
  cols : List Nat
  rowVars : List Str
  colVars : List Str
  index : Nat → Nat → Nat

/-- `kmapLayoutForVars` from the source; `none` above 4 variables. -/
def kmapLayoutForVars (nVars : Nat) : Option KMapLayout :=
  if nVars = 1 then
    some ⟨[0, 1], [0], [['A']], [], fun r _ => GRAY2.getD r 0⟩
  else if nVars = 2 then
    some ⟨GRAY2, GRAY2, [['A']], [['B']], fun r c =>
      let a := GRAY2.getD r 0
      let b := GRAY2.getD c 0
      (a <<< 1) ||| b⟩
  else if nVars = 3 then
    some ⟨GRAY2, GRAY4, [['A']], [['B'], ['C']], fun r c =>
      let a := GRAY2.getD r 0
      let bc := GRAY4.getD c 0
      let b := (bc >>> 1) &&& 1
      let c' := bc &&& 1
      (a <<< 2) ||| (b <<< 1) ||| c'⟩
  else if nVars = 4 then
    some ⟨GRAY4, GRAY4, [['A'], ['B']], [['C'], ['D']], fun r c =>
      let ab := GRAY4.getD r 0
      let cd := GRAY4.getD c 0
      let a := (ab >>> 1) &&& 1
      let b := ab &&& 1
      let c' := (cd >>> 1) &&& 1
      let d := cd &&& 1
      (a <<< 3) ||| (b <<< 2) ||| (c' <<< 1) ||| d⟩
  else none

/-- Population count with structural fuel (for kernel evaluation). -/
def popcAux : Nat → Nat → Nat
  | 0, _ => 0
  | fuel + 1, n => if n = 0 then 0 else n % 2 + popcAux fuel (n / 2)

/-- Number of set bits. -/
def popc (n : Nat) : Nat := popcAux (n + 1) n

/-- Two minterm indices differ in exactly one bit. -/
def oneBitApart (a b : Nat) : Bool := popc (a ^^^ b) = 1

/-! ## Composed pipeline (tokenize → parse → evaluate) -/

/-- A failure anywhere in the tokenize/parse/evaluate pipeline. -/
inductive PipeErr
  | lex (e : LexError)
  | par (e : ParseErr)
  | eval (e : EvalErr)
deriving DecidableEq

/-- Tokenize, parse and evaluate an expression text under an environment. -/
def pipelineEval (text : Str) (env : Env) : Except PipeErr Nat :=
  match tokenize text with
  | .error e => .error (.lex e)
  | .ok toks =>
    match toRPN toks with
    | .error e => .error (.par e)
    | .ok rpn =>
      match evalRPN rpn env with
      | .error e => .error (.eval e)
      | .ok y => .ok y

end KMap

/-! ## Claim theorems -/

namespace KMap

/-- A default item for positional access. -/
def itemDefault : Item := ⟨[], false, []⟩

/-- C6: for every n ∈ {1,2,3,4}, in the layout returned by the K-map layout
generator, every pair of adjacent grid cells — row neighbours or column
neighbours, including the wraparound from the last row/column to the first —
maps under the layout's index function to minterm indices whose binary
representations differ in exactly one bit. -/
theorem claim_C6 (n : Nat) (h1 : 1 ≤ n) (h4 : n ≤ 4) :
    ∃ L, kmapLayoutForVars n = some L ∧
      ∀ r, r < L.rows.length → ∀ c, c < L.cols.length →
        (2 ≤ L.rows.length →
          oneBitApart (L.index r c) (L.index ((r + 1) % L.rows.length) c) = true) ∧
        (2 ≤ L.cols.length →
          oneBitApart (L.index r c) (L.index r ((c + 1) % L.cols.length)) = true) := by
  interval_cases n
  · exact ⟨_, rfl, by decide⟩
  · exact ⟨_, rfl, by decide⟩
  · exact ⟨_, rfl, by decide⟩
  · exact ⟨_, rfl, by decide⟩

/-- Witness for C6 at the concrete input n = 4. -/
theorem claim_C6_witness :
    ∃ L, kmapLayoutForVars 4 = some L ∧
      ∀ r, r < L.rows.length → ∀ c, c < L.cols.length →
        (2 ≤ L.rows.length →
          oneBitApart (L.index r c) (L.index ((r + 1) % L.rows.length) c) = true) ∧
        (2 ≤ L.cols.length →
          oneBitApart (L.index r c) (L.index r ((c + 1) % L.cols.length)) = true) :=
  claim_C6 4 (by decide) (by decide)

end KMap

namespace KMap

/-- C7: minimizing minterms {0,3} with no don't-cares over variables
["A","B"] in POS mode returns exactly the implicants ["00","11"] and the
text "(A + B)(A' + B')": sum terms are parenthesised and concatenated with
no separator, a non-dash position contributing the plain variable for
symbol '0' and the complemented variable for symbol '1'. -/
theorem claim_C7 :
    qmSimplify [0, 3] [] [['A'], ['B']] .POS =
      ([['0', '0'], ['1', '1']], "(A + B)(A' + B')".data) := by
  decide

/-- C9: tokenizing "AB'+C" yields [Variable A, Variable B, postfix NOT, OR,
Variable C]; the parser's phase 1 inserts an implicit AND between A and B
(before the postfix NOT) and phase 2 produces the postfix sequence
A B NOT AND C OR; and evaluating that sequence with A=1, B=0, C=0
returns 1. -/
theorem claim_C9 :
    tokenize "AB'+C".data =
      .ok [Token.var 'A', Token.var 'B', notPostTok, orTok, Token.var 'C'] ∧
    insertImplicit [Token.var 'A', Token.var 'B', notPostTok, orTok, Token.var 'C'] =
      [Token.var 'A', implicitAndTok, Token.var 'B', notPostTok, orTok, Token.var 'C'] ∧
    toRPN [Token.var 'A', Token.var 'B', notPostTok, orTok, Token.var 'C'] =
      .ok [Token.var 'A', Token.var 'B', notPostTok, implicitAndTok, Token.var 'C', orTok] ∧
    evalRPN [Token.var 'A', Token.var 'B', notPostTok, implicitAndTok, Token.var 'C', orTok]
      (fun s => if s = ['A'] then some 1 else if s = ['B'] then some 0 else
                if s = ['C'] then some 0 else none) = .ok 1 := by
  refine ⟨by decide, by decide, by decide, ?_⟩
  decide

/-- Counterexample to C1 as stated: quantifying over *every* variable list of
length n breaks the round trip.  With the duplicated list ["A","A"] and
M = {1} the minimized SOP text is "A'A", which evaluates to 0 at the minterm
1 ∈ M; with the empty variable list (n = 0) and M = {0} the text is
"undefined'" (JS out-of-range indexing), whose re-evaluation fails; with the
lower-case list ["a"] and M = {1} the text "a" re-tokenizes to the variable
A, absent from the environment. -/
theorem claim_C1_counterexample :
    pipelineEval (qmSimplify [1] [] [['A'], ['A']] .SOP).2 (envFor [['A'], ['A']] 1) =
      .ok 0 ∧
    (1 ∈ ([1] : List Nat)) ∧
    pipelineEval (qmSimplify [0] [] [] .SOP).2 (envFor [] 0) =
      .error (.eval .undefinedVariable) ∧
    (0 ∈ ([0] : List Nat)) ∧
    pipelineEval (qmSimplify [1] [] [['a']] .SOP).2 (envFor [['a']] 1) =
      .error (.eval .undefinedVariable) ∧
    (1 ∈ ([1] : List Nat)) := by
  refine ⟨by decide, by decide, by decide, by decide, by decide, by decide⟩

/-- The groups after two combination rounds on minterms {0,1,2,3}, width 2. -/
def c3Groups2 : Groups :=
  (qmRound (qmRound (initGroups ([0, 1, 2, 3].map (fun m => toBin m 2)))).1).1

/-- Counterexample to C3 as stated: after the second combination round on
minterms {0,1,2,3} (width 2), the deduplicated bucket of key 0 keeps two
distinct implicants with the same bit pattern "--" and the same from-*set*
{00,01,10,11}; they survive because the source deduplicates on the
comma-joined from-*list*, and the two lists order the minterm strings
differently. -/
theorem claim_C3_counterexample :
    (bucketAt c3Groups2 0).length = 2 ∧
    ((bucketAt c3Groups2 0).getD 0 itemDefault).bin =
      ((bucketAt c3Groups2 0).getD 1 itemDefault).bin ∧
    (((bucketAt c3Groups2 0).getD 0 itemDefault).fromS).toFinset =
      (((bucketAt c3Groups2 0).getD 1 itemDefault).fromS).toFinset ∧
    ((bucketAt c3Groups2 0).getD 0 itemDefault).fromS ≠
      ((bucketAt c3Groups2 0).getD 1 itemDefault).fromS := by
  refine ⟨by decide, by decide, by decide, by decide⟩

/-- Counterexample to C10 as stated: "A''" tokenizes successfully although
its second apostrophe (position 2) immediately follows an apostrophe, not a
letter; an accepted apostrophe therefore need not immediately follow a
letter, it only has to extend a run started at one. -/
theorem claim_C10_counterexample :
    tokenize "A''".data = .ok [Token.var 'A'] ∧
    "A''".data.getD 2 ' ' = '\'' ∧
    isLetterChar ("A''".data.getD 1 ' ') = false := by
  refine ⟨by decide, by decide, by decide⟩

end KMap

namespace KMap

/-- The literal string of a product term over an all-dash mask is empty. -/
theorem sopPartAux_all_dash (vars : List Str) :
    ∀ (mask : Str) (i : Nat), (∀ c ∈ mask, c = '-') → sopPartAux vars mask i = [] := by
  intro mask
  induction mask with
  | nil => intro i _; rfl
  | cons c rest ih =>
    intro i h
    have hc : c = '-' := h c (by simp)
    simp [sopPartAux, hc, ih (i + 1) (fun d hd => h d (by simp [hd]))]

/-- C8: the minimizer's degenerate cases — with both input sets empty,
`minimize` returns no implicants and the text "0" in SOP mode and "1" in POS
mode; with an empty chosen implicant set the SOP renderer yields "0" and the
POS renderer "1"; and an all-dash implicant renders as the literal "1" in
SOP mode. -/
theorem claim_C8 :
    (∀ vars, qmSimplify [] [] vars .SOP = ([], ['0'])) ∧
    (∀ vars, qmSimplify [] [] vars .POS = ([], ['1'])) ∧
    (∀ vars, implicantsToSOP [] vars = ['0']) ∧
    (∀ vars, implicantsToPOS [] vars = ['1']) ∧
    (∀ vars mask, (∀ c ∈ mask, c = '-') → implicantsToSOP [mask] vars = ['1']) := by
  refine ⟨fun vars => rfl, fun vars => rfl, fun vars => rfl, fun vars => rfl, ?_⟩
  intro vars mask h
  simp [implicantsToSOP, joinWith, sopPart, sopPartAux_all_dash vars mask 0 h]

/-- Witness for C8's hypothesis-bearing conjunct: the all-dash mask "--"
over variables ["A","B"] renders as "1". -/
theorem claim_C8_witness : implicantsToSOP [['-', '-']] [['A'], ['B']] = ['1'] :=
  claim_C8.2.2.2.2 [['A'], ['B']] ['-', '-'] (by decide)

end KMap

namespace KMap

/-- The evaluator exactly as §4.3 of the specification words it: NOT pops one
value (empty stack → InsufficientOperands); each binary operator pops two
values in order `b`, then `a` (fewer than two → InsufficientOperands) and
pushes AND = a∧b, OR = a∨b, XOR = a⊕b; an absent variable is
UndefinedVariable. -/
def evalSpecAux : List Token → Env → List Bool → Except EvalErr (List Bool)
  | [], _, st => .ok st
  | .num v :: ts, env, st => evalSpecAux ts env (decide (v ≠ 0) :: st)
  | .var c :: ts, env, st =>
    match env [c] with
    | none => .error .undefinedVariable
    | some v => evalSpecAux ts env (decide (v ≠ 0) :: st)
  | .op .NOT _ _ _ _ _ :: ts, env, st =>
    match st with
    | [] => .error .insufficientOperands
    | x :: st' => evalSpecAux ts env ((!x) :: st')
  | .op .AND _ _ _ _ _ :: ts, env, st =>
    match st with
    | b :: a :: st' => evalSpecAux ts env ((a && b) :: st')
    | _ => .error .insufficientOperands
  | .op .OR _ _ _ _ _ :: ts, env, st =>
    match st with
    | b :: a :: st' => evalSpecAux ts env ((a || b) :: st')
    | _ => .error .insufficientOperands
  | .op .XOR _ _ _ _ _ :: ts, env, st =>
    match st with
    | b :: a :: st' => evalSpecAux ts env ((a != b) :: st')
    | _ => .error .insufficientOperands
  | .lp :: ts, env, st => evalSpecAux ts env st
  | .rp :: ts, env, st => evalSpecAux ts env st

/-- The specification-worded evaluator: a single remaining value is the
returned bit, any other final stack size is InvalidExpression. -/
def evalRPNSpec (rpn : List Token) (env : Env) : Except EvalErr Nat :=
  match evalSpecAux rpn env [] with
  | .error e => .error e
  | .ok [x] => .ok (if x then 1 else 0)
  | .ok _ => .error .invalidExpression

/-- The source's stack loop agrees with the specification-worded one. -/
theorem evalAux_eq_spec : ∀ (ts : List Token) (env : Env) (st : List Bool),
    evalAux ts env st = evalSpecAux ts env st := by
  intro ts
  induction ts with
  | nil => intro env st; rfl
  | cons t rest ih =>
    intro env st
    cases t with
    | num v => simp [evalAux, evalSpecAux, ih]
    | var c =>
      cases h : env [c] with
      | none => simp [evalAux, evalSpecAux, h]
      | some v => simp [evalAux, evalSpecAux, h, ih]
    | op k u post p a i =>
      cases k with
      | NOT =>
        cases st with
        | nil => simp [evalAux, evalSpecAux]
        | cons x st' => simp [evalAux, evalSpecAux, ih]
      | AND =>
        match st with
        | [] => simp [evalAux, evalSpecAux]
        | [x] => simp [evalAux, evalSpecAux]
        | b :: a :: st' => simp [evalAux, evalSpecAux, ih]
      | OR =>
        match st with
        | [] => simp [evalAux, evalSpecAux]
        | [x] => simp [evalAux, evalSpecAux]
        | b :: a :: st' => simp [evalAux, evalSpecAux, ih]
      | XOR =>
        match st with
        | [] => simp [evalAux, evalSpecAux]
        | [x] => simp [evalAux, evalSpecAux]
        | b :: a :: st' => simp [evalAux, evalSpecAux, ih]
    | lp => simp [evalAux, evalSpecAux, ih]
    | rp => simp [evalAux, evalSpecAux, ih]

/-- C4: the evaluator, run on a postfix token sequence and an environment —
an absent variable yields UndefinedVariable; NOT on an empty stack and a
binary operator with fewer than two stacked values yield
InsufficientOperands; each binary operator pops b then a and pushes a∧b,
a∨b, a⊕b; and a single bit is returned exactly when one value remains after
all tokens, any other final count yielding InvalidExpression.  Stated as
agreement with the specification-worded evaluator `evalRPNSpec`, plus the
individual behaviours at explicit token sequences. -/
theorem claim_C4 :
    (∀ rpn env, evalRPN rpn env = evalRPNSpec rpn env) ∧
    evalRPN [Token.var 'A'] emptyEnv = .error .undefinedVariable ∧
    (∀ env, evalRPN [notPostTok] env = .error .insufficientOperands) ∧
    (∀ env, evalRPN [Token.num 1, andTok] env = .error .insufficientOperands) ∧
    (∀ env, evalRPN [Token.num 1, Token.num 0, andTok] env = .ok 0) ∧
    (∀ env, evalRPN [Token.num 1, Token.num 0, orTok] env = .ok 1) ∧
    (∀ env, evalRPN [Token.num 1, Token.num 0, xorTok] env = .ok 1) ∧
    (∀ env, evalRPN ([] : List Token) env = .error .invalidExpression) ∧
    (∀ env, evalRPN [Token.num 1, Token.num 0] env = .error .invalidExpression) := by
  refine ⟨?_, rfl, fun env => rfl, fun env => rfl, fun env => rfl, fun env => rfl,
    fun env => rfl, fun env => rfl, fun env => rfl⟩
  intro rpn env
  unfold evalRPN evalRPNSpec
  rw [evalAux_eq_spec]
  cases evalSpecAux rpn env [] with
  | error e => rfl
  | ok st =>
    match st with
    | [] => rfl
    | [x] => rfl
    | x :: y :: st' => simp

end KMap

namespace KMap

/-- A successful `exceptMap` yields one result per input, in order. -/
theorem exceptMap_ok_forall {f : α → Except ε β} :
    ∀ {l : List α} {rows : List β}, exceptMap f l = .ok rows → ∀ (d₁ : α) (d₂ : β),
      rows.length = l.length ∧ ∀ i, i < l.length → f (l.getD i d₁) = .ok (rows.getD i d₂) := by
  intro l
  induction l with
  | nil =>
    intro rows h d₁ d₂
    simp only [exceptMap, Except.ok.injEq] at h
    subst h
    simp
  | cons x xs ih =>
    intro rows h d₁ d₂
    simp only [exceptMap] at h
    cases hx : f x with
    | error e => rw [hx] at h; exact absurd h (by simp)
    | ok r =>
      rw [hx] at h
      cases hxs : exceptMap f xs with
      | error e => rw [hxs] at h; exact absurd h (by simp)
      | ok rs =>
        rw [hxs] at h
        simp only [Except.ok.injEq] at h
        subst h
        refine ⟨by simp [(ih hxs d₁ d₂).1], ?_⟩
        intro i hi
        match i with
        | 0 => simpa using hx
        | i + 1 => simpa using (ih hxs d₁ d₂).2 i (by simpa using hi)

/-- `exceptMap` succeeds when every element does. -/
theorem exceptMap_ok_of_forall {f : α → Except ε β} :
    ∀ {l : List α}, (∀ a ∈ l, ∃ b, f a = .ok b) → ∃ rows, exceptMap f l = .ok rows := by
  intro l
  induction l with
  | nil => intro _; exact ⟨[], rfl⟩
  | cons x xs ih =>
    intro h
    obtain ⟨b, hb⟩ := h x (by simp)
    obtain ⟨rows, hrows⟩ := ih (fun a ha => h a (by simp [ha]))
    exact ⟨b :: rows, by simp [exceptMap, hb, hrows]⟩

/-- Folding key/value updates over `0..k-1` with injective keys: each updated
key maps to its own value. -/
theorem envFold_getD (key : Nat → Str) (val : Nat → Nat) (N : Nat)
    (hinj : ∀ i j, i < N → j < N → key i = key j → i = j) :
    ∀ k, k ≤ N → ∀ i, i < k →
      ((List.range k).foldl (fun e j => envUpd e (key j) (val j)) emptyEnv) (key i) =
        some (val i) := by
  intro k
  induction k with
  | zero => intro _ i hi; omega
  | succ k ih =>
    intro hk i hi
    rw [List.range_succ, List.foldl_append]
    simp only [List.foldl_cons, List.foldl_nil]
    by_cases hik : i = k
    · subst hik
      simp [envUpd]
    · have hne : key i ≠ key k := fun h =>
        hik (hinj i k (by omega) (by omega) h)
      simp only [envUpd, if_neg hne]
      exact ih (by omega) i (by omega)

/-- With distinct variables, the environment built for minterm `m` assigns to
the `i`-th variable the value `(m >>> (n-1-i)) &&& 1`. -/
theorem envFor_getD (vars : List Str) (m : Nat) (hnd : vars.Nodup) (i : Nat)
    (hi : i < vars.length) :
    envFor vars m (vars.getD i []) = some ((m >>> (vars.length - 1 - i)) &&& 1) := by
  have hinj : ∀ a b, a < vars.length → b < vars.length →
      vars.getD a [] = vars.getD b [] → a = b := by
    intro a b ha hb hab
    rw [vars.getD_eq_getElem [] ha, vars.getD_eq_getElem [] hb] at hab
    exact (List.Nodup.getElem_inj_iff hnd).mp hab
  exact envFold_getD (fun j => vars.getD j []) (fun j => (m >>> (vars.length - 1 - j)) &&& 1)
    vars.length hinj vars.length le_rfl i hi

/-- Counterexample to C5 as stated: on the duplicated variable list
["A","A"] (size 2) the claimed bit assignment fails.  At row m = 1 the
claimed value for the 0-th variable is bit (2-1-0) of 1, i.e. 0, but the
source's environment maps "A" to 1: the later write `env[vars[1]] = 1`
shadows the earlier `env[vars[0]] = 0` on the shared name. -/
theorem claim_C5_counterexample :
    (buildTruthTable [['A'], ['A']] none).map
        (fun rows => (rows.getD 1 ⟨0, emptyEnv, 0⟩).env
          (([['A'], ['A']] : List Str).getD 0 [])) = .ok (some 1) ∧
    (1 : Nat) / 2 ^ (([['A'], ['A']] : List Str).length - 1 - 0) % 2 = 0 ∧
    ¬ ((some 1 : Option Nat) = some 0) := by
  refine ⟨by decide, by decide, by decide⟩

/-- C5 (amended): for every list of *distinct* variables of size n ≤ 8 and
every optional postfix expression, `buildTruthTable` returns exactly `2^n`
rows in order `m = 0 .. 2^n − 1`, where row m's environment assigns to the
i-th variable bit `(n-1-i)` of m (most-significant variable first), the
output is the evaluator's result on that environment, and when the
expression is absent every row's output is 0 (and the call always succeeds);
the unamended claim fails on duplicated variable lists, where the later
write to the shared name shadows the earlier one. -/
theorem claim_C5 (vars : List Str) (hnd : vars.Nodup) (h8 : vars.length ≤ 8) :
    (∀ rpnOpt rows, buildTruthTable vars rpnOpt = .ok rows →
      rows.length = 2 ^ vars.length ∧
      ∀ m, m < 2 ^ vars.length →
        (rows.getD m ⟨0, emptyEnv, 0⟩).m = m ∧
        (∀ i, i < vars.length →
          (rows.getD m ⟨0, emptyEnv, 0⟩).env (vars.getD i []) =
            some (m / 2 ^ (vars.length - 1 - i) % 2)) ∧
        (rpnOpt = none → (rows.getD m ⟨0, emptyEnv, 0⟩).y = 0) ∧
        (∀ r, rpnOpt = some r →
          Except.ok (rows.getD m ⟨0, emptyEnv, 0⟩).y = evalRPN r (envFor vars m))) ∧
    (∃ rows, buildTruthTable vars none = .ok rows) := by
  have hpow : 1 <<< vars.length = 2 ^ vars.length := by
    rw [Nat.shiftLeft_eq, one_mul]
  have henv : ∀ m i, i < vars.length →
      envFor vars m (vars.getD i []) = some (m / 2 ^ (vars.length - 1 - i) % 2) := by
    intro m i hi
    rw [envFor_getD vars m hnd i hi, Nat.shiftRight_eq_div_pow, Nat.and_one_is_mod]
  constructor
  · intro rpnOpt rows h
    unfold buildTruthTable at h
    have hmain := exceptMap_ok_forall h 0 ⟨0, emptyEnv, 0⟩
    rw [List.length_range, hpow] at hmain
    refine ⟨hmain.1, ?_⟩
    intro m hm
    have hf := hmain.2 m hm
    rw [List.getD_eq_getElem (List.range (2 ^ vars.length)) 0
        (by rw [List.length_range]; exact hm),
      List.getElem_range] at hf
    cases rpnOpt with
    | none =>
      simp only [Except.ok.injEq] at hf
      refine ⟨by rw [← hf], ?_, fun _ => by rw [← hf], ?_⟩
      · intro i hi
        rw [← hf]
        exact henv m i hi
      · intro r hr
        exact absurd hr (by simp)
    | some r =>
      simp only at hf
      cases he : evalRPN r (envFor vars m) with
      | error e => rw [he] at hf; exact absurd hf (by simp)
      | ok y =>
        rw [he] at hf
        simp only [Except.ok.injEq] at hf
        refine ⟨by rw [← hf], ?_, by simp, ?_⟩
        · intro i hi
          rw [← hf]
          exact henv m i hi
        · intro r' hr'
          cases hr'
          rw [← hf, he]
  · exact exceptMap_ok_of_forall (fun a _ => ⟨⟨a, envFor vars a, 0⟩, rfl⟩)

/-- Witness for C5 at the concrete variable list ["A","B"]. -/
theorem claim_C5_witness :
    (∀ rpnOpt rows, buildTruthTable [['A'], ['B']] rpnOpt = .ok rows →
      rows.length = 2 ^ ([['A'], ['B']] : List Str).length ∧
      ∀ m, m < 2 ^ ([['A'], ['B']] : List Str).length →
        (rows.getD m ⟨0, emptyEnv, 0⟩).m = m ∧
        (∀ i, i < ([['A'], ['B']] : List Str).length →
          (rows.getD m ⟨0, emptyEnv, 0⟩).env (([['A'], ['B']] : List Str).getD i []) =
            some (m / 2 ^ (([['A'], ['B']] : List Str).length - 1 - i) % 2)) ∧
        (rpnOpt = none → (rows.getD m ⟨0, emptyEnv, 0⟩).y = 0) ∧
        (∀ r, rpnOpt = some r →
          Except.ok (rows.getD m ⟨0, emptyEnv, 0⟩).y =
            evalRPN r (envFor [['A'], ['B']] m))) ∧
    (∃ rows, buildTruthTable [['A'], ['B']] none = .ok rows) :=
  claim_C5 [['A'], ['B']] (by decide) (by decide)

end KMap

namespace KMap

/-! ### C2: the selection phase against the specification's wording -/

/-- Specification wording of "essential": the minterm is covered by exactly
one implicant, which is forced into the chosen set.  Essentials are listed by
ascending minterm, first occurrence first. -/
def specEssentials (cover : Nat → List Nat) (nMin : Nat) : List Nat :=
  dedupFirst ((List.range nMin).filterMap fun i =>
    match cover i with
    | [j] => some j
    | _ => none)

/-- Specification wording of "covered": some chosen implicant covers it. -/
def specCovered (cover : Nat → List Nat) (ch : List Nat) (i : Nat) : Prop :=
  ∃ j ∈ cover i, j ∈ ch

instance specCoveredDec (cover : Nat → List Nat) (ch : List Nat) (i : Nat) :
    Decidable (specCovered cover ch i) :=
  inferInstanceAs (Decidable (∃ j ∈ cover i, j ∈ ch))

/-- The currently-uncovered minterms. -/
def specUncovList (cover : Nat → List Nat) (nMin : Nat) (ch : List Nat) : List Nat :=
  (List.range nMin).filter fun i => !decide (specCovered cover ch i)

/-- How many currently-uncovered minterms implicant `j` covers. -/
def specCount (cover : Nat → List Nat) (nMin : Nat) (ch : List Nat) (j : Nat) : Nat :=
  ((List.range nMin).filter fun i =>
    decide (¬ specCovered cover ch i ∧ j ∈ cover i)).length

/-- The specification's deterministic chooser: scan the candidates in
ascending index order, keeping a strictly better cover count — i.e. the
implicant covering the most currently-uncovered minterms, ties broken by
lowest implicant index. -/
def specBestAux (cnt : Nat → Nat) : List Nat → Option (Nat × Nat) → Option (Nat × Nat)
  | [], best => best
  | j :: js, best =>
    match best with
    | none => specBestAux cnt js (some (j, cnt j))
    | some bc => specBestAux cnt js (if cnt j > bc.2 then some (j, cnt j) else some bc)

/-- The chosen implicant of one greedy step, per the specification. -/
def specBest (P : Nat) (cover : Nat → List Nat) (nMin : Nat) (ch : List Nat) :
    Option (Nat × Nat) :=
  specBestAux (specCount cover nMin ch)
    ((List.range P).filter fun j => !decide (j ∈ ch)) none

/-- The greedy loop as §4.5 step 7 words it: while uncovered minterms remain,
choose the best not-yet-chosen implicant; stop when all minterms are covered
or no implicant covers any remaining minterm (best count 0), or no implicant
is left at all. -/
def specGreedyAux (P : Nat) (cover : Nat → List Nat) (nMin : Nat) :
    Nat → List Nat → List Nat
  | 0, ch => ch
  | fuel + 1, ch =>
    if (specUncovList cover nMin ch).isEmpty then ch
    else
      match specBest P cover nMin ch with
      | none => ch
      | some jc =>
        if jc.2 = 0 then ch
        else specGreedyAux P cover nMin fuel (ch ++ [jc.1])

/-- The whole selection phase as the specification words it. -/
def selectSpec (P : Nat) (cover : Nat → List Nat) (nMin : Nat) : List Nat :=
  specGreedyAux P cover nMin (P + 1) (specEssentials cover nMin)

/-- A conditional `addChosen` fold is the `addChosen` fold of the filter-map. -/
theorem foldl_addChosen_filterMap (cond : Nat → Prop) [DecidablePred cond] (g : Nat → Nat) :
    ∀ (l : List Nat) (acc : List Nat),
      l.foldl (fun ch i => if cond i then addChosen ch (g i) else ch) acc =
        (l.filterMap fun i => if cond i then some (g i) else none).foldl addChosen acc := by
  intro l
  induction l with
  | nil => intro acc; rfl
  | cons x xs ih =>
    intro acc
    by_cases hx : cond x
    · simp [hx, ih]
    · simp [hx, ih]

/-- Folding `addChosen` from an accumulator is appending the seen-filtered
first-occurrence deduplication. -/
theorem foldl_addChosen_dedup :
    ∀ (l : List Nat) (acc seen : List Nat), (∀ x, x ∈ acc ↔ x ∈ seen) →
      l.foldl addChosen acc = acc ++ dedupFirstAux l seen := by
  intro l
  induction l with
  | nil => intro acc seen _; simp [dedupFirstAux]
  | cons x xs ih =>
    intro acc seen hmem
    by_cases hx : x ∈ seen
    · have hacc : x ∈ acc := (hmem x).mpr hx
      simp only [List.foldl_cons, dedupFirstAux, if_pos hx, addChosen, if_pos hacc]
      exact ih acc seen hmem
    · have hacc : x ∉ acc := fun h => hx ((hmem x).mp h)
      simp only [List.foldl_cons, dedupFirstAux, if_neg hx, addChosen, if_neg hacc]
      rw [ih (acc ++ [x]) (x :: seen) (by intro y; simp [hmem y]; tauto)]
      simp

/-- The source's essential-implicant fold equals the specification's. -/
theorem essentialsOf_eq_spec (cover : Nat → List Nat) (nMin : Nat) :
    essentialsOf cover nMin = specEssentials cover nMin := by
  unfold essentialsOf specEssentials dedupFirst
  rw [foldl_addChosen_filterMap (fun i => (cover i).length = 1)
    (fun i => (cover i).headD 0) (List.range nMin) []]
  rw [foldl_addChosen_dedup _ [] [] (by simp)]
  rw [List.nil_append]
  congr 1
  apply List.filterMap_congr
  intro i _
  cases h : cover i with
  | nil => simp
  | cons a t =>
    cases t with
    | nil => simp
    | cons b t' => simp

/-- The source's best-implicant fold is the specification's chooser run on
the filtered candidate list. -/
theorem bestOf_eq_spec (P : Nat) (cover : Nat → List Nat) (nMin : Nat) (ch : List Nat) :
    bestOf P cover nMin ch = specBest P cover nMin ch := by
  unfold bestOf specBest
  have hcnt : specCount cover nMin ch = countCov cover nMin ch := by
    funext j
    unfold specCount countCov
    congr 1
    apply List.filter_congr
    intro i _
    have hcov : coveredB cover ch i = decide (specCovered cover ch i) := by
      unfold coveredB specCovered
      cases h : (cover i).any fun j => decide (j ∈ ch)
      · simp only [List.any_eq_false] at h
        symm
        simp only [decide_eq_false_iff_not]
        intro ⟨j, hj, hjch⟩
        exact absurd (decide_eq_true hjch) (h j hj)
      · simp only [List.any_eq_true] at h
        obtain ⟨j, hj, hjch⟩ := h
        symm
        simp only [decide_eq_true_eq]
        exact ⟨j, hj, of_decide_eq_true hjch⟩
    rw [hcov]
    cases hd : decide (specCovered cover ch i) <;> cases hm : decide (j ∈ cover i) <;>
      simp_all
  rw [hcnt]
  generalize countCov cover nMin ch = cnt
  have main : ∀ (l : List Nat) (best : Option (Nat × Nat)),
      l.foldl
        (fun best j =>
          if decide (j ∈ ch) then best
          else
            let c := cnt j
            match best with
            | none => some (j, c)
            | some bc => if c > bc.2 then some (j, c) else best)
        best =
      specBestAux cnt (l.filter fun j => !decide (j ∈ ch)) best := by
    intro l
    induction l with
    | nil => intro best; rfl
    | cons x xs ih =>
      intro best
      by_cases hx : x ∈ ch
      · simp only [List.foldl_cons, List.filter_cons, decide_eq_true hx, Bool.not_true,
          Bool.false_eq_true, if_false, if_true]
        exact ih best
      · simp only [List.foldl_cons, List.filter_cons, decide_eq_false hx, Bool.not_false,
          Bool.true_eq_false, if_false, if_true]
        cases best with
        | none => simp only [specBestAux]; exact ih _
        | some bc => simp only [specBestAux]; exact ih _
  exact main (List.range P) none

/-- Characterisation of the chooser: any result dominates every candidate
count and, started from `none`, is itself a candidate with its own count. -/
theorem specBestAux_char (cnt : Nat → Nat) :
    ∀ (l : List Nat) (best : Option (Nat × Nat)) (jc : Nat × Nat),
      specBestAux cnt l best = some jc →
      (∀ x ∈ l, cnt x ≤ jc.2) ∧ (∀ bc, best = some bc → bc.2 ≤ jc.2) ∧
        ((jc.1 ∈ l ∧ jc.2 = cnt jc.1) ∨ best = some jc) := by
  intro l
  induction l with
  | nil =>
    intro best jc h
    simp only [specBestAux] at h
    refine ⟨by simp, ?_, Or.inr h⟩
    intro bc hbc
    rw [hbc] at h
    exact le_of_eq (congrArg Prod.snd (Option.some.inj h))
  | cons x xs ih =>
    intro best jc h
    cases best with
    | none =>
      simp only [specBestAux] at h
      obtain ⟨h1, h2, h3⟩ := ih (some (x, cnt x)) jc h
      refine ⟨?_, by simp, ?_⟩
      · intro y hy
        rcases List.mem_cons.mp hy with rfl | hy'
        · exact h2 (y, cnt y) rfl
        · exact h1 y hy'
      · rcases h3 with ⟨hmem, hcnt'⟩ | heq
        · exact Or.inl ⟨List.mem_cons_of_mem x hmem, hcnt'⟩
        · cases heq
          exact Or.inl ⟨List.mem_cons_self x xs, rfl⟩
    | some bc =>
      simp only [specBestAux] at h
      by_cases hgt : cnt x > bc.2
      · rw [if_pos hgt] at h
        obtain ⟨h1, h2, h3⟩ := ih (some (x, cnt x)) jc h
        refine ⟨?_, ?_, ?_⟩
        · intro y hy
          rcases List.mem_cons.mp hy with rfl | hy'
          · exact h2 (y, cnt y) rfl
          · exact h1 y hy'
        · intro bc' hbc'
          cases hbc'
          exact le_trans (le_of_lt hgt) (h2 (x, cnt x) rfl)
        · rcases h3 with ⟨hmem, hcnt'⟩ | heq
          · exact Or.inl ⟨List.mem_cons_of_mem x hmem, hcnt'⟩
          · cases heq
            exact Or.inl ⟨List.mem_cons_self x xs, rfl⟩
      · rw [if_neg hgt] at h
        obtain ⟨h1, h2, h3⟩ := ih (some bc) jc h
        refine ⟨?_, ?_, ?_⟩
        · intro y hy
          rcases List.mem_cons.mp hy with rfl | hy'
          · exact le_trans (le_of_not_lt hgt) (h2 bc rfl)
          · exact h1 y hy'
        · intro bc' hbc'
          cases hbc'
          exact h2 bc rfl
        · rcases h3 with hmem | heq
          · exact Or.inl ⟨List.mem_cons_of_mem x hmem.1, hmem.2⟩
          · exact Or.inr heq
    
/-- Started from `none`, a nonempty candidate list always yields a choice. -/
theorem specBestAux_ne_none (cnt : Nat → Nat) :
    ∀ (l : List Nat) (bc : Nat × Nat), ∃ jc, specBestAux cnt l (some bc) = some jc := by
  intro l
  induction l with
  | nil => intro bc; exact ⟨bc, rfl⟩
  | cons x xs ih =>
    intro bc
    simp only [specBestAux]
    by_cases h : cnt x > bc.2
    · rw [if_pos h]; exact ih _
    · rw [if_neg h]; exact ih _

end KMap

namespace KMap

/-- The source's covered test decides the specification's covered predicate. -/
theorem coveredB_eq (cover : Nat → List Nat) (ch : List Nat) (i : Nat) :
    coveredB cover ch i = decide (specCovered cover ch i) := by
  unfold coveredB specCovered
  cases h : (cover i).any fun j => decide (j ∈ ch)
  · simp only [List.any_eq_false] at h
    symm
    simp only [decide_eq_false_iff_not]
    intro ⟨j, hj, hjch⟩
    exact absurd (decide_eq_true hjch) (h j hj)
  · simp only [List.any_eq_true] at h
    obtain ⟨j, hj, hjch⟩ := h
    symm
    simp only [decide_eq_true_eq]
    exact ⟨j, hj, of_decide_eq_true hjch⟩

/-- The source's uncovered count counts the specification's uncovered list. -/
theorem uncoveredCount_eq (cover : Nat → List Nat) (nMin : Nat) (ch : List Nat) :
    uncoveredCount cover nMin ch = (specUncovList cover nMin ch).length := by
  unfold uncoveredCount specUncovList
  congr 1
  apply List.filter_congr
  intro i _
  rw [coveredB_eq]

/-- With every minterm covered by some implicant of the chart (as in every
chart the minimizer builds), the source's greedy loop and the
specification's agree step by step. -/
theorem greedy_lockstep (P : Nat) (cover : Nat → List Nat) (nMin : Nat)
    (hne : ∀ i, i < nMin → cover i ≠ [])
    (hlt : ∀ i, i < nMin → ∀ j ∈ cover i, j < P) :
    ∀ (fuel : Nat) (ch : List Nat),
      greedyAux P cover nMin fuel ch = specGreedyAux P cover nMin fuel ch := by
  intro fuel
  induction fuel with
  | zero => intro ch; rfl
  | succ fuel ih =>
    intro ch
    unfold greedyAux specGreedyAux
    rw [uncoveredCount_eq]
    by_cases hz : (specUncovList cover nMin ch).length = 0
    · rw [if_pos hz, if_pos (List.isEmpty_iff.mpr (List.length_eq_zero.mp hz))]
    · rw [if_neg hz, if_neg (fun he => hz (by rw [List.isEmpty_iff.mp he]; rfl))]
      rw [bestOf_eq_spec]
      cases hb : specBest P cover nMin ch with
      | none => rfl
      | some jc =>
        -- the chosen index is an unchosen candidate and its count is maximal
        have hchar := specBestAux_char (specCount cover nMin ch)
          ((List.range P).filter fun j => !decide (j ∈ ch)) none jc hb
        have hjc : jc.1 ∈ (List.range P).filter (fun j => !decide (j ∈ ch)) ∧
            jc.2 = specCount cover nMin ch jc.1 := by
          rcases hchar.2.2 with h | h
          · exact h
          · exact absurd h (by simp)
        have hjnotch : jc.1 ∉ ch := by
          have := (List.mem_filter.mp hjc.1).2
          simpa using this
        -- some uncovered minterm exists, and one of its coverers is a candidate
        have hex : ∃ i, i ∈ specUncovList cover nMin ch :=
          List.exists_mem_of_ne_nil _ (fun h => hz (by rw [h]; rfl))
        obtain ⟨i, hi⟩ := hex
        have hi' := List.mem_filter.mp hi
        have hiR : i < nMin := List.mem_range.mp hi'.1
        have hicov : ¬ specCovered cover ch i := by simpa using hi'.2
        obtain ⟨j', hj'⟩ : ∃ j', j' ∈ cover i :=
          List.exists_mem_of_ne_nil _ (hne i hiR)
        have hj'P : j' < P := hlt i hiR j' hj'
        have hj'ch : j' ∉ ch := fun hmem => hicov ⟨j', hj', hmem⟩
        have hj'cand : j' ∈ (List.range P).filter (fun j => !decide (j ∈ ch)) :=
          List.mem_filter.mpr ⟨List.mem_range.mpr hj'P, by simpa using hj'ch⟩
        have hcnt1 : 1 ≤ specCount cover nMin ch j' := by
          have : i ∈ (List.range nMin).filter
              (fun i => decide (¬ specCovered cover ch i ∧ j' ∈ cover i)) :=
            List.mem_filter.mpr ⟨List.mem_range.mpr hiR, by simp [hicov, hj']⟩
          have := List.length_pos.mpr (List.ne_nil_of_mem this)
          simpa [specCount] using this
        have hjc2 : jc.2 ≠ 0 := by
          have := hchar.1 j' hj'cand
          omega
        simp only [addChosen, if_neg hjnotch, if_neg hjc2]
        exact ih (ch ++ [jc.1])

/-- C2: in the minimizer's selection phase, the chosen implicant set equals
the essential implicants (sole coverers of some true minterm) plus the
implicants added by the greedy loop that, while uncovered minterms remain,
picks the not-yet-chosen implicant covering the most currently-uncovered
minterms (ties to the lowest index) and stops when all minterms are covered
or no implicant covers any remaining minterm.  Stated for every chart in
which each minterm has at least one coverer (true of every chart the
minimizer builds): the source's `selectImplicants` produces exactly the
specification-worded `selectSpec`, literal chosen order included. -/
theorem claim_C2 (P : Nat) (cover : Nat → List Nat) (nMin : Nat)
    (hne : ∀ i, i < nMin → cover i ≠ [])
    (hlt : ∀ i, i < nMin → ∀ j ∈ cover i, j < P) :
    selectImplicants P cover nMin = selectSpec P cover nMin := by
  unfold selectImplicants selectSpec
  rw [essentialsOf_eq_spec]
  exact greedy_lockstep P cover nMin hne hlt (P + 1) (specEssentials cover nMin)

/-- Witness for C2 at a concrete chart: P = 2, minterm 0 covered only by
implicant 0, minterm 1 covered by both. -/
theorem claim_C2_witness :
    selectImplicants 2 (fun i => if i = 0 then [0] else [0, 1]) 2 =
      selectSpec 2 (fun i => if i = 0 then [0] else [0, 1]) 2 :=
  claim_C2 2 (fun i => if i = 0 then [0] else [0, 1]) 2
    (by decide) (by decide)

end KMap

namespace KMap

/-! ### C3: what the per-round deduplication guarantees -/

/-- The deduplicated bucket has pairwise distinct keys, none in `seen`. -/
theorem dedupByKeyAux_pairwise :
    ∀ (its : List Item) (seen : List Str),
      List.Pairwise (fun x y => itemKey x ≠ itemKey y) (dedupByKeyAux its seen) ∧
      ∀ it ∈ dedupByKeyAux its seen, itemKey it ∉ seen := by
  intro its
  induction its with
  | nil => intro seen; exact ⟨List.Pairwise.nil, by simp [dedupByKeyAux]⟩
  | cons x its ih =>
    intro seen
    by_cases hx : itemKey x ∈ seen
    · simpa [dedupByKeyAux, hx] using ih seen
    · obtain ⟨ihp, ihs⟩ := ih (itemKey x :: seen)
      simp only [dedupByKeyAux, if_neg hx]
      constructor
      · exact List.Pairwise.cons
          (fun y hy => fun he => (ihs y hy) (by rw [← he]; exact List.mem_cons_self _ _)) ihp
      · intro it hit
        rcases List.mem_cons.mp hit with rfl | hit'
        · exact hx
        · exact fun hmem => (ihs it hit') (List.mem_cons_of_mem _ hmem)

/-- Every item of a bucket leaves a key-representative in the dedup output. -/
theorem dedupByKeyAux_complete :
    ∀ (its : List Item) (seen : List Str) (it : Item), it ∈ its →
      itemKey it ∈ seen ∨ ∃ it', it' ∈ dedupByKeyAux its seen ∧ itemKey it' = itemKey it := by
  intro its
  induction its with
  | nil => intro seen it hit; cases hit
  | cons x its ih =>
    intro seen it hit
    by_cases hx : itemKey x ∈ seen
    · simp only [dedupByKeyAux, if_pos hx]
      rcases List.mem_cons.mp hit with rfl | hit'
      · exact Or.inl hx
      · exact ih seen it hit'
    · simp only [dedupByKeyAux, if_neg hx]
      rcases List.mem_cons.mp hit with rfl | hit'
      · exact Or.inr ⟨_, List.mem_cons_self _ _, rfl⟩
      · rcases ih (itemKey x :: seen) it hit' with hseen | ⟨it', hmem, hkey⟩
        · rcases List.mem_cons.mp hseen with heq | hseen'
          · exact Or.inr ⟨x, List.mem_cons_self _ _, heq.symm⟩
          · exact Or.inl hseen'
        · exact Or.inr ⟨it', List.mem_cons_of_mem _ hmem, hkey⟩

/-- C3 (amended): after each combination round, duplicate new implicants are
removed so that no two implicants surviving in a group share an identical
bit pattern together with an identical from-*sequence* (the ordered list of
originating minterm strings — two implicants whose from-sets are equal but
ordered differently may both survive, as the counterexample shows); and
deduplication only removes duplicates: every new implicant keeps a
key-representative in the deduplicated bucket. -/
theorem claim_C3 :
    (∀ (g : Groups) (kv : Nat × List Item), kv ∈ (qmRound g).1 →
      List.Pairwise (fun x y => ¬ (x.bin = y.bin ∧ x.fromS = y.fromS)) kv.2) ∧
    (∀ (its : List Item) (it : Item), it ∈ its →
      ∃ it', it' ∈ dedupBucket its ∧ itemKey it' = itemKey it) := by
  constructor
  · intro g kv hkv
    unfold qmRound at hkv
    simp only [List.mem_map] at hkv
    obtain ⟨kv0, _, hkv0⟩ := hkv
    have hpw := (dedupByKeyAux_pairwise kv0.2 []).1
    rw [← hkv0]
    refine List.Pairwise.imp ?_ hpw
    intro x y hxy ⟨hbin, hfrom⟩
    exact hxy (by unfold itemKey; rw [hbin, hfrom])
  · intro its it hit
    rcases dedupByKeyAux_complete its [] it hit with hseen | h
    · cases hseen
    · exact h

/-- Witness for C3 at the concrete input of the counterexample: the
deduplicated round-2 bucket on minterms {0,1,2,3} is pairwise distinct in
(pattern, from-sequence), and the first new item keeps a representative. -/
theorem claim_C3_witness :
    List.Pairwise (fun x y => ¬ (x.bin = y.bin ∧ x.fromS = y.fromS))
      (bucketAt c3Groups2 0) ∧
    (∃ it', it' ∈ dedupBucket [⟨['-'], false, [['0']]⟩, ⟨['-'], false, [['0']]⟩] ∧
      itemKey it' = itemKey (⟨['-'], false, [['0']]⟩ : Item)) := by
  constructor
  · have h := claim_C3.1 (qmRound (initGroups ([0, 1, 2, 3].map (fun m => toBin m 2)))).1
      (0, bucketAt c3Groups2 0)
    have hmem : ((0 : Nat), bucketAt c3Groups2 0) ∈
        (qmRound (qmRound (initGroups ([0, 1, 2, 3].map (fun m => toBin m 2)))).1).1 := by
      decide
    exact h hmem
  · exact claim_C3.2 [⟨['-'], false, [['0']]⟩, ⟨['-'], false, [['0']]⟩]
      ⟨['-'], false, [['0']]⟩ (List.mem_cons_self _ _)

end KMap

namespace KMap

/-! ### C10: where the scanner accepts apostrophes -/

/-- In the non-apostrophe case the scanner recurses on the tail, entering a
run exactly after a letter. -/
theorem tkAux_else_shape (c : Char) (rest : Str) (i : Nat) (inRun : Bool) (par : Nat)
    (toks : List Token) (hc : ¬ c = '\'')
    (h : tkAux (c :: rest) i inRun par = .ok toks) :
    ∃ ts, tkAux rest (i + 1) (isLetterChar c) 0 = .ok ts := by
  unfold tkAux at h
  rw [if_neg hc] at h
  by_cases h01 : c = '0' ∨ c = '1'
  · have hl : isLetterChar c = false := by
      rcases h01 with rfl | rfl <;> decide
    rw [if_pos h01] at h
    rw [hl]
    cases hrec : tkAux rest (i + 1) false 0 with
    | error e => rw [hrec] at h; exact absurd h (by simp)
    | ok ts => exact ⟨ts, rfl⟩
  · rw [if_neg h01] at h
    by_cases hl : isLetterChar c
    · rw [if_pos hl] at h
      rw [hl]
      cases hrec : tkAux rest (i + 1) true 0 with
      | error e => rw [hrec] at h; exact absurd h (by simp)
      | ok ts => exact ⟨ts, rfl⟩
    · rw [if_neg hl] at h
      rw [Bool.not_eq_true] at hl
      rw [hl]
      by_cases hlp : c = '('
      · rw [if_pos hlp] at h
        cases hrec : tkAux rest (i + 1) false 0 with
        | error e => rw [hrec] at h; exact absurd h (by simp)
        | ok ts => exact ⟨ts, rfl⟩
      · rw [if_neg hlp] at h
        by_cases hrp : c = ')'
        · rw [if_pos hrp] at h
          cases hrec : tkAux rest (i + 1) false 0 with
          | error e => rw [hrec] at h; exact absurd h (by simp)
          | ok ts => exact ⟨ts, rfl⟩
        · rw [if_neg hrp] at h
          by_cases hbang : c = '!' ∨ c = '~'
          · rw [if_pos hbang] at h
            cases hrec : tkAux rest (i + 1) false 0 with
            | error e => rw [hrec] at h; exact absurd h (by simp)
            | ok ts => exact ⟨ts, rfl⟩
          · rw [if_neg hbang] at h
            by_cases hand : c = '&' ∨ c = '*'
            · rw [if_pos hand] at h
              cases hrec : tkAux rest (i + 1) false 0 with
              | error e => rw [hrec] at h; exact absurd h (by simp)
              | ok ts => exact ⟨ts, rfl⟩
            · rw [if_neg hand] at h
              by_cases hor : c = '+' ∨ c = '|'
              · rw [if_pos hor] at h
                cases hrec : tkAux rest (i + 1) false 0 with
                | error e => rw [hrec] at h; exact absurd h (by simp)
                | ok ts => exact ⟨ts, rfl⟩
              · rw [if_neg hor] at h
                by_cases hxor : c = '^'
                · rw [if_pos hxor] at h
                  cases hrec : tkAux rest (i + 1) false 0 with
                  | error e => rw [hrec] at h; exact absurd h (by simp)
                  | ok ts => exact ⟨ts, rfl⟩
                · rw [if_neg hxor] at h
                  exact absurd h (by simp)

/-- If the scan succeeds, every apostrophe belongs to an apostrophe run that
traces back to a letter (or, with the scanner already inside a run, to the
start of the input). -/
theorem tkAux_quote_run :
    ∀ (s : Str) (i : Nat) (inRun : Bool) (par : Nat) (toks : List Token),
      tkAux s i inRun par = .ok toks →
      ∀ k, k < s.length → s.getD k ' ' = '\'' →
        (∃ j, j < k ∧ isLetterChar (s.getD j ' ') = true ∧
          ∀ t, j < t → t ≤ k → s.getD t ' ' = '\'') ∨
        (inRun = true ∧ ∀ t, t ≤ k → s.getD t ' ' = '\'') := by
  intro s
  induction s with
  | nil => intro i inRun par toks h k hk hq; simp at hk
  | cons c rest ih =>
    intro i inRun par toks h k hk hq
    by_cases hc : c = '\''
    · subst hc
      cases hr : inRun with
      | false =>
        rw [hr] at h
        unfold tkAux at h
        rw [if_pos rfl] at h
        exact absurd h (by simp)
      | true =>
        rw [hr] at h
        unfold tkAux at h
        rw [if_pos rfl] at h
        simp only [if_pos rfl] at h
        match k with
        | 0 => exact Or.inr ⟨rfl, fun t ht => by interval_cases t; rfl⟩
        | k + 1 =>
          have hk' : k < rest.length := by simpa using hk
          have hq' : rest.getD k ' ' = '\'' := by simpa using hq
          rcases ih (i + 1) true (par + 1) toks h k hk' hq' with ⟨j, hj, hlet, hrun⟩ | ⟨_, hrun⟩
          · refine Or.inl ⟨j + 1, by omega, by simpa using hlet, ?_⟩
            intro t ht1 ht2
            match t with
            | t' + 1 =>
              have := hrun t' (by omega) (by omega)
              simpa using this
          · refine Or.inr ⟨rfl, ?_⟩
            intro t ht
            match t with
            | 0 => rfl
            | t' + 1 =>
              have := hrun t' (by omega)
              simpa using this
    · obtain ⟨ts, hts⟩ := tkAux_else_shape c rest i inRun par toks hc h
      match k with
      | 0 => exact absurd (by simpa using hq) hc
      | k + 1 =>
        have hk' : k < rest.length := by simpa using hk
        have hq' : rest.getD k ' ' = '\'' := by simpa using hq
        rcases ih (i + 1) (isLetterChar c) 0 ts hts k hk' hq' with
          ⟨j, hj, hlet, hrun⟩ | ⟨hl, hrun⟩
        · refine Or.inl ⟨j + 1, by omega, by simpa using hlet, ?_⟩
          intro t ht1 ht2
          match t with
          | t' + 1 =>
            have := hrun t' (by omega) (by omega)
            simpa using this
        · refine Or.inl ⟨0, by omega, by simpa using hl, ?_⟩
          intro t ht1 ht2
          match t with
          | t' + 1 =>
            have := hrun t' (by omega)
            simpa using this

/-- C10 (amended): the tokenizer accepts an apostrophe only when it is part
of an apostrophe run immediately following a letter (after whitespace
stripping); an apostrophe reached by the scanner anywhere else — at the
start of the input, after a digit, or after a right parenthesis as in
"(A+B)'" — is an unrecognised character and fails with a LexError carrying
its position, so postfix complement cannot be applied to a parenthesised
group or a constant. -/
theorem claim_C10 :
    (∀ (raw : Str) (toks : List Token), tokenize raw = .ok toks →
      ∀ k, k < (stripWS raw).length → (stripWS raw).getD k ' ' = '\'' →
        ∃ j, j < k ∧ isLetterChar ((stripWS raw).getD j ' ') = true ∧
          ∀ t, j < t → t ≤ k → (stripWS raw).getD t ' ' = '\'') ∧
    tokenize "'A".data = .error ⟨0, '\''⟩ ∧
    tokenize "0'".data = .error ⟨1, '\''⟩ ∧
    tokenize "(A+B)'".data = .error ⟨5, '\''⟩ := by
  refine ⟨?_, by decide, by decide, by decide⟩
  intro raw toks h k hk hq
  rcases tkAux_quote_run (stripWS raw) 0 false 0 toks h k hk hq with hgood | ⟨hfalse, _⟩
  · exact hgood
  · exact absurd hfalse (by simp)

/-- Witness for C10 at the concrete accepted input "A''": the theorem places
a letter at position 0 ahead of the apostrophe run ending at position 2. -/
theorem claim_C10_witness :
    ∃ j, j < 2 ∧ isLetterChar ((stripWS "A''".data).getD j ' ') = true ∧
      ∀ t, j < t → t ≤ 2 → (stripWS "A''".data).getD t ' ' = '\'' :=
  claim_C10.1 "A''".data [Token.var 'A'] (by decide) 2 (by decide) (by decide)

end KMap

namespace KMap

/-! ### C1 layer A: the padded binary representation -/

/-- The `W`-bit binary string of `n`, most significant bit first. -/
def bitsM : Nat → Nat → Str
  | 0, _ => []
  | W + 1, n => bitsM W (n / 2) ++ [Nat.digitChar (n % 2)]

/-- Fuel irrelevance for the digit helper. -/
theorem binDigitsAux_fuel :
    ∀ (f1 : Nat), ∀ (f2 n : Nat), n < f1 → n < f2 →
      binDigitsAux f1 n = binDigitsAux f2 n := by
  intro f1
  induction f1 with
  | zero => intro f2 n h1 _; omega
  | succ f1 ih =>
    intro f2 n h1 h2
    cases f2 with
    | zero => omega
    | succ f2 =>
      by_cases hn : n < 2
      · simp [binDigitsAux, hn]
      · simp only [binDigitsAux, if_neg hn]
        rw [ih f2 (n / 2) (by omega) (by omega)]

/-- Unfolding `binDigits` below and above 2. -/
theorem binDigits_lt_two (n : Nat) (h : n < 2) : binDigits n = [Nat.digitChar n] := by
  unfold binDigits binDigitsAux
  rw [if_pos h]

/-- `n.toString(2)` splits its last digit off for `n ≥ 2`. -/
theorem binDigits_two_le (n : Nat) (h : 2 ≤ n) :
    binDigits n = binDigits (n / 2) ++ [Nat.digitChar (n % 2)] := by
  unfold binDigits
  conv_lhs => rw [show n + 1 = (n - 1) + 2 by omega]
  rw [show binDigitsAux ((n - 1) + 2) n =
    if n < 2 then [Nat.digitChar n]
    else binDigitsAux ((n - 1) + 1) (n / 2) ++ [Nat.digitChar (n % 2)] from rfl]
  rw [if_neg (by omega)]
  rw [binDigitsAux_fuel ((n - 1) + 1) (n / 2 + 1) (n / 2) (by omega) (by omega)]

/-- `toBin` recurses on the last digit for positive width. -/
theorem toBin_succ (n W : Nat) (hW : 1 ≤ W) :
    toBin n (W + 1) = toBin (n / 2) W ++ [Nat.digitChar (n % 2)] := by
  by_cases hn : n < 2
  · have hd : n / 2 = 0 := by omega
    have hm : n % 2 = n := by omega
    rw [hd, hm]
    unfold toBin
    rw [binDigits_lt_two n hn, binDigits_lt_two 0 (by omega)]
    simp only [List.length_singleton]
    rw [show W + 1 - 1 = (W - 1) + 1 by omega, List.replicate_succ]
    rw [show (List.replicate (W - 1) '0' ++ [Nat.digitChar 0]) ++ [Nat.digitChar n] =
      List.replicate (W - 1) '0' ++ Nat.digitChar 0 :: [Nat.digitChar n] by simp]
    rw [show (Nat.digitChar 0 : Char) = '0' from rfl]
    rw [show ('0' :: List.replicate (W - 1) '0' : Str) =
      List.replicate (W - 1) '0' ++ ['0'] by
        rw [← List.replicate_succ, ← List.replicate_succ']]
    simp
  · unfold toBin
    rw [binDigits_two_le n (by omega)]
    simp only [List.length_append, List.length_singleton]
    rw [show W + 1 - ((binDigits (n / 2)).length + 1) = W - (binDigits (n / 2)).length by
      omega]
    simp

/-- For `n < 2^W` the source's padded representation is the `W`-bit string. -/
theorem toBin_eq_bitsM : ∀ (W n : Nat), 1 ≤ W → n < 2 ^ W → toBin n W = bitsM W n := by
  intro W
  induction W with
  | zero => intro n h; omega
  | succ W ih =>
    intro n _ hn
    by_cases hW : W = 0
    · subst hW
      have h2 : n < 2 := by simpa using hn
      unfold bitsM bitsM
      rw [toBin]
      rw [binDigits_lt_two n h2]
      have : n % 2 = n := by omega
      simp [this]
    · rw [toBin_succ n W (by omega)]
      rw [ih (n / 2) (by omega) (by
        have : 2 ^ (W + 1) = 2 ^ W * 2 := by ring
        omega)]
      rfl

/-- The `W`-bit string has length `W`. -/
theorem bitsM_length : ∀ (W n : Nat), (bitsM W n).length = W := by
  intro W
  induction W with
  | zero => intro n; rfl
  | succ W ih => intro n; simp [bitsM, ih]

/-- Character `i` of the `W`-bit string is bit `W-1-i` of `n`. -/
theorem bitsM_getD : ∀ (W n i : Nat), i < W →
    (bitsM W n).getD i ' ' = if n.testBit (W - 1 - i) then '1' else '0' := by
  intro W
  induction W with
  | zero => intro n i h; omega
  | succ W ih =>
    intro n i h
    by_cases hi : i < W
    · have hlen : i < (bitsM W (n / 2)).length := by rw [bitsM_length]; exact hi
      rw [bitsM, List.getD_eq_getElem _ ' ' (by simp [bitsM_length]; omega),
        List.getElem_append_left hlen, ← List.getD_eq_getElem _ ' ' hlen, ih (n / 2) i hi]
      have harg : W - 1 - i + 1 = W + 1 - 1 - i := by omega
      rw [Nat.testBit_div_two, harg]
    · have hi' : W = i := by omega
      subst hi'
      have hlen : (bitsM W (n / 2)).length = W := bitsM_length W (n / 2)
      rw [bitsM, List.getD_eq_getElem _ ' ' (by simp [bitsM_length])]
      rw [List.getElem_append_right (by omega)]
      simp only [hlen]
      rw [show W + 1 - 1 - W = 0 by omega, Nat.testBit_zero]
      rcases Nat.mod_two_eq_zero_or_one n with h0 | h1
      · simp [h0, Nat.digitChar]
      · simp [h1, Nat.digitChar]

/-- The `W`-bit string is over the alphabet `{'0','1'}`. -/
theorem bitsM_chars : ∀ (W n : Nat), ∀ c ∈ bitsM W n, c = '0' ∨ c = '1' := by
  intro W
  induction W with
  | zero => intro n c hc; cases hc
  | succ W ih =>
    intro n c hc
    rw [bitsM] at hc
    rcases List.mem_append.mp hc with h | h
    · exact ih (n / 2) c h
    · have : c = Nat.digitChar (n % 2) := by simpa using h
      subst this
      rcases Nat.mod_two_eq_zero_or_one n with h0 | h1
      · simp [h0, Nat.digitChar]
      · simp [h1, Nat.digitChar]

/-- The `W`-bit string determines the number below `2^W`. -/
theorem bitsM_inj (W n n' : Nat) (hn : n < 2 ^ W) (hn' : n' < 2 ^ W)
    (h : bitsM W n = bitsM W n') : n = n' := by
  apply Nat.eq_of_testBit_eq
  intro k
  by_cases hk : k < W
  · have h1 := bitsM_getD W n (W - 1 - k) (by omega)
    have h2 := bitsM_getD W n' (W - 1 - k) (by omega)
    rw [h] at h1
    rw [h1, show W - 1 - (W - 1 - k) = k by omega] at h2
    by_cases hb : n.testBit k
    · rw [if_pos hb] at h2
      by_cases hb' : n'.testBit k
      · rw [hb, hb']
      · rw [if_neg hb'] at h2; exact absurd h2 (by decide)
    · rw [if_neg hb] at h2
      by_cases hb' : n'.testBit k
      · rw [if_pos hb'] at h2; exact absurd h2 (by decide)
      · rw [Bool.not_eq_true] at hb hb'
        rw [hb, hb']
  · rw [Nat.testBit_lt_two_pow (lt_of_lt_of_le hn (Nat.pow_le_pow_right (by omega) (by omega))),
      Nat.testBit_lt_two_pow (lt_of_lt_of_le hn' (Nat.pow_le_pow_right (by omega) (by omega)))]

end KMap

namespace KMap

/-! ### C1 layer B: covering and combining -/

/-- Every pattern covers itself. -/
theorem covers_refl : ∀ (p : Str), covers p p = true := by
  intro p
  induction p with
  | nil => rfl
  | cons c rest ih =>
    unfold covers
    by_cases hc : c = '-'
    · rw [if_pos hc]; exact ih
    · rw [if_neg hc]; simp [ih]

/-- A pure pattern covers exactly itself (same length). -/
theorem covers_pure_eq : ∀ (p x : Str), (∀ c ∈ p, c ≠ '-') → p.length = x.length →
    covers p x = true → p = x := by
  intro p
  induction p with
  | nil =>
    intro x _ hlen _
    cases x with
    | nil => rfl
    | cons y ys => simp at hlen
  | cons c rest ih =>
    intro x hpure hlen hcov
    cases x with
    | nil => simp at hlen
    | cons y ys =>
      have hc : c ≠ '-' := hpure c (by simp)
      unfold covers at hcov
      rw [if_neg hc] at hcov
      simp only [Bool.and_eq_true, decide_eq_true_eq] at hcov
      rw [hcov.1]
      rw [ih ys (fun d hd => hpure d (by simp [hd])) (by simpa using hlen) hcov.2]

/-- `combine` has the length of its first argument. -/
theorem combine_length : ∀ (a b : Str), (combine a b).length = a.length := by
  intro a
  induction a with
  | nil => intro b; rfl
  | cons c a' ih =>
    intro b
    cases b with
    | nil => simp [combine, ih]
    | cons d b' => simp [combine, ih]

/-- Every character of `combine a b` is a character of `a` or a dash. -/
theorem combine_chars : ∀ (a b : Str), ∀ c ∈ combine a b, c ∈ a ∨ c = '-' := by
  intro a
  induction a with
  | nil => intro b c hc; cases hc
  | cons x a' ih =>
    intro b c hc
    cases b with
    | nil =>
      rw [combine] at hc
      rcases List.mem_cons.mp hc with h | h
      · right; simpa using h
      · rcases ih [] c h with h' | h'
        · exact Or.inl (List.mem_cons_of_mem _ h')
        · exact Or.inr h'
    | cons d b' =>
      rw [combine] at hc
      rcases List.mem_cons.mp hc with h | h
      · by_cases hxd : x = d
        · rw [if_pos hxd] at h; exact Or.inl (h ▸ List.mem_cons_self _ _)
        · rw [if_neg hxd] at h; exact Or.inr h
      · rcases ih b' c h with h' | h'
        · exact Or.inl (List.mem_cons_of_mem _ h')
        · exact Or.inr h'

/-- The combined pattern covers whatever the first parent covers. -/
theorem covers_combine_left : ∀ (a b x : Str),
    covers a x = true → covers (combine a b) x = true := by
  intro a
  induction a with
  | nil => intro b x _; rfl
  | cons c a' ih =>
    intro b x hcov
    cases b with
    | nil =>
      cases x with
      | nil =>
        rw [combine, covers, if_pos rfl]
        rw [covers] at hcov
        by_cases hc : c = '-'
        · rw [if_pos hc] at hcov; exact ih [] [] hcov
        · rw [if_neg hc] at hcov; exact absurd hcov (by simp)
      | cons y ys =>
        rw [combine, covers, if_pos rfl]
        rw [covers] at hcov
        by_cases hc : c = '-'
        · rw [if_pos hc] at hcov; exact ih [] ys hcov
        · rw [if_neg hc] at hcov
          simp only [Bool.and_eq_true] at hcov
          exact ih [] ys hcov.2
    | cons d b' =>
      cases x with
      | nil =>
        rw [combine, covers]
        rw [covers] at hcov
        by_cases hc : c = '-'
        · have : (if c = d then c else '-') = '-' := by
            by_cases hcd : c = d
            · rw [if_pos hcd]; exact hc
            · rw [if_neg hcd]
          rw [this, if_pos rfl]
          rw [if_pos hc] at hcov
          exact ih b' [] hcov
        · rw [if_neg hc] at hcov; exact absurd hcov (by simp)
      | cons y ys =>
        rw [combine, covers]
        rw [covers] at hcov
        by_cases hc : c = '-'
        · have : (if c = d then c else '-') = '-' := by
            by_cases hcd : c = d
            · rw [if_pos hcd]; exact hc
            · rw [if_neg hcd]
          rw [this, if_pos rfl]
          rw [if_pos hc] at hcov
          exact ih b' ys hcov
        · rw [if_neg hc] at hcov
          simp only [Bool.and_eq_true, decide_eq_true_eq] at hcov
          by_cases hcd : c = d
          · rw [if_pos hcd, if_neg hc]
            simp [hcov.1, ih b' ys hcov.2]
          · rw [if_neg hcd, if_pos rfl]
            exact ih b' ys hcov.2

/-- The combined pattern covers whatever the second parent covers. -/
theorem covers_combine_right : ∀ (a b x : Str),
    covers b x = true → covers (combine a b) x = true := by
  intro a
  induction a with
  | nil => intro b x _; rfl
  | cons c a' ih =>
    intro b x hcov
    cases b with
    | nil =>
      cases x with
      | nil =>
        rw [combine, covers, if_pos rfl]
        exact ih [] [] rfl
      | cons y ys =>
        rw [combine, covers, if_pos rfl]
        exact ih [] ys rfl
    | cons d b' =>
      cases x with
      | nil =>
        rw [covers] at hcov
        by_cases hd : d = '-'
        · rw [if_pos hd] at hcov
          rw [combine, covers]
          have : (if c = d then c else '-') = '-' := by
            by_cases hcd : c = d
            · rw [if_pos hcd]; exact hcd.trans hd
            · rw [if_neg hcd]
          rw [this, if_pos rfl]
          exact ih b' [] hcov
        · rw [if_neg hd] at hcov
          exact absurd hcov (by simp)
      | cons y ys =>
        rw [covers] at hcov
        by_cases hd : d = '-'
        · rw [if_pos hd] at hcov
          rw [combine, covers]
          have : (if c = d then c else '-') = '-' := by
            by_cases hcd : c = d
            · rw [if_pos hcd]; exact hcd.trans hd
            · rw [if_neg hcd]
          rw [this, if_pos rfl]
          exact ih b' ys hcov
        · rw [if_neg hd] at hcov
          simp only [Bool.and_eq_true, decide_eq_true_eq] at hcov
          rw [combine, covers]
          by_cases hcd : c = d
          · rw [if_pos hcd]
            rw [if_neg (show ¬ c = '-' by rw [hcd]; exact hd)]
            simp [hcd, hcov.1, ih b' ys hcov.2]
          · rw [if_neg hcd, if_pos rfl]
            exact ih b' ys hcov.2

/-- Zero differences (at equal length) means equal strings. -/
theorem diffCount_zero : ∀ (a b : Str), a.length = b.length → diffCount a b = 0 → a = b := by
  intro a
  induction a with
  | nil =>
    intro b hlen _
    cases b with
    | nil => rfl
    | cons d b' => simp at hlen
  | cons c a' ih =>
    intro b hlen hd
    cases b with
    | nil => simp at hlen
    | cons d b' =>
      rw [diffCount] at hd
      by_cases hcd : c = d
      · rw [if_pos hcd] at hd
        rw [hcd, ih b' (by simpa using hlen) (by omega)]
      · rw [if_neg hcd] at hd; omega

/-- Combining equal strings returns the string. -/
theorem combine_self : ∀ (a : Str), combine a a = a := by
  intro a
  induction a with
  | nil => rfl
  | cons c a' ih => simp [combine, ih]

end KMap

namespace KMap

/-- A single-bit combination only covers what one of its parents covers
(equal widths, patterns over `{0,1,-}`, pure input). -/
theorem covers_combine_sound : ∀ (a b x : Str),
    a.length = b.length → b.length = x.length →
    (∀ c ∈ a, c = '0' ∨ c = '1' ∨ c = '-') →
    (∀ c ∈ b, c = '0' ∨ c = '1' ∨ c = '-') →
    (∀ c ∈ x, c = '0' ∨ c = '1') →
    diffCount a b = 1 →
    covers (combine a b) x = true →
    covers a x = true ∨ covers b x = true := by
  intro a
  induction a with
  | nil =>
    intro b x hab _ _ _ _ hdiff _
    cases b with
    | nil => simp [diffCount] at hdiff
    | cons d b' => simp at hab
  | cons c a' ih =>
    intro b x hab hbx ha hb hx hdiff hcov
    cases b with
    | nil => simp at hab
    | cons d b' =>
      cases x with
      | nil => simp at hbx
      | cons y ys =>
        have ha' : ∀ e ∈ a', e = '0' ∨ e = '1' ∨ e = '-' :=
          fun e he => ha e (by simp [he])
        have hb' : ∀ e ∈ b', e = '0' ∨ e = '1' ∨ e = '-' :=
          fun e he => hb e (by simp [he])
        have hx' : ∀ e ∈ ys, e = '0' ∨ e = '1' :=
          fun e he => hx e (by simp [he])
        rw [diffCount] at hdiff
        by_cases hcd : c = d
        · rw [if_pos hcd] at hdiff
          simp only [Nat.zero_add] at hdiff
          rw [combine] at hcov
          by_cases hc : c = '-'
          · rw [show (if c = d then c else '-') = '-' by rw [if_pos hcd]; exact hc,
              covers, if_pos rfl] at hcov
            rcases ih b' ys (by simpa using hab) (by simpa using hbx)
              ha' hb' hx' hdiff hcov with h | h
            · exact Or.inl (by rw [covers, if_pos hc]; exact h)
            · exact Or.inr (by
                rw [covers, if_pos (show d = '-' by rw [← hcd]; exact hc)]
                exact h)
          · rw [show (if c = d then c else '-') = c by rw [if_pos hcd],
              covers, if_neg hc] at hcov
            simp only [Bool.and_eq_true, decide_eq_true_eq] at hcov
            rcases ih b' ys (by simpa using hab) (by simpa using hbx)
              ha' hb' hx' hdiff hcov.2 with h | h
            · exact Or.inl (by rw [covers, if_neg hc]; simp [hcov.1, h])
            · exact Or.inr (by
                rw [covers, if_neg (show ¬ d = '-' by rw [← hcd]; exact hc)]
                simp [← hcd, hcov.1, h])
        · rw [if_neg hcd] at hdiff
          have hdiff0 : diffCount a' b' = 0 := by omega
          have hba : a' = b' := diffCount_zero a' b' (by simpa using hab) hdiff0
          subst hba
          rw [combine, if_neg hcd, combine_self] at hcov
          rw [covers, if_pos rfl] at hcov
          -- the heads: c ≠ d over {0,1,-} with y ∈ {0,1} forces one side to match
          have hhead : (c = '-' ∨ c = y) ∨ (d = '-' ∨ d = y) := by
            rcases ha c (by simp) with rfl | rfl | rfl <;>
              rcases hb d (by simp) with rfl | rfl | rfl <;>
              rcases hx y (by simp) with rfl | rfl <;>
              first
              | decide
              | exact absurd rfl hcd
          rcases hhead with hcy | hdy
          · refine Or.inl ?_
            rw [covers]
            rcases hcy with hc | hc
            · rw [if_pos hc]; exact hcov
            · rw [hc]
              by_cases hy : y = '-'
              · rw [if_pos hy]; exact hcov
              · rw [if_neg hy]; simp [hcov]
          · refine Or.inr ?_
            rw [covers]
            rcases hdy with hd | hd
            · rw [if_pos hd]; exact hcov
            · rw [hd]
              by_cases hy : y = '-'
              · rw [if_pos hy]; exact hcov
              · rw [if_neg hy]; simp [hcov]

end KMap

namespace KMap

/-! ### C1 layer C: membership in groups, rounds and the prime list -/

/-- Items of a cons of groups. -/
theorem itemsOf_cons (kv : Nat × List Item) (g : Groups) :
    itemsOf (kv :: g) = kv.2 ++ itemsOf g := by
  simp [itemsOf]

/-- Membership in the items of a sorted-insertion. -/
theorem mem_itemsOf_insertG :
    ∀ (g : Groups) (k : Nat) (it x : Item),
      x ∈ itemsOf (insertG g k it) ↔ x = it ∨ x ∈ itemsOf g := by
  intro g
  induction g with
  | nil => intro k it x; simp [insertG, itemsOf]
  | cons kv rest ih =>
    intro k it x
    match kv with
    | (k', its) =>
      unfold insertG
      by_cases h1 : k < k'
      · rw [if_pos h1]
        rw [itemsOf_cons, itemsOf_cons]
        simp [itemsOf_cons]
        try tauto
      · rw [if_neg h1]
        by_cases h2 : k = k'
        · rw [if_pos h2]
          rw [itemsOf_cons, itemsOf_cons]
          simp
          try tauto
        · rw [if_neg h2]
          rw [itemsOf_cons, itemsOf_cons]
          simp [ih k it x]
          try tauto

/-- Membership in the items of a bucketing fold. -/
theorem mem_itemsOf_foldl {α : Type} (key : α → Nat) (mk : α → Item) :
    ∀ (l : List α) (g0 : Groups) (x : Item),
      x ∈ itemsOf (l.foldl (fun g a => insertG g (key a) (mk a)) g0) ↔
        x ∈ itemsOf g0 ∨ ∃ a ∈ l, x = mk a := by
  intro l
  induction l with
  | nil => intro g0 x; simp
  | cons a l ih =>
    intro g0 x
    simp only [List.foldl_cons]
    rw [ih (insertG g0 (key a) (mk a)) x, mem_itemsOf_insertG g0 (key a) (mk a) x]
    simp
    tauto

/-- The items the initial grouping holds. -/
theorem mem_itemsOf_initGroups (bins : List Str) (x : Item) :
    x ∈ itemsOf (initGroups bins) ↔ ∃ b ∈ bins, x = ⟨b, false, [b]⟩ := by
  unfold initGroups
  rw [mem_itemsOf_foldl countOnes (fun b => ⟨b, false, [b]⟩) bins [] x]
  simp [itemsOf]

/-- Key-deduplication only keeps elements of the bucket. -/
theorem dedupByKeyAux_subset :
    ∀ (its : List Item) (seen : List Str) (x : Item),
      x ∈ dedupByKeyAux its seen → x ∈ its := by
  intro its
  induction its with
  | nil => intro seen x h; cases h
  | cons it its ih =>
    intro seen x h
    unfold dedupByKeyAux at h
    by_cases hk : itemKey it ∈ seen
    · rw [if_pos hk] at h
      exact List.mem_cons_of_mem _ (ih seen x h)
    · rw [if_neg hk] at h
      rcases List.mem_cons.mp h with rfl | h'
      · exact List.mem_cons_self _ _
      · exact List.mem_cons_of_mem _ (ih _ x h')

/-- First-occurrence deduplication preserves membership. -/
theorem dedupFirstAux_mem [DecidableEq α] :
    ∀ (l seen : List α) (x : α), x ∈ dedupFirstAux l seen ↔ (x ∈ l ∧ x ∉ seen) := by
  intro l
  induction l with
  | nil => intro seen x; simp [dedupFirstAux]
  | cons y l ih =>
    intro seen x
    unfold dedupFirstAux
    by_cases hy : y ∈ seen
    · rw [if_pos hy, ih]
      constructor
      · intro ⟨h1, h2⟩; exact ⟨List.mem_cons_of_mem _ h1, h2⟩
      · intro ⟨h1, h2⟩
        rcases List.mem_cons.mp h1 with rfl | h1'
        · exact absurd hy h2
        · exact ⟨h1', h2⟩
    · rw [if_neg hy]
      constructor
      · intro h
        rcases List.mem_cons.mp h with rfl | h'
        · exact ⟨List.mem_cons_self _ _, hy⟩
        · have := (ih (y :: seen) x).mp h'
          exact ⟨List.mem_cons_of_mem _ this.1,
            fun hmem => this.2 (List.mem_cons_of_mem _ hmem)⟩
      · intro ⟨h1, h2⟩
        rcases List.mem_cons.mp h1 with rfl | h1'
        · exact List.mem_cons_self _ _
        · by_cases hxy : x = y
          · exact hxy ▸ List.mem_cons_self _ _
          · exact List.mem_cons_of_mem _ ((ih (y :: seen) x).mpr
              ⟨h1', by simp [hxy, h2]⟩)

/-- `[...new Set(l)]` has the same members as `l`. -/
theorem dedupFirst_mem [DecidableEq α] (l : List α) (x : α) :
    x ∈ dedupFirst l ↔ x ∈ l := by
  unfold dedupFirst
  rw [dedupFirstAux_mem]
  simp

/-- Items of a bucket are items of the groups. -/
theorem mem_itemsOf_of_bucket {g : Groups} {kv : Nat × List Item} {x : Item}
    (hkv : kv ∈ g) (hx : x ∈ kv.2) : x ∈ itemsOf g := by
  unfold itemsOf
  exact List.mem_flatMap.mpr ⟨kv, hkv, hx⟩

/-- What one round's new items are made of. -/
theorem mem_newItemsOf {g : Groups} {x : Item} (h : x ∈ newItemsOf g) :
    ∃ a b, a ∈ itemsOf g ∧ b ∈ itemsOf g ∧ canCombine a.bin b.bin = true ∧
      x = combinePair a b := by
  unfold newItemsOf at h
  rw [List.mem_flatMap] at h
  obtain ⟨p, hp, hx⟩ := h
  rw [List.mem_flatMap] at hx
  obtain ⟨a, ha, hx⟩ := hx
  rw [List.mem_filterMap] at hx
  obtain ⟨b, hb, hx⟩ := hx
  have hzip := List.mem_zip hp
  by_cases hc : canCombine a.bin b.bin = true
  · rw [if_pos hc] at hx
    refine ⟨a, b, mem_itemsOf_of_bucket hzip.1 ha,
      mem_itemsOf_of_bucket (List.mem_of_mem_tail hzip.2) hb, hc, ?_⟩
    exact (Option.some.inj hx).symm
  · rw [if_neg hc] at hx
    cases hx

/-- Items surviving a round were produced by its combination phase. -/
theorem mem_itemsOf_qmRound {g : Groups} {x : Item} (h : x ∈ itemsOf (qmRound g).1) :
    x ∈ newItemsOf g := by
  unfold qmRound at h
  simp only [itemsOf, List.mem_flatMap, List.mem_map] at h
  obtain ⟨kv, ⟨kv0, hkv0, hkv⟩, hx⟩ := h
  rw [← hkv] at hx
  have hx' := dedupByKeyAux_subset kv0.2 [] x hx
  have : x ∈ itemsOf ((newItemsOf g).foldl
      (fun h it => insertG h (countOnes (it.bin.filter (fun c => c ≠ '-'))) it) []) :=
    mem_itemsOf_of_bucket hkv0 hx'
  rw [mem_itemsOf_foldl (fun it => countOnes (it.bin.filter (fun c => c ≠ '-')))
    (fun it => it) (newItemsOf g) [] x] at this
  rcases this with habs | ⟨a, ha, rfl⟩
  · simp [itemsOf] at habs
  · exact ha

/-- Every prime a round collects is the pattern of one of its items. -/
theorem mem_roundPrimes {g : Groups} {p : Str} (h : p ∈ (qmRound g).2.1) :
    ∃ it, it ∈ itemsOf g ∧ it.bin = p := by
  unfold qmRound at h
  simp only [List.mem_flatMap] at h
  obtain ⟨kv, hkv, hp⟩ := h
  unfold markUsedRound at hkv
  rw [List.mem_map] at hkv
  obtain ⟨j, hj, hkv⟩ := hkv
  rw [List.mem_map] at hp
  obtain ⟨it', hit', hbin⟩ := hp
  rw [← hkv] at hit'
  simp only [List.mem_filter, List.mem_map] at hit'
  obtain ⟨⟨a, ha, hmark⟩, _⟩ := hit'
  have hjlen : j < g.length := List.mem_range.mp hj
  refine ⟨a, mem_itemsOf_of_bucket ?_ ha, ?_⟩
  · rw [List.getD_eq_getElem g (0, []) hjlen]
    exact List.getElem_mem hjlen
  · rw [← hbin, ← hmark]

end KMap

namespace KMap

/-! ### C1 layer C2: invariants through the combination loop -/

/-- A well-formed pattern for width-`W` input strings `bins`: width `W`,
alphabet `{0,1,-}`, and covering only members of `bins`. -/
def GoodPrime (W : Nat) (bins : List Str) (p : Str) : Prop :=
  p.length = W ∧ (∀ c ∈ p, c = '0' ∨ c = '1' ∨ c = '-') ∧
  ∀ x, x.length = W → (∀ c ∈ x, c = '0' ∨ c = '1') → covers p x = true → x ∈ bins

/-- The groups invariant: every item is well-formed and unmarked. -/
def GoodGroups (W : Nat) (bins : List Str) (g : Groups) : Prop :=
  ∀ it ∈ itemsOf g, GoodPrime W bins it.bin ∧ it.used = false

/-- A member of a bucket addresses a present position. -/
theorem bucketAt_pos {g : Groups} {j : Nat} {x : Item} (h : x ∈ bucketAt g j) :
    j < g.length := by
  by_contra hj
  unfold bucketAt at h
  rw [List.getD_eq_default _ _ (by omega)] at h
  cases h

/-- Every item sits in some bucket position. -/
theorem mem_itemsOf_pos {g : Groups} {x : Item} (h : x ∈ itemsOf g) :
    ∃ j, j < g.length ∧ x ∈ bucketAt g j := by
  unfold itemsOf at h
  rw [List.mem_flatMap] at h
  obtain ⟨kv, hkv, hx⟩ := h
  obtain ⟨j, hj, hjeq⟩ := List.mem_iff_getElem.mp hkv
  refine ⟨j, hj, ?_⟩
  unfold bucketAt
  rw [List.getD_eq_getElem g (0, []) hj, hjeq]
  exact hx

/-- A combinable pair from neighbouring present buckets produces its item. -/
theorem combinePair_mem_newItemsOf {g : Groups} {j : Nat} {a b : Item}
    (ha : a ∈ bucketAt g j) (hb : b ∈ bucketAt g (j + 1))
    (hc : canCombine a.bin b.bin = true) : combinePair a b ∈ newItemsOf g := by
  have hj1 : j + 1 < g.length := bucketAt_pos hb
  have hj : j < g.length := by omega
  have hjt : j < g.tail.length := by
    rw [List.length_tail]
    omega
  have hjz : j < (g.zip g.tail).length := by
    rw [List.length_zip, List.length_tail]
    omega
  have hpmem : (g[j], g.tail[j]) ∈ g.zip g.tail := by
    apply List.mem_iff_getElem.mpr
    exact ⟨j, hjz, List.getElem_zip⟩
  unfold newItemsOf
  rw [List.mem_flatMap]
  refine ⟨(g[j], g.tail[j]), hpmem, ?_⟩
  rw [List.mem_flatMap]
  have hbt : g.tail[j] = g[j + 1] := List.getElem_tail g j hjt
  refine ⟨a, ?_, ?_⟩
  · unfold bucketAt at ha
    rw [List.getD_eq_getElem g (0, []) hj] at ha
    exact ha
  · rw [List.mem_filterMap]
    refine ⟨b, ?_, by rw [if_pos hc]⟩
    unfold bucketAt at hb
    rw [List.getD_eq_getElem g (0, []) hj1] at hb
    rw [hbt]
    exact hb

/-- An unmarked, uncombined item's pattern is collected as a round prime. -/
theorem prime_forward {g : Groups} {j : Nat} {it : Item} (hmem : it ∈ bucketAt g j)
    (hused : it.used = false) (hur : usedInRound g j it = false) :
    it.bin ∈ (qmRound g).2.1 := by
  have hj : j < g.length := bucketAt_pos hmem
  unfold qmRound
  simp only [List.mem_flatMap]
  refine ⟨((g.getD j (0, [])).1,
    (g.getD j (0, [])).2.map fun a => { a with used := a.used || usedInRound g j a }), ?_, ?_⟩
  · unfold markUsedRound
    rw [List.mem_map]
    exact ⟨j, List.mem_range.mpr hj, rfl⟩
  · rw [List.mem_map]
    refine ⟨{ it with used := it.used || usedInRound g j it }, ?_, rfl⟩
    rw [List.mem_filter]
    constructor
    · rw [List.mem_map]
      exact ⟨it, hmem, rfl⟩
    · simp [hused, hur]

/-- A new item survives deduplication up to its key. -/
theorem newItem_survives {g : Groups} {nit : Item} (h : nit ∈ newItemsOf g) :
    ∃ it', it' ∈ itemsOf (qmRound g).1 ∧ itemKey it' = itemKey nit := by
  have hng : nit ∈ itemsOf ((newItemsOf g).foldl
      (fun h it => insertG h (countOnes (it.bin.filter (fun c => c ≠ '-'))) it) []) := by
    rw [mem_itemsOf_foldl (fun it => countOnes (it.bin.filter (fun c => c ≠ '-')))
      (fun it => it) (newItemsOf g) [] nit]
    exact Or.inr ⟨nit, h, rfl⟩
  unfold itemsOf at hng
  rw [List.mem_flatMap] at hng
  obtain ⟨kv0, hkv0, hnit⟩ := hng
  rcases dedupByKeyAux_complete kv0.2 [] nit hnit with habs | ⟨it', hit', hkey⟩
  · cases habs
  · refine ⟨it', ?_, hkey⟩
    unfold qmRound itemsOf
    rw [List.mem_flatMap]
    exact ⟨(kv0.1, dedupBucket kv0.2), List.mem_map.mpr ⟨kv0, hkv0, rfl⟩, hit'⟩

/-- Splitting a string at a separator absent from both prefixes. -/
theorem splitSep (sep : Char) :
    ∀ (a1 a2 r1 r2 : Str), sep ∉ a1 → sep ∉ a2 →
      a1 ++ sep :: r1 = a2 ++ sep :: r2 → a1 = a2 ∧ r1 = r2 := by
  intro a1
  induction a1 with
  | nil =>
    intro a2 r1 r2 _ h2 heq
    cases a2 with
    | nil => simpa using heq
    | cons c a2' =>
      simp only [List.nil_append, List.cons_append, List.cons.injEq] at heq
      exact absurd (show sep ∈ c :: a2' by
        rw [← heq.1]; exact List.mem_cons_self _ _) h2
  | cons c a1' ih =>
    intro a2 r1 r2 h1 h2 heq
    cases a2 with
    | nil =>
      simp only [List.nil_append, List.cons_append, List.cons.injEq] at heq
      exact absurd (show sep ∈ c :: a1' by
        rw [heq.1]; exact List.mem_cons_self _ _) h1
    | cons d a2' =>
      simp only [List.cons_append, List.cons.injEq] at heq
      obtain ⟨hcd, heq'⟩ := heq
      have := ih a2' r1 r2 (fun hmem => h1 (List.mem_cons_of_mem _ hmem))
        (fun hmem => h2 (List.mem_cons_of_mem _ hmem)) heq'
      exact ⟨by rw [hcd, this.1], this.2⟩

/-- Equal keys force equal patterns when neither contains the separator. -/
theorem itemKey_bin_eq {it1 it2 : Item} (h1 : '|' ∉ it1.bin) (h2 : '|' ∉ it2.bin)
    (hkey : itemKey it1 = itemKey it2) : it1.bin = it2.bin := by
  unfold itemKey at hkey
  exact (splitSep '|' it1.bin it2.bin _ _ h1 h2 hkey).1

/-- Patterns over `{0,1,-}` do not contain the key separator. -/
theorem chars_no_bar {p : Str} (h : ∀ c ∈ p, c = '0' ∨ c = '1' ∨ c = '-') : '|' ∉ p := by
  intro hmem
  rcases h '|' hmem with h' | h' | h' <;> exact absurd h' (by decide)

end KMap

namespace KMap

/-- One round preserves the groups invariant. -/
theorem goodGroups_qmRound {W : Nat} {bins : List Str} {g : Groups}
    (hg : GoodGroups W bins g) : GoodGroups W bins (qmRound g).1 := by
  intro it hit
  have hnew := mem_itemsOf_qmRound hit
  obtain ⟨a, b, ha, hb, hc, heq⟩ := mem_newItemsOf hnew
  obtain ⟨⟨haw, hac, hax⟩, _⟩ := hg a ha
  obtain ⟨⟨hbw, hbc, hbx⟩, _⟩ := hg b hb
  subst heq
  refine ⟨⟨?_, ?_, ?_⟩, rfl⟩
  · show (combine a.bin b.bin).length = W
    rw [combine_length, haw]
  · intro c hcmem
    rcases combine_chars a.bin b.bin c hcmem with h | h
    · exact hac c h
    · exact Or.inr (Or.inr h)
  · intro x hxw hxc hcov
    have hdiff : diffCount a.bin b.bin = 1 := of_decide_eq_true hc
    rcases covers_combine_sound a.bin b.bin x (by rw [haw, hbw]) (by rw [hbw, hxw])
      hac hbc hxc hdiff hcov with h | h
    · exact hax x hxw hxc h
    · exact hbx x hxw hxc h

/-- One round's primes are well-formed patterns. -/
theorem goodPrimes_qmRound {W : Nat} {bins : List Str} {g : Groups}
    (hg : GoodGroups W bins g) : ∀ p ∈ (qmRound g).2.1, GoodPrime W bins p := by
  intro p hp
  obtain ⟨it, hit, hbin⟩ := mem_roundPrimes hp
  rw [← hbin]
  exact (hg it hit).1

/-- The combination loop only ever emits well-formed patterns, both as
collected primes and as leftover items. -/
theorem qmLoop_sound {W : Nat} {bins : List Str} :
    ∀ (fuel : Nat) (g : Groups), GoodGroups W bins g →
      (∀ p ∈ (qmLoop fuel g).1.flatten, GoodPrime W bins p) ∧
      GoodGroups W bins (qmLoop fuel g).2 := by
  intro fuel
  induction fuel with
  | zero =>
    intro g hg
    exact ⟨by simp [qmLoop], hg⟩
  | succ fuel ih =>
    intro g hg
    unfold qmLoop
    by_cases hb : (qmRound g).2.2 = true
    · rw [if_pos hb]
      obtain ⟨ihp, ihg⟩ := ih (qmRound g).1 (goodGroups_qmRound hg)
      constructor
      · intro p hp
        simp only [List.flatten_cons] at hp
        rcases List.mem_append.mp hp with h | h
        · exact goodPrimes_qmRound hg p h
        · exact ihp p h
      · exact ihg
    · rw [if_neg hb]
      constructor
      · intro p hp
        simp only [List.flatten_cons, List.flatten_nil, List.append_nil] at hp
        exact goodPrimes_qmRound hg p hp
      · exact goodGroups_qmRound hg

/-- One round keeps any covered input string covered, by a collected prime
or by a surviving item. -/
theorem round_complete {W : Nat} {bins : List Str} {g : Groups}
    (hg : GoodGroups W bins g) (b0 : Str)
    (h : ∃ it, it ∈ itemsOf g ∧ covers it.bin b0 = true) :
    (∃ p, p ∈ (qmRound g).2.1 ∧ covers p b0 = true) ∨
    (∃ it, it ∈ itemsOf (qmRound g).1 ∧ covers it.bin b0 = true) := by
  obtain ⟨it, hit, hcov⟩ := h
  obtain ⟨j, hj, hbucket⟩ := mem_itemsOf_pos hit
  by_cases hur : usedInRound g j it = true
  · -- combined away: some child covers b0 and survives dedup (same pattern)
    unfold usedInRound at hur
    have hnew : ∃ nit, nit ∈ newItemsOf g ∧ covers nit.bin b0 = true := by
      rcases Bool.or_eq_true_iff.mp hur with hr | hl
      · rw [List.any_eq_true] at hr
        obtain ⟨b, hb, hcb⟩ := hr
        exact ⟨combinePair it b, combinePair_mem_newItemsOf hbucket hb hcb,
          covers_combine_left it.bin b.bin b0 hcov⟩
      · by_cases hj0 : j = 0
        · rw [if_pos hj0] at hl
          exact absurd hl (by simp)
        · rw [if_neg hj0] at hl
          rw [List.any_eq_true] at hl
          obtain ⟨c, hcmem, hcc⟩ := hl
          have hbj : it ∈ bucketAt g ((j - 1) + 1) := by
            rw [show (j - 1) + 1 = j by omega]
            exact hbucket
          exact ⟨combinePair c it, combinePair_mem_newItemsOf hcmem hbj hcc,
            covers_combine_right c.bin it.bin b0 hcov⟩
    obtain ⟨nit, hnit, hncov⟩ := hnew
    obtain ⟨it', hit', hkey⟩ := newItem_survives hnit
    have hgood' := goodGroups_qmRound hg it' hit'
    have hgoodn : GoodPrime W bins nit.bin := by
      obtain ⟨a, b, ha, hb, hc, heq⟩ := mem_newItemsOf hnit
      obtain ⟨⟨haw, hac, hax⟩, _⟩ := hg a ha
      obtain ⟨⟨hbw, hbc, hbx⟩, _⟩ := hg b hb
      subst heq
      refine ⟨by show (combine a.bin b.bin).length = W; rw [combine_length, haw], ?_, ?_⟩
      · intro c hcmem
        rcases combine_chars a.bin b.bin c hcmem with h | h
        · exact hac c h
        · exact Or.inr (Or.inr h)
      · intro x hxw hxc hcov'
        have hdiff : diffCount a.bin b.bin = 1 := of_decide_eq_true hc
        rcases covers_combine_sound a.bin b.bin x (by rw [haw, hbw]) (by rw [hbw, hxw])
          hac hbc hxc hdiff hcov' with h | h
        · exact hax x hxw hxc h
        · exact hbx x hxw hxc h
    have hbin : it'.bin = nit.bin :=
      itemKey_bin_eq (chars_no_bar hgood'.1.2.1) (chars_no_bar hgoodn.2.1) hkey
    exact Or.inr ⟨it', hit', by rw [hbin]; exact hncov⟩
  · -- never combined: its pattern is a collected prime
    rw [Bool.not_eq_true] at hur
    exact Or.inl ⟨it.bin, prime_forward hbucket (hg it hit).2 hur, hcov⟩

/-- Through the whole loop, any string covered by an initial item stays
covered by a collected prime or by a leftover item of the final groups. -/
theorem qmLoop_complete {W : Nat} {bins : List Str} :
    ∀ (fuel : Nat) (g : Groups) (b0 : Str), GoodGroups W bins g →
      (∃ it, it ∈ itemsOf g ∧ covers it.bin b0 = true) →
      ∃ p, p ∈ (qmLoop fuel g).1.flatten ++ (itemsOf (qmLoop fuel g).2).map
          (fun it => it.bin) ∧ covers p b0 = true := by
  intro fuel
  induction fuel with
  | zero =>
    intro g b0 _ ⟨it, hit, hcov⟩
    exact ⟨it.bin, by
      simp only [qmLoop, List.flatten_nil, List.nil_append, List.mem_map]
      exact ⟨it, hit, rfl⟩, hcov⟩
  | succ fuel ih =>
    intro g b0 hg h
    unfold qmLoop
    by_cases hb : (qmRound g).2.2 = true
    · rw [if_pos hb]
      rcases round_complete hg b0 h with ⟨p, hp, hpcov⟩ | ⟨it, hit, hcov⟩
      · refine ⟨p, ?_, hpcov⟩
        rw [List.mem_append]
        exact Or.inl (by simp only [List.flatten_cons]; exact List.mem_append_left _ hp)
      · obtain ⟨p, hp, hpcov⟩ := ih (qmRound g).1 b0 (goodGroups_qmRound hg)
          ⟨it, hit, hcov⟩
        refine ⟨p, ?_, hpcov⟩
        rw [List.mem_append] at hp
        rw [List.mem_append]
        rcases hp with h' | h'
        · exact Or.inl (by
            simp only [List.flatten_cons]
            exact List.mem_append_right _ h')
        · exact Or.inr h'
    · rw [if_neg hb]
      rcases round_complete hg b0 h with ⟨p, hp, hpcov⟩ | ⟨it, hit, hcov⟩
      · refine ⟨p, ?_, hpcov⟩
        rw [List.mem_append]
        exact Or.inl (by simp [List.flatten_cons, hp])
      · refine ⟨it.bin, ?_, hcov⟩
        rw [List.mem_append]
        exact Or.inr (List.mem_map.mpr ⟨it, hit, rfl⟩)

end KMap

namespace KMap

/-- The initial grouping of in-range terms satisfies the invariant. -/
theorem initGroups_good (terms : List Nat) (W : Nat) (hW : 1 ≤ W)
    (hbound : ∀ m ∈ terms, m < 2 ^ W) :
    GoodGroups W (terms.map (fun m => toBin m W))
      (initGroups (terms.map (fun m => toBin m W))) := by
  intro it hit
  obtain ⟨b, hb, rfl⟩ := (mem_itemsOf_initGroups _ it).mp hit
  obtain ⟨m, hm, rfl⟩ := List.mem_map.mp hb
  have hbits : toBin m W = bitsM W m := toBin_eq_bitsM W m hW (hbound m hm)
  refine ⟨⟨?_, ?_, ?_⟩, rfl⟩
  · show (toBin m W).length = W
    rw [hbits, bitsM_length]
  · intro c hc
    rw [hbits] at hc
    rcases bitsM_chars W m c hc with h | h
    · exact Or.inl h
    · exact Or.inr (Or.inl h)
  · intro x hxw hxc hcov
    have : toBin m W = x := by
      apply covers_pure_eq (toBin m W) x
      · intro c hc
        rw [hbits] at hc
        rcases bitsM_chars W m c hc with h | h <;> simp [h]
      · rw [hbits, bitsM_length, hxw]
      · exact hcov
    rw [← this]
    exact hb

/-- Every prime-list entry is a well-formed pattern covering only input
terms. -/
theorem qmPrimeList_sound (minterms dontcares : List Nat) (W : Nat) (hW : 1 ≤ W)
    (hbound : ∀ m ∈ minterms ++ dontcares, m < 2 ^ W) :
    ∀ p ∈ qmPrimeList minterms dontcares W,
      GoodPrime W ((minterms ++ dontcares).map (fun m => toBin m W)) p := by
  intro p hp
  unfold qmPrimeList at hp
  rw [dedupFirst_mem] at hp
  have hg0 := initGroups_good (minterms ++ dontcares) W hW hbound
  have hloop := qmLoop_sound (qmLoopFuel W)
    (initGroups ((minterms ++ dontcares).map (fun m => toBin m W))) hg0
  rcases List.mem_append.mp hp with h | h
  · exact hloop.1 p h
  · obtain ⟨it, hit, rfl⟩ := List.mem_map.mp h
    exact (hloop.2 it hit).1

/-- Every input term string is covered by some prime-list entry. -/
theorem qmPrimeList_complete (minterms dontcares : List Nat) (W : Nat) (hW : 1 ≤ W)
    (hbound : ∀ m ∈ minterms ++ dontcares, m < 2 ^ W) :
    ∀ b0 ∈ (minterms ++ dontcares).map (fun m => toBin m W),
      ∃ p, p ∈ qmPrimeList minterms dontcares W ∧ covers p b0 = true := by
  intro b0 hb0
  have hg0 := initGroups_good (minterms ++ dontcares) W hW hbound
  have hstart : ∃ it, it ∈ itemsOf
      (initGroups ((minterms ++ dontcares).map (fun m => toBin m W))) ∧
      covers it.bin b0 = true := by
    refine ⟨⟨b0, false, [b0]⟩, ?_, covers_refl b0⟩
    exact (mem_itemsOf_initGroups _ _).mpr ⟨b0, hb0, rfl⟩
  obtain ⟨p, hp, hpcov⟩ := qmLoop_complete (qmLoopFuel W) _ b0 hg0 hstart
  refine ⟨p, ?_, hpcov⟩
  unfold qmPrimeList
  rw [dedupFirst_mem]
  exact hp

/-- First-occurrence deduplication yields distinct elements. -/
theorem dedupFirstAux_nodup [DecidableEq α] :
    ∀ (l seen : List α), (dedupFirstAux l seen).Nodup := by
  intro l
  induction l with
  | nil => intro seen; exact List.nodup_nil
  | cons x xs ih =>
    intro seen
    unfold dedupFirstAux
    by_cases hx : x ∈ seen
    · rw [if_pos hx]; exact ih seen
    · rw [if_neg hx]
      refine List.Nodup.cons ?_ (ih (x :: seen))
      intro hmem
      exact ((dedupFirstAux_mem xs (x :: seen) x).mp hmem).2 (List.mem_cons_self _ _)

/-- The chart entry for minterm `i`: exactly the in-range covering indices. -/
theorem coverList_getD_mem (primeList minBin : List Str) (i : Nat)
    (hi : i < minBin.length) (j : Nat) :
    j ∈ (coverList primeList minBin).getD i [] ↔
      j < primeList.length ∧
        covers (primeList.getD j []) (minBin.getD i []) = true := by
  unfold coverList
  rw [List.getD_eq_getElem _ [] (by simpa using hi), List.getElem_map,
    List.mem_filter, List.mem_range, List.getD_eq_getElem minBin [] hi]

/-- Every essential comes from some chart row. -/
theorem essentialsOf_mem (cover : Nat → List Nat) (nMin : Nat) (j : Nat)
    (h : j ∈ essentialsOf cover nMin) : ∃ i, i < nMin ∧ j ∈ cover i := by
  rw [essentialsOf_eq_spec] at h
  unfold specEssentials at h
  rw [dedupFirst_mem, List.mem_filterMap] at h
  obtain ⟨i, hi, hj⟩ := h
  refine ⟨i, List.mem_range.mp hi, ?_⟩
  revert hj
  cases hc : cover i with
  | nil => intro hj; exact absurd hj (by simp)
  | cons a t =>
    cases t with
    | nil =>
      intro hj
      simp only [Option.some.injEq] at hj
      rw [← hj]
      exact List.mem_cons_self _ _
    | cons b t' => intro hj; exact absurd hj (by simp)

/-- The essential set is duplicate-free. -/
theorem essentialsOf_nodup (cover : Nat → List Nat) (nMin : Nat) :
    (essentialsOf cover nMin).Nodup := by
  rw [essentialsOf_eq_spec]
  exact dedupFirstAux_nodup _ []

end KMap

namespace KMap

/-- A duplicate-free list of indices below `P` has at most `P` elements. -/
theorem nodup_length_le (ch : List Nat) (P : Nat) (hnd : ch.Nodup)
    (hlt : ∀ j ∈ ch, j < P) : ch.length ≤ P := by
  have hcard : ch.toFinset.card = ch.length := List.toFinset_card_of_nodup hnd
  have hsub : ch.toFinset ⊆ Finset.range P := by
    intro j hj
    rw [List.mem_toFinset] at hj
    rw [Finset.mem_range]
    exact hlt j hj
  have := Finset.card_le_card hsub
  rw [hcard, Finset.card_range] at this
  exact this

/-- With a chart whose rows are nonempty over in-range indices, the greedy
loop with enough fuel covers every minterm, keeping its set duplicate-free
and in range. -/
theorem greedyAux_covers (P : Nat) (cover : Nat → List Nat) (nMin : Nat)
    (hne : ∀ i, i < nMin → cover i ≠ [])
    (hsub : ∀ i, i < nMin → ∀ j ∈ cover i, j < P) :
    ∀ (fuel : Nat) (ch : List Nat), ch.Nodup → (∀ j ∈ ch, j < P) →
      P + 1 ≤ fuel + ch.length →
      (greedyAux P cover nMin fuel ch).Nodup ∧
      (∀ j ∈ greedyAux P cover nMin fuel ch, j < P) ∧
      ∀ i, i < nMin → ∃ j, j ∈ cover i ∧ j ∈ greedyAux P cover nMin fuel ch := by
  intro fuel
  induction fuel with
  | zero =>
    intro ch hnd hlt hfuel
    have := nodup_length_le ch P hnd hlt
    omega
  | succ fuel ih =>
    intro ch hnd hlt hfuel
    unfold greedyAux
    by_cases hz : uncoveredCount cover nMin ch = 0
    · rw [if_pos hz]
      refine ⟨hnd, hlt, ?_⟩
      intro i hi
      unfold uncoveredCount at hz
      rw [List.length_eq_zero] at hz
      have := List.filter_eq_nil_iff.mp hz i (List.mem_range.mpr hi)
      simp only [Bool.not_eq_true', Bool.not_eq_false] at this
      unfold coveredB at this
      rw [List.any_eq_true] at this
      obtain ⟨j, hj, hjc⟩ := this
      exact ⟨j, hj, of_decide_eq_true hjc⟩
    · rw [if_neg hz]
      -- some uncovered minterm has an unchosen in-range coverer: a candidate
      have hex : ∃ i, i < nMin ∧ coveredB cover ch i = false := by
        unfold uncoveredCount at hz
        have : ((List.range nMin).filter fun i => !(coveredB cover ch i)) ≠ [] := by
          intro he
          rw [he] at hz
          exact hz rfl
        obtain ⟨i, hi⟩ := List.exists_mem_of_ne_nil _ this
        rw [List.mem_filter, List.mem_range] at hi
        exact ⟨i, hi.1, by simpa using hi.2⟩
      obtain ⟨i, hi, hicov⟩ := hex
      obtain ⟨j', hj'⟩ := List.exists_mem_of_ne_nil _ (hne i hi)
      have hj'P : j' < P := hsub i hi j' hj'
      have hj'ch : j' ∉ ch := by
        intro hmem
        unfold coveredB at hicov
        have := List.any_eq_false.mp hicov j' hj'
        simp [hmem] at this
      have hcand : j' ∈ (List.range P).filter (fun j => !decide (j ∈ ch)) :=
        List.mem_filter.mpr ⟨List.mem_range.mpr hj'P, by simpa using hj'ch⟩
      have hsome : ∃ jc, bestOf P cover nMin ch = some jc := by
        rw [bestOf_eq_spec]
        unfold specBest
        cases hcl : (List.range P).filter (fun j => !decide (j ∈ ch)) with
        | nil => rw [hcl] at hcand; cases hcand
        | cons x xs =>
          simp only [specBestAux]
          exact specBestAux_ne_none _ xs (x, specCount cover nMin ch x)
      obtain ⟨jc, hjc⟩ := hsome
      rw [hjc]
      have hchar := specBestAux_char (specCount cover nMin ch)
        ((List.range P).filter fun j => !decide (j ∈ ch)) none jc
        (by rw [← specBest, ← bestOf_eq_spec]; exact hjc)
      have hjcc : jc.1 ∈ (List.range P).filter (fun j => !decide (j ∈ ch)) := by
        rcases hchar.2.2 with h | h
        · exact h.1
        · exact absurd h (by simp)
      have hjcP : jc.1 < P := List.mem_range.mp (List.mem_filter.mp hjcc).1
      have hjcch : jc.1 ∉ ch := by
        have := (List.mem_filter.mp hjcc).2
        simpa using this
      have haddeq : addChosen ch jc.1 = ch ++ [jc.1] := if_neg hjcch
      simp only [haddeq]
      refine ih (ch ++ [jc.1]) ?_ ?_ ?_
      · rw [List.nodup_append]
        exact ⟨hnd, List.nodup_singleton _, by simpa using hjcch⟩
      · intro j hj
        rcases List.mem_append.mp hj with h | h
        · exact hlt j h
        · rw [List.mem_singleton.mp h]
          exact hjcP
      · rw [List.length_append, List.length_singleton]
        omega

end KMap

namespace KMap

/-- The chosen implicants of a nonempty minimization: each covers only
minterms, and together they cover every minterm. -/
theorem qmImplicants_props (minterms : List Nat) (W : Nat) (hW : 1 ≤ W)
    (hbound : ∀ m ∈ minterms, m < 2 ^ W) :
    (∀ imp ∈ qmImplicants minterms [] W,
      ∀ m, m < 2 ^ W → covers imp (bitsM W m) = true → m ∈ minterms) ∧
    (∀ m ∈ minterms, ∃ imp, imp ∈ qmImplicants minterms [] W ∧
      covers imp (bitsM W m) = true) := by
  have hbound' : ∀ m ∈ minterms ++ [], m < 2 ^ W := by
    intro m hm
    exact hbound m (by simpa using hm)
  have hsound := qmPrimeList_sound minterms [] W hW hbound'
  have hcomplete := qmPrimeList_complete minterms [] W hW hbound'
  have hbins : (minterms ++ []).map (fun m => toBin m W) =
      minterms.map (fun m => toBin m W) := by rw [List.append_nil]
  rw [hbins] at hsound hcomplete
  -- abbreviations
  have hsub : ∀ i, i < (minterms.map (fun m => toBin m W)).length →
      ∀ j ∈ (coverList (qmPrimeList minterms [] W)
        (minterms.map (fun m => toBin m W))).getD i [],
        j < (qmPrimeList minterms [] W).length := by
    intro i hi j hj
    exact ((coverList_getD_mem _ _ i hi j).mp hj).1
  have hne : ∀ i, i < (minterms.map (fun m => toBin m W)).length →
      (coverList (qmPrimeList minterms [] W)
        (minterms.map (fun m => toBin m W))).getD i [] ≠ [] := by
    intro i hi
    have hb0 : (minterms.map (fun m => toBin m W)).getD i [] ∈
        minterms.map (fun m => toBin m W) := by
      rw [List.getD_eq_getElem _ [] hi]
      exact List.getElem_mem hi
    obtain ⟨p, hp, hpcov⟩ := hcomplete _ hb0
    obtain ⟨j, hj, hjp⟩ := List.mem_iff_getElem.mp hp
    apply List.ne_nil_of_mem
    show j ∈ _
    refine (coverList_getD_mem _ _ i hi j).mpr ⟨hj, ?_⟩
    rw [List.getD_eq_getElem _ [] hj, hjp]
    exact hpcov
  have hess_nodup := essentialsOf_nodup
    (fun i => (coverList (qmPrimeList minterms [] W)
      (minterms.map (fun m => toBin m W))).getD i [])
    (minterms.map (fun m => toBin m W)).length
  have hess_lt : ∀ j ∈ essentialsOf
      (fun i => (coverList (qmPrimeList minterms [] W)
        (minterms.map (fun m => toBin m W))).getD i [])
      (minterms.map (fun m => toBin m W)).length,
      j < (qmPrimeList minterms [] W).length := by
    intro j hj
    obtain ⟨i, hi, hji⟩ := essentialsOf_mem _ _ j hj
    exact hsub i hi j hji
  have hgreedy := greedyAux_covers (qmPrimeList minterms [] W).length
    (fun i => (coverList (qmPrimeList minterms [] W)
      (minterms.map (fun m => toBin m W))).getD i [])
    (minterms.map (fun m => toBin m W)).length hne hsub
    ((qmPrimeList minterms [] W).length + 1) _ hess_nodup hess_lt (by omega)
  have hchosen : qmChosen minterms [] W = greedyAux (qmPrimeList minterms [] W).length
      (fun i => (coverList (qmPrimeList minterms [] W)
        (minterms.map (fun m => toBin m W))).getD i [])
      (minterms.map (fun m => toBin m W)).length
      ((qmPrimeList minterms [] W).length + 1)
      (essentialsOf (fun i => (coverList (qmPrimeList minterms [] W)
        (minterms.map (fun m => toBin m W))).getD i [])
        (minterms.map (fun m => toBin m W)).length) := rfl
  constructor
  · -- soundness
    intro imp himp m hm hcov
    unfold qmImplicants at himp
    rw [List.mem_map] at himp
    obtain ⟨j, hjch, rfl⟩ := himp
    rw [hchosen] at hjch
    have hjP : j < (qmPrimeList minterms [] W).length := hgreedy.2.1 j hjch
    have hpmem : (qmPrimeList minterms [] W).getD j [] ∈ qmPrimeList minterms [] W := by
      rw [List.getD_eq_getElem _ [] hjP]
      exact List.getElem_mem hjP
    have hgood := hsound _ hpmem
    have := hgood.2.2 (bitsM W m) (bitsM_length W m) (bitsM_chars W m) hcov
    rw [List.mem_map] at this
    obtain ⟨m', hm', heq⟩ := this
    have : m = m' := bitsM_inj W m m' hm (hbound m' hm')
      (by rw [← toBin_eq_bitsM W m' hW (hbound m' hm'), heq])
    rw [this]
    exact hm'
  · -- coverage
    intro m hm
    obtain ⟨i, hi, him⟩ := List.mem_iff_getElem.mp hm
    have hi' : i < (minterms.map (fun m => toBin m W)).length := by simpa using hi
    obtain ⟨j, hji, hjch⟩ := hgreedy.2.2 i hi'
    refine ⟨(qmPrimeList minterms [] W).getD j [], ?_, ?_⟩
    · unfold qmImplicants
      rw [List.mem_map]
      exact ⟨j, by rw [hchosen]; exact hjch, rfl⟩
    · have := ((coverList_getD_mem _ _ i hi' j).mp hji).2
      have hmb : (minterms.map (fun m => toBin m W)).getD i [] = bitsM W m := by
        rw [List.getD_eq_getElem _ [] hi', List.getElem_map]
        rw [him]
        exact toBin_eq_bitsM W m hW (hbound m hm)
      rw [hmb] at this
      exact this

end KMap

namespace KMap

/-! ### C1 layer E: re-scanning the rendered SOP text -/

/-- The uppercase letters. -/
def upperLetters : Str := "ABCDEFGHIJKLMNOPQRSTUVWXYZ".data

/-- Scanner-relevant facts about every uppercase letter. -/
theorem upperLetters_facts : ∀ c ∈ upperLetters,
    isLetterChar c = true ∧ c.toUpper = c ∧ c.isWhitespace = false ∧
    ¬ c = '\'' ∧ ¬ (c = '0' ∨ c = '1') := by decide

/-- One scanner step on a letter. -/
theorem tkAux_letter (c : Char) (hl : isLetterChar c = true) (h0 : ¬ (c = '0' ∨ c = '1'))
    (hq : ¬ c = '\'') (r : Str) (i : Nat) (inRun : Bool) (par : Nat) :
    tkAux (c :: r) i inRun par =
      match tkAux r (i + 1) true 0 with
      | .ok ts => .ok ((if inRun then tkFlush par else []) ++ Token.var c.toUpper :: ts)
      | .error e => .error e := by
  cases hrec : tkAux r (i + 1) true 0 <;>
    simp only [tkAux, if_neg hq, if_neg h0, if_pos hl, hrec]

/-- One scanner step on the digit `'1'`. -/
theorem tkAux_one (r : Str) (i : Nat) (inRun : Bool) (par : Nat) :
    tkAux ('1' :: r) i inRun par =
      match tkAux r (i + 1) false 0 with
      | .ok ts => .ok ((if inRun then tkFlush par else []) ++ Token.num 1 :: ts)
      | .error e => .error e := by
  cases hrec : tkAux r (i + 1) false 0 <;>
    simp [tkAux, hrec]

/-- One scanner step on `'+'`. -/
theorem tkAux_plus (r : Str) (i : Nat) (inRun : Bool) (par : Nat) :
    tkAux ('+' :: r) i inRun par =
      match tkAux r (i + 1) false 0 with
      | .ok ts => .ok ((if inRun then tkFlush par else []) ++ binTok .OR 1 :: ts)
      | .error e => .error e := by
  cases hrec : tkAux r (i + 1) false 0 <;>
    simp [tkAux, hrec, binTok, (by decide : isLetterChar '+' = false)]

/-- One scanner step on an apostrophe inside a run. -/
theorem tkAux_quote_true (r : Str) (i par : Nat) :
    tkAux ('\'' :: r) i true par = tkAux r (i + 1) true (par + 1) := by
  simp [tkAux]

/-- Leaving a run before a non-apostrophe: the pending flush is prepended. -/
theorem tkAux_flush_run (s : Str) (i par : Nat) (h : s.head? ≠ some '\'') :
    tkAux s i true par =
      match tkAux s i false 0 with
      | .ok ts => .ok (tkFlush par ++ ts)
      | .error e => .error e := by
  cases s with
  | nil => simp [tkAux]
  | cons c r =>
    have hc : ¬ c = '\'' := by
      intro he
      exact h (by rw [he]; rfl)
    unfold tkAux
    rw [if_neg hc, if_neg hc]
    by_cases h01 : c = '0' ∨ c = '1'
    · rw [if_pos h01, if_pos h01]
      cases tkAux r (i + 1) false 0 <;> simp
    · rw [if_neg h01, if_neg h01]
      by_cases hl : isLetterChar c = true
      · rw [if_pos hl, if_pos hl]
        cases tkAux r (i + 1) true 0 <;> simp
      · rw [if_neg hl, if_neg hl]
        by_cases hlp : c = '('
        · rw [if_pos hlp, if_pos hlp]
          cases tkAux r (i + 1) false 0 <;> simp
        · rw [if_neg hlp, if_neg hlp]
          by_cases hrp : c = ')'
          · rw [if_pos hrp, if_pos hrp]
            cases tkAux r (i + 1) false 0 <;> simp
          · rw [if_neg hrp, if_neg hrp]
            by_cases hbang : c = '!' ∨ c = '~'
            · rw [if_pos hbang, if_pos hbang]
              cases tkAux r (i + 1) false 0 <;> simp
            · rw [if_neg hbang, if_neg hbang]
              by_cases hand : c = '&' ∨ c = '*'
              · rw [if_pos hand, if_pos hand]
                cases tkAux r (i + 1) false 0 <;> simp
              · rw [if_neg hand, if_neg hand]
                by_cases hor : c = '+' ∨ c = '|'
                · rw [if_pos hor, if_pos hor]
                  cases tkAux r (i + 1) false 0 <;> simp
                · rw [if_neg hor, if_neg hor]
                  by_cases hxor : c = '^'
                  · rw [if_pos hxor, if_pos hxor]
                    cases tkAux r (i + 1) false 0 <;> simp
                  · rw [if_neg hxor, if_neg hxor]

end KMap

namespace KMap

/-- Every chosen implicant pattern has width `W` over alphabet `{0,1,-}`. -/
theorem qmImplicants_wf (minterms : List Nat) (W : Nat) (hW : 1 ≤ W)
    (hbound : ∀ m ∈ minterms, m < 2 ^ W) :
    ∀ imp ∈ qmImplicants minterms [] W,
      imp.length = W ∧ ∀ c ∈ imp, c = '0' ∨ c = '1' ∨ c = '-' := by
  have hbound' : ∀ m ∈ minterms ++ [], m < 2 ^ W := by
    intro m hm
    exact hbound m (by simpa using hm)
  have hsound := qmPrimeList_sound minterms [] W hW hbound'
  have hcomplete := qmPrimeList_complete minterms [] W hW hbound'
  have hbins : (minterms ++ []).map (fun m => toBin m W) =
      minterms.map (fun m => toBin m W) := by rw [List.append_nil]
  rw [hbins] at hsound hcomplete
  have hsub : ∀ i, i < (minterms.map (fun m => toBin m W)).length →
      ∀ j ∈ (coverList (qmPrimeList minterms [] W)
        (minterms.map (fun m => toBin m W))).getD i [],
        j < (qmPrimeList minterms [] W).length := by
    intro i hi j hj
    exact ((coverList_getD_mem _ _ i hi j).mp hj).1
  have hne : ∀ i, i < (minterms.map (fun m => toBin m W)).length →
      (coverList (qmPrimeList minterms [] W)
        (minterms.map (fun m => toBin m W))).getD i [] ≠ [] := by
    intro i hi
    have hb0 : (minterms.map (fun m => toBin m W)).getD i [] ∈
        minterms.map (fun m => toBin m W) := by
      rw [List.getD_eq_getElem _ [] hi]
      exact List.getElem_mem hi
    obtain ⟨p, hp, hpcov⟩ := hcomplete _ hb0
    obtain ⟨j, hj, hjp⟩ := List.mem_iff_getElem.mp hp
    apply List.ne_nil_of_mem
    show j ∈ _
    refine (coverList_getD_mem _ _ i hi j).mpr ⟨hj, ?_⟩
    rw [List.getD_eq_getElem _ [] hj, hjp]
    exact hpcov
  have hess_nodup := essentialsOf_nodup
    (fun i => (coverList (qmPrimeList minterms [] W)
      (minterms.map (fun m => toBin m W))).getD i [])
    (minterms.map (fun m => toBin m W)).length
  have hess_lt : ∀ j ∈ essentialsOf
      (fun i => (coverList (qmPrimeList minterms [] W)
        (minterms.map (fun m => toBin m W))).getD i [])
      (minterms.map (fun m => toBin m W)).length,
      j < (qmPrimeList minterms [] W).length := by
    intro j hj
    obtain ⟨i, hi, hji⟩ := essentialsOf_mem _ _ j hj
    exact hsub i hi j hji
  have hgreedy := greedyAux_covers (qmPrimeList minterms [] W).length
    (fun i => (coverList (qmPrimeList minterms [] W)
      (minterms.map (fun m => toBin m W))).getD i [])
    (minterms.map (fun m => toBin m W)).length hne hsub
    ((qmPrimeList minterms [] W).length + 1) _ hess_nodup hess_lt (by omega)
  intro imp himp
  unfold qmImplicants at himp
  rw [List.mem_map] at himp
  obtain ⟨j, hjch, rfl⟩ := himp
  have hjP : j < (qmPrimeList minterms [] W).length := hgreedy.2.1 j hjch
  have hpmem : (qmPrimeList minterms [] W).getD j [] ∈ qmPrimeList minterms [] W := by
    rw [List.getD_eq_getElem _ [] hjP]
    exact List.getElem_mem hjP
  have hgood := hsound _ hpmem
  exact ⟨hgood.1, hgood.2.1⟩

/-- The token rendering of one SOP literal: the variable, then a postfix NOT
when complemented. -/
def litToks (cv : Char × Char) : List Token :=
  Token.var cv.2 :: (if cv.1 = '1' then [] else [notPostTok])

/-- The character rendering of one SOP literal. -/
def litChars (cv : Char × Char) : Str :=
  cv.2 :: (if cv.1 = '1' then [] else ['\''])

/-- The (mask char, variable letter) pairs of the non-dash positions of a
mask, variables taken from the single-letter list `vch`. -/
def litPairs (vch : List Char) : Str → Nat → List (Char × Char)
  | [], _ => []
  | c :: rest, i =>
    (if c = '-' then [] else [(c, vch.getD i ' ')]) ++ litPairs vch rest (i + 1)

/-- The characters of a product term with literal list `lits`. -/
def termChars (lits : List (Char × Char)) : Str := lits.flatMap litChars

/-- The tokens the scanner produces for a product term. -/
def termToks (lits : List (Char × Char)) : List Token :=
  if lits.isEmpty then [Token.num 1] else lits.flatMap litToks

/-- In-range positions of single-letter variables read back the letter. -/
theorem varAt_singleton (vch : List Char) (i : Nat) (hi : i < vch.length) :
    varAt (vch.map (fun v => [v])) i = [vch.getD i ' '] := by
  unfold varAt
  have hi' : i < (vch.map (fun v => [v])).length := by simpa using hi
  rw [List.getD_eq_getElem _ _ hi', List.getElem_map, List.getD_eq_getElem _ _ hi]

/-- `sopPartAux` over single-letter variables is the literal rendering of the
literal pairs. -/
theorem sopPartAux_eq_litPairs (vch : List Char) :
    ∀ (mask : Str) (i : Nat), i + mask.length ≤ vch.length →
      sopPartAux (vch.map (fun v => [v])) mask i = termChars (litPairs vch mask i) := by
  intro mask
  induction mask with
  | nil => intro i _; rfl
  | cons c rest ih =>
    intro i hle
    have hi : i < vch.length := by simp at hle; omega
    have hrest : (i + 1) + rest.length ≤ vch.length := by simp at hle; omega
    unfold sopPartAux litPairs
    by_cases hc : c = '-'
    · rw [if_pos hc, if_pos hc]
      simpa [termChars] using ih (i + 1) hrest
    · rw [if_neg hc, if_neg hc, varAt_singleton vch i hi]
      simp only [termChars, List.flatMap_append, List.flatMap_cons, List.flatMap_nil,
        List.append_nil]
      rw [ih (i + 1) hrest]
      simp [litChars, termChars]

/-- A term over at least one literal renders at least one character. -/
theorem termChars_ne_nil (lits : List (Char × Char)) (h : lits ≠ []) :
    termChars lits ≠ [] := by
  cases lits with
  | nil => exact absurd rfl h
  | cons cv rest =>
    simp [termChars, litChars]

/-- `sopPart` over single-letter variables, via the literal pairs. -/
theorem sopPart_eq (vch : List Char) (mask : Str) (hle : mask.length ≤ vch.length) :
    sopPart mask (vch.map (fun v => [v])) =
      if (litPairs vch mask 0).isEmpty then ['1'] else termChars (litPairs vch mask 0) := by
  unfold sopPart
  rw [sopPartAux_eq_litPairs vch mask 0 (by omega)]
  by_cases hemp : litPairs vch mask 0 = []
  · rw [hemp]
    simp [termChars]
  · rw [if_neg (by simpa [List.isEmpty_iff] using termChars_ne_nil _ hemp),
      if_neg (by simpa [List.isEmpty_iff] using hemp)]

/-- Every literal pair's mask char comes from the mask, and its letter from
`vch` (when the mask is no longer than `vch`). -/
theorem litPairs_mem (vch : List Char) :
    ∀ (mask : Str) (i : Nat) (cv : Char × Char), cv ∈ litPairs vch mask i →
      i + mask.length ≤ vch.length →
      cv.1 ∈ mask ∧ cv.2 ∈ vch := by
  intro mask
  induction mask with
  | nil => intro i cv h _; exact absurd h (by simp [litPairs])
  | cons c rest ih =>
    intro i cv h hle
    have hrest : (i + 1) + rest.length ≤ vch.length := by simp at hle; omega
    unfold litPairs at h
    rw [List.mem_append] at h
    rcases h with h | h
    · by_cases hc : c = '-'
      · rw [if_pos hc] at h
        exact absurd h (by simp)
      · rw [if_neg hc, List.mem_singleton] at h
        subst h
        have hi : i < vch.length := by simp at hle; omega
        refine ⟨List.mem_cons_self _ _, ?_⟩
        rw [List.getD_eq_getElem _ _ hi]
        exact List.getElem_mem hi
    · have := ih (i + 1) cv h hrest
      exact ⟨List.mem_cons_of_mem _ (this.1), this.2⟩

end KMap

namespace KMap

/-- Filtering out whitespace from a `" + "`-join of whitespace-free parts
gives the `"+"`-join. -/
theorem stripWS_joinWith :
    ∀ (parts : List Str), (∀ p ∈ parts, ∀ c ∈ p, c.isWhitespace = false) →
      stripWS (joinWith (' ' :: '+' :: [' ']) parts) = joinWith ['+'] parts := by
  intro parts
  induction parts with
  | nil => intro _; rfl
  | cons p rest ih =>
    intro hall
    have hp : ∀ c ∈ p, (!c.isWhitespace) = true := by
      intro c hc
      rw [hall p (List.mem_cons_self _ _) c hc]
      rfl
    cases rest with
    | nil =>
      show stripWS p = p
      exact List.filter_eq_self.mpr hp
    | cons q rest' =>
      show stripWS (p ++ (' ' :: '+' :: [' ']) ++ joinWith _ (q :: rest')) = _
      unfold stripWS
      rw [List.filter_append, List.filter_append]
      have h1 : List.filter (fun c => !c.isWhitespace) p = p := List.filter_eq_self.mpr hp
      have h2 : List.filter (fun c => !c.isWhitespace) (' ' :: '+' :: [' ']) = ['+'] := rfl
      rw [h1, h2]
      have := ih (fun r hr => hall r (List.mem_cons_of_mem _ hr))
      unfold stripWS at this
      rw [this]
      rfl

/-- A product term's characters are uppercase letters and apostrophes, hence
whitespace-free. -/
theorem termChars_not_ws (lits : List (Char × Char))
    (hup : ∀ cv ∈ lits, cv.2 ∈ upperLetters) :
    ∀ c ∈ termChars lits, c.isWhitespace = false := by
  intro c hc
  unfold termChars at hc
  rw [List.mem_flatMap] at hc
  obtain ⟨cv, hcv, hcl⟩ := hc
  unfold litChars at hcl
  rcases List.mem_cons.mp hcl with h | h
  · subst h
    exact (upperLetters_facts cv.2 (hup cv hcv)).2.2.1
  · have : c = '\'' := by
      by_cases h1 : cv.1 = '1'
      · rw [if_pos h1] at h
        exact absurd h (by simp)
      · rw [if_neg h1, List.mem_singleton] at h
        exact h
    rw [this]
    rfl

/-- Scanning a product term's characters (scanner outside a run) emits the
term's literal tokens and continues with the rest, provided the rest does not
begin with an apostrophe. -/
theorem tk_termChars :
    ∀ (lits : List (Char × Char)), (∀ cv ∈ lits, cv.2 ∈ upperLetters) →
      ∀ (r : Str) (i : Nat), r.head? ≠ some '\'' →
        tkAux (termChars lits ++ r) i false 0 =
          match tkAux r (i + (termChars lits).length) false 0 with
          | .ok ts => .ok (lits.flatMap litToks ++ ts)
          | .error e => .error e := by
  intro lits
  induction lits with
  | nil =>
    intro _ r i _
    have he : termChars ([] : List (Char × Char)) ++ r = r := rfl
    have hl : (termChars ([] : List (Char × Char))).length = 0 := rfl
    rw [he, hl, Nat.add_zero]
    cases h : tkAux r i false 0 with
    | ok ts => rfl
    | error e => rfl
  | cons cv rest ih =>
    intro hup r i hr
    have hfacts := upperLetters_facts cv.2 (hup cv (List.mem_cons_self _ _))
    have hrest_up : ∀ x ∈ rest, x.2 ∈ upperLetters :=
      fun x hx => hup x (List.mem_cons_of_mem _ hx)
    -- head of the following stream is never an apostrophe
    have hnext : ∀ (s : Str), s = termChars rest ++ r → s.head? ≠ some '\'' := by
      intro s hs
      cases rest with
      | nil =>
        rw [hs]
        simpa [termChars] using hr
      | cons cv' rest' =>
        rw [hs]
        have hup' := upperLetters_facts cv'.2 (hrest_up cv' (List.mem_cons_self _ _))
        simp only [termChars, List.flatMap_cons, litChars, List.cons_append, List.head?_cons]
        intro hcon
        exact hup'.2.2.2.1 (Option.some.inj hcon)
    by_cases h1 : cv.1 = '1'
    · -- a positive literal: one letter
      have hstream : termChars (cv :: rest) ++ r =
          cv.2 :: (termChars rest ++ r) := by
        simp [termChars, litChars, if_pos h1]
      rw [hstream, tkAux_letter cv.2 hfacts.1 hfacts.2.2.2.2 hfacts.2.2.2.1]
      rw [tkAux_flush_run _ _ _ (hnext _ rfl)]
      rw [ih hrest_up r (i + 1) hr]
      have hlen : i + 1 + (termChars rest).length =
          i + (termChars (cv :: rest)).length := by
        simp [termChars, litChars, if_pos h1]
        omega
      rw [hlen]
      cases tkAux r (i + (termChars (cv :: rest)).length) false 0 with
      | ok ts =>
        simp only [List.flatMap_cons, litToks, if_pos h1, hfacts.2.1]
        rfl
      | error e => rfl
    · -- a complemented literal: letter then apostrophe
      have hstream : termChars (cv :: rest) ++ r =
          cv.2 :: '\'' :: (termChars rest ++ r) := by
        simp [termChars, litChars, if_neg h1]
      rw [hstream, tkAux_letter cv.2 hfacts.1 hfacts.2.2.2.2 hfacts.2.2.2.1]
      rw [tkAux_quote_true]
      rw [tkAux_flush_run _ _ _ (hnext _ rfl)]
      rw [ih hrest_up r (i + 1 + 1) hr]
      have hlen : i + 1 + 1 + (termChars rest).length =
          i + (termChars (cv :: rest)).length := by
        simp [termChars, litChars, if_neg h1]
        omega
      rw [hlen]
      cases tkAux r (i + (termChars (cv :: rest)).length) false 0 with
      | ok ts =>
        simp only [List.flatMap_cons, litToks, if_neg h1, hfacts.2.1, tkFlush]
        rfl
      | error e => rfl

end KMap

namespace KMap

/-- Joining token lists with a separator (same shape as `joinWith`). -/
def joinT (sep : List Token) : List (List Token) → List Token
  | [] => []
  | [s] => s
  | s :: rest => s ++ sep ++ joinT sep rest

/-- Scanning the `"+"`-joined term texts yields the `"+"`-joined term tokens. -/
theorem tk_parts :
    ∀ (parts : List (List (Char × Char))), parts ≠ [] →
      (∀ p ∈ parts, ∀ cv ∈ p, cv.2 ∈ upperLetters) →
      ∀ (i : Nat),
        tkAux (joinWith ['+']
            (parts.map (fun p => if p.isEmpty then ['1'] else termChars p))) i false 0 =
          .ok (joinT [orTok] (parts.map termToks)) := by
  intro parts
  induction parts with
  | nil => intro h; exact absurd rfl h
  | cons p rest ih =>
    intro _ hup i
    have hpup : ∀ cv ∈ p, cv.2 ∈ upperLetters := hup p (List.mem_cons_self _ _)
    cases rest with
    | nil =>
      -- a single term
      show tkAux (if p.isEmpty then ['1'] else termChars p) i false 0 =
        .ok (termToks p)
      by_cases hemp : p = []
      · subst hemp
        show tkAux ['1'] i false 0 = .ok (termToks [])
        rw [tkAux_one]
        rfl
      · rw [if_neg (by simpa [List.isEmpty_iff] using hemp)]
        have := tk_termChars p hpup [] i (by simp)
        rw [List.append_nil] at this
        rw [this]
        unfold termToks
        rw [if_neg (by simpa [List.isEmpty_iff] using hemp)]
        simp [tkAux]
    | cons q rest' =>
      -- first term, then '+', then the remaining terms
      have hjoin : joinWith ['+']
          ((p :: q :: rest').map (fun x => if x.isEmpty then ['1'] else termChars x)) =
          (if p.isEmpty then ['1'] else termChars p) ++
            '+' :: joinWith ['+']
              ((q :: rest').map (fun x => if x.isEmpty then ['1'] else termChars x)) := by
        show ((if p.isEmpty then ['1'] else termChars p) ++ ['+']) ++
            joinWith ['+']
              ((q :: rest').map (fun x => if x.isEmpty then ['1'] else termChars x)) = _
        rw [List.append_assoc]
        rfl
      have hrest := ih (by simp) (fun x hx => hup x (List.mem_cons_of_mem _ hx))
      have hjoinTok : joinT [orTok] ((p :: q :: rest').map termToks) =
          termToks p ++ orTok :: joinT [orTok] ((q :: rest').map termToks) := by
        show (termToks p ++ [orTok]) ++ joinT [orTok] ((q :: rest').map termToks) = _
        rw [List.append_assoc]
        rfl
      rw [hjoin, hjoinTok]
      by_cases hemp : p = []
      · subst hemp
        show tkAux ('1' :: '+' :: _) i false 0 = _
        rw [tkAux_one, tkAux_plus, hrest (i + 1 + 1)]
        simp [termToks, orTok]
      · rw [if_neg (by simpa [List.isEmpty_iff] using hemp)]
        rw [tk_termChars p hpup ('+' :: _) i (by simp)]
        rw [tkAux_plus, hrest (i + (termChars p).length + 1)]
        have hne : (termToks p : List Token) = p.flatMap litToks := by
          unfold termToks
          rw [if_neg (by simpa [List.isEmpty_iff] using hemp)]
        rw [hne]
        simp [orTok]

/-- Tokenizing the rendered SOP of a nonempty implicant list over distinct
single uppercase letters: the token stream is the `OR`-joined term tokens. -/
theorem tokenize_sop (impls : List Str) (vch : List Char) (hne : impls ≠ [])
    (hlen : ∀ mask ∈ impls, mask.length ≤ vch.length)
    (hup : ∀ c ∈ vch, c ∈ upperLetters) :
    tokenize (implicantsToSOP impls (vch.map (fun v => [v]))) =
      .ok (joinT [orTok]
        ((impls.map (fun mask => litPairs vch mask 0)).map termToks)) := by
  unfold implicantsToSOP
  rw [if_neg (by simpa [List.isEmpty_iff] using hne)]
  unfold tokenize
  have hparts : impls.map (fun m => sopPart m (vch.map (fun v => [v]))) =
      (impls.map (fun mask => litPairs vch mask 0)).map
        (fun p => if p.isEmpty then ['1'] else termChars p) := by
    rw [List.map_map]
    apply List.map_congr_left
    intro mask hmask
    exact sopPart_eq vch mask (hlen mask hmask)
  rw [hparts]
  rw [stripWS_joinWith]
  · exact tk_parts _ (by simpa using hne)
      (by
        intro p hp cv hcv
        rw [List.mem_map] at hp
        obtain ⟨mask, hmask, rfl⟩ := hp
        exact (litPairs_mem vch mask 0 cv hcv (by simpa using hlen mask hmask)).2 |> hup _)
      0
  · intro p hp c hc
    rw [List.mem_map] at hp
    obtain ⟨q, hq, rfl⟩ := hp
    rw [List.mem_map] at hq
    obtain ⟨mask, hmask, rfl⟩ := hq
    by_cases hemp : (litPairs vch mask 0).isEmpty
    · rw [if_pos hemp] at hc
      rw [List.mem_singleton] at hc
      rw [hc]
      rfl
    · rw [if_neg hemp] at hc
      refine termChars_not_ws _ ?_ c hc
      intro cv hcv
      exact hup _ (litPairs_mem vch mask 0 cv hcv (by simpa using hlen mask hmask)).2

end KMap

namespace KMap

/-- A term's tokens after implicit-AND insertion. -/
def termToksAnd (lits : List (Char × Char)) : List Token :=
  match lits with
  | [] => [Token.num 1]
  | l0 :: ls => litToks l0 ++ ls.flatMap (fun cv => implicitAndTok :: litToks cv)

/-- The output tokens a term contributes while being scanned (its last
pending AND still on the stack). -/
def termCore (lits : List (Char × Char)) : List Token :=
  match lits with
  | [] => [Token.num 1]
  | [l0] => litToks l0
  | l0 :: l1 :: ls => litToks l0 ++ litToks l1 ++ ls.flatMap (fun cv => implicitAndTok :: litToks cv)

/-- The operator-stack residue of a scanned term: one pending AND when the
term has at least two literals. -/
def termStack (lits : List (Char × Char)) : List Token :=
  match lits with
  | [] => []
  | [_] => []
  | _ :: _ :: _ => [implicitAndTok]

/-- A term's full RPN. -/
def termRPN (lits : List (Char × Char)) : List Token :=
  termCore lits ++ termStack lits

/-- The RPN of a whole SOP expression. -/
def sopRPN (parts : List (List (Char × Char))) : List Token :=
  match parts with
  | [] => []
  | p :: ps => termRPN p ++ ps.flatMap (fun q => termRPN q ++ [orTok])

/-- One step of implicit-AND insertion (the definition's cons equation). -/
theorem insertImplicit_cons (a : Token) (rest : List Token) :
    insertImplicit (a :: rest) =
      a :: (if isOperandT (some a) && beginsOperandT rest.head? then [implicitAndTok] else [])
        ++ insertImplicit rest := rfl

/-- Implicit-AND insertion inside one term's literal run, when the following
token cannot begin an operand. -/
theorem insertImplicit_litrun :
    ∀ (lits : List (Char × Char)) (rest : List Token), lits ≠ [] →
      beginsOperandT rest.head? = false →
      insertImplicit (lits.flatMap litToks ++ rest) =
        termToksAnd lits ++ insertImplicit rest := by
  intro lits
  induction lits with
  | nil => intro rest h _; exact absurd rfl h
  | cons l0 ls ih =>
    intro rest _ hrest
    cases ls with
    | nil =>
      by_cases h1 : l0.1 = '1'
      · have hstream : ([l0].flatMap litToks) ++ rest = Token.var l0.2 :: rest := by
          simp [litToks, if_pos h1]
        rw [hstream, insertImplicit_cons]
        have hcond : (isOperandT (some (Token.var l0.2)) && beginsOperandT rest.head?) = false := by
          simp [isOperandT, hrest]
        rw [hcond]
        simp [termToksAnd, litToks, if_pos h1]
      · have hstream : ([l0].flatMap litToks) ++ rest = Token.var l0.2 :: notPostTok :: rest := by
          simp [litToks, if_neg h1]
        rw [hstream, insertImplicit_cons, insertImplicit_cons]
        have hc1 : (isOperandT (some (Token.var l0.2)) &&
            beginsOperandT (notPostTok :: rest).head?) = false := rfl
        have hc2 : (isOperandT (some notPostTok) && beginsOperandT rest.head?) = false := by
          simp [isOperandT, notPostTok, hrest]
        rw [hc1, hc2]
        simp [termToksAnd, litToks, if_neg h1]
    | cons l1 ls' =>
      have hhead : ((l1 :: ls').flatMap litToks ++ rest).head? = some (Token.var l1.2) := by
        simp [litToks]
      have hbeg : beginsOperandT ((l1 :: ls').flatMap litToks ++ rest).head? = true := by
        rw [hhead]; rfl
      have hins := ih rest (by simp) hrest
      by_cases h1 : l0.1 = '1'
      · have hstream : ((l0 :: l1 :: ls').flatMap litToks) ++ rest =
            Token.var l0.2 :: ((l1 :: ls').flatMap litToks ++ rest) := by
          simp [litToks, if_pos h1]
        rw [hstream, insertImplicit_cons]
        have hcond : (isOperandT (some (Token.var l0.2)) &&
            beginsOperandT ((l1 :: ls').flatMap litToks ++ rest).head?) = true := by
          rw [hbeg]; rfl
        rw [hcond, hins]
        simp [termToksAnd, litToks, if_pos h1, List.append_assoc]
      · have hstream : ((l0 :: l1 :: ls').flatMap litToks) ++ rest =
            Token.var l0.2 :: notPostTok :: ((l1 :: ls').flatMap litToks ++ rest) := by
          simp [litToks, if_neg h1]
        rw [hstream, insertImplicit_cons, insertImplicit_cons]
        have hc1 : (isOperandT (some (Token.var l0.2)) &&
            beginsOperandT (notPostTok :: ((l1 :: ls').flatMap litToks ++ rest)).head?) = false := rfl
        have hc2 : (isOperandT (some notPostTok) &&
            beginsOperandT ((l1 :: ls').flatMap litToks ++ rest).head?) = true := by
          rw [hbeg]; rfl
        rw [hc1, hc2, hins]
        simp [termToksAnd, litToks, if_neg h1, List.append_assoc]

end KMap

namespace KMap

/-- Implicit-AND insertion over the whole OR-joined token stream: ANDs appear
exactly between adjacent literals of each term. -/
theorem insertImplicit_sop :
    ∀ (parts : List (List (Char × Char))), parts ≠ [] →
      insertImplicit (joinT [orTok] (parts.map termToks)) =
        joinT [orTok] (parts.map termToksAnd) := by
  intro parts
  induction parts with
  | nil => intro h; exact absurd rfl h
  | cons p rest ih =>
    intro _
    cases rest with
    | nil =>
      show insertImplicit (termToks p) = termToksAnd p
      by_cases hemp : p = []
      · subst hemp; rfl
      · have hp : termToks p = p.flatMap litToks := by
          unfold termToks
          rw [if_neg (by simpa [List.isEmpty_iff] using hemp)]
        rw [hp]
        have := insertImplicit_litrun p [] hemp (by simp [beginsOperandT])
        rw [List.append_nil] at this
        rw [this]
        simp [insertImplicit]
    | cons q rest' =>
      have hjoin : joinT [orTok] ((p :: q :: rest').map termToks) =
          termToks p ++ orTok :: joinT [orTok] ((q :: rest').map termToks) := by
        show (termToks p ++ [orTok]) ++ joinT [orTok] ((q :: rest').map termToks) = _
        rw [List.append_assoc]
        rfl
      have hjoin' : joinT [orTok] ((p :: q :: rest').map termToksAnd) =
          termToksAnd p ++ orTok :: joinT [orTok] ((q :: rest').map termToksAnd) := by
        show (termToksAnd p ++ [orTok]) ++ joinT [orTok] ((q :: rest').map termToksAnd) = _
        rw [List.append_assoc]
        rfl
      rw [hjoin, hjoin']
      have hir := ih (by simp)
      have hor : insertImplicit (orTok :: joinT [orTok] ((q :: rest').map termToks)) =
          orTok :: joinT [orTok] ((q :: rest').map termToksAnd) := by
        rw [insertImplicit_cons]
        have hc : (isOperandT (some orTok) &&
            beginsOperandT (joinT [orTok] ((q :: rest').map termToks)).head?) = false := by
          simp [isOperandT, orTok, binTok]
        rw [hc, hir]
        rfl
      by_cases hemp : p = []
      · subst hemp
        show insertImplicit (Token.num 1 :: orTok :: joinT [orTok] ((q :: rest').map termToks)) = _
        rw [insertImplicit_cons]
        have hc : (isOperandT (some (Token.num 1)) &&
            beginsOperandT (orTok :: joinT [orTok] ((q :: rest').map termToks)).head?) = false := rfl
        rw [hc, hor]
        rfl
      · have hp : termToks p = p.flatMap litToks := by
          unfold termToks
          rw [if_neg (by simpa [List.isEmpty_iff] using hemp)]
        rw [hp, insertImplicit_litrun p _ hemp (by simp [beginsOperandT, orTok, binTok]), hor]

end KMap

namespace KMap

/-- The shunting-yard step for one literal: its tokens go straight to the
output. -/
theorem syAux_lit (cv : Char × Char) (ts out stack : List Token) :
    syAux (litToks cv ++ ts) out stack = syAux ts (out ++ litToks cv) stack := by
  by_cases h1 : cv.1 = '1'
  · have hs : litToks cv ++ ts = Token.var cv.2 :: ts := by simp [litToks, if_pos h1]
    rw [hs]
    show syAux ts (out ++ [Token.var cv.2]) stack = _
    simp [litToks, if_pos h1]
  · have hs : litToks cv ++ ts = Token.var cv.2 :: notPostTok :: ts := by
      simp [litToks, if_neg h1]
    rw [hs]
    show syAux (notPostTok :: ts) (out ++ [Token.var cv.2]) stack = _
    show syAux ts ((out ++ [Token.var cv.2]) ++ [notPostTok]) stack = _
    rw [List.append_assoc]
    simp [litToks, if_neg h1]

/-- Popping for an implicit AND over a stack it does not pop. -/
theorem popOps_and_cons (S : List Token) (hS : popOps implicitAndTok S = ([], S)) :
    popOps implicitAndTok (implicitAndTok :: S) = ([implicitAndTok], S) := by
  show (if popsOver implicitAndTok implicitAndTok then _ else _) = _
  rw [if_pos (by decide)]
  rw [hS]

/-- The shunting-yard trace over the middle literals of a term (one pending
AND on the stack throughout). -/
theorem syAux_midlits (S : List Token) (hS : popOps implicitAndTok S = ([], S)) :
    ∀ (ls : List (Char × Char)) (ts out : List Token),
      syAux (ls.flatMap (fun cv => implicitAndTok :: litToks cv) ++ ts) out
          (implicitAndTok :: S) =
        syAux ts (out ++ ls.flatMap (fun cv => implicitAndTok :: litToks cv))
          (implicitAndTok :: S) := by
  intro ls
  induction ls with
  | nil => intro ts out; simp
  | cons cv ls' ih =>
    intro ts out
    have hs : ((cv :: ls').flatMap (fun cv => implicitAndTok :: litToks cv)) ++ ts =
        implicitAndTok :: (litToks cv ++ (ls'.flatMap (fun cv => implicitAndTok :: litToks cv) ++ ts)) := by
      simp [List.append_assoc]
    rw [hs]
    show (let pr := popOps implicitAndTok (implicitAndTok :: S)
      syAux (litToks cv ++ (ls'.flatMap (fun cv => implicitAndTok :: litToks cv) ++ ts))
        (out ++ pr.1) (implicitAndTok :: pr.2)) = _
    rw [popOps_and_cons S hS]
    show syAux (litToks cv ++ (ls'.flatMap (fun cv => implicitAndTok :: litToks cv) ++ ts))
        (out ++ [implicitAndTok]) (implicitAndTok :: S) = _
    rw [syAux_lit, ih, List.append_assoc, List.append_assoc]
    simp [List.append_assoc]

end KMap

namespace KMap

/-- The shunting-yard trace over one whole term. -/
theorem syAux_term (S : List Token) (hS : popOps implicitAndTok S = ([], S))
    (lits : List (Char × Char)) (ts out : List Token) :
    syAux (termToksAnd lits ++ ts) out S =
      syAux ts (out ++ termCore lits) (termStack lits ++ S) := by
  cases lits with
  | nil =>
    show syAux (Token.num 1 :: ts) out S = _
    show syAux ts (out ++ [Token.num 1]) S = _
    rfl
  | cons l0 ls =>
    cases ls with
    | nil =>
      have hs : termToksAnd [l0] ++ ts = litToks l0 ++ ts := by simp [termToksAnd]
      rw [hs, syAux_lit]
      rfl
    | cons l1 ls' =>
      have hs : termToksAnd (l0 :: l1 :: ls') ++ ts =
          litToks l0 ++ (implicitAndTok ::
            (litToks l1 ++ ((l1 :: ls').tail.flatMap (fun cv => implicitAndTok :: litToks cv) ++ ts))) := by
        simp [termToksAnd, List.append_assoc]
      rw [hs, syAux_lit]
      show (let pr := popOps implicitAndTok S
        syAux (litToks l1 ++ (ls'.flatMap (fun cv => implicitAndTok :: litToks cv) ++ ts))
          ((out ++ litToks l0) ++ pr.1) (implicitAndTok :: pr.2)) = _
      rw [hS]
      show syAux (litToks l1 ++ (ls'.flatMap (fun cv => implicitAndTok :: litToks cv) ++ ts))
          ((out ++ litToks l0) ++ []) (implicitAndTok :: S) = _
      rw [List.append_nil, syAux_lit, syAux_midlits S hS]
      show syAux ts _ _ = syAux ts _ _
      simp [termCore, termStack, List.append_assoc]

/-- Flushing a stack of operator tokens returns it unchanged. -/
theorem flushStack_ops :
    ∀ (S : List Token), (∀ t ∈ S, isOpT t = true) → flushStack S = .ok S := by
  intro S
  induction S with
  | nil => intro _; rfl
  | cons t S' ih =>
    intro hall
    have ht := hall t (List.mem_cons_self _ _)
    have hrest := ih (fun x hx => hall x (List.mem_cons_of_mem _ hx))
    cases t with
    | op k u post p a i =>
      show (match flushStack S' with
        | .error e => Except.error e
        | .ok ts => .ok (Token.op k u post p a i :: ts)) = _
      rw [hrest]
    | var c => exact absurd ht (by simp [isOpT])
    | num v => exact absurd ht (by simp [isOpT])
    | lp => exact absurd ht (by simp [isOpT])
    | rp => exact absurd ht (by simp [isOpT])

/-- Both term-stack shapes hold only operator tokens. -/
theorem termStack_ops (lits : List (Char × Char)) :
    ∀ t ∈ termStack lits, isOpT t = true := by
  cases lits with
  | nil => intro t ht; exact absurd ht (by simp [termStack])
  | cons l0 ls =>
    cases ls with
    | nil => intro t ht; exact absurd ht (by simp [termStack])
    | cons l1 ls' =>
      intro t ht
      have : t = implicitAndTok := by simpa [termStack] using ht
      rw [this]
      rfl

/-- An implicit AND pops nothing over an OR (or over the empty stack). -/
theorem popOps_and_orStack :
    ∀ (S : List Token), S = [] ∨ S = [orTok] → popOps implicitAndTok S = ([], S) := by
  intro S h
  rcases h with h | h <;> subst h <;> rfl

/-- The shunting-yard trace over the OR-joined tail terms, an OR pending. -/
theorem syAux_tail :
    ∀ (parts : List (List (Char × Char))), parts ≠ [] → ∀ (out : List Token),
      syAux (joinT [orTok] (parts.map termToksAnd)) out [orTok] =
        .ok (out ++ parts.flatMap (fun p => termRPN p ++ [orTok])) := by
  intro parts
  induction parts with
  | nil => intro h; exact absurd rfl h
  | cons p rest ih =>
    intro _ out
    cases rest with
    | nil =>
      show syAux (termToksAnd p) out [orTok] = _
      have hp : termToksAnd p = termToksAnd p ++ [] := by rw [List.append_nil]
      rw [hp, syAux_term [orTok] (popOps_and_orStack _ (Or.inr rfl)) p [] out]
      show (match flushStack (termStack p ++ [orTok]) with
        | .error e => Except.error e
        | .ok ts => .ok ((out ++ termCore p) ++ ts)) = _
      rw [flushStack_ops (termStack p ++ [orTok]) (by
        intro t ht
        rcases List.mem_append.mp ht with h | h
        · exact termStack_ops p t h
        · rw [List.mem_singleton.mp h]; rfl)]
      show Except.ok ((out ++ termCore p) ++ (termStack p ++ [orTok])) = _
      simp [termRPN, List.append_assoc]
    | cons q rest' =>
      have hjoin : joinT [orTok] ((p :: q :: rest').map termToksAnd) =
          termToksAnd p ++ orTok :: joinT [orTok] ((q :: rest').map termToksAnd) := by
        show (termToksAnd p ++ [orTok]) ++ joinT [orTok] ((q :: rest').map termToksAnd) = _
        rw [List.append_assoc]
        rfl
      rw [hjoin, syAux_term [orTok] (popOps_and_orStack _ (Or.inr rfl)) p _ out]
      -- the OR token: pops the whole stack, pushes itself
      have hpop : popOps orTok (termStack p ++ [orTok]) = (termStack p ++ [orTok], []) := by
        cases hlits : termStack p with
        | nil => rfl
        | cons t ts =>
          have hts : t = implicitAndTok ∧ ts = [] := by
            cases p with
            | nil => simp [termStack] at hlits
            | cons l0 ls =>
              cases ls with
              | nil => simp [termStack] at hlits
              | cons l1 ls' => simpa [termStack] using hlits.symm
          rw [hts.1, hts.2]
          rfl
      show (let pr := popOps orTok (termStack p ++ [orTok])
        syAux (joinT [orTok] ((q :: rest').map termToksAnd))
          ((out ++ termCore p) ++ pr.1) (orTok :: pr.2)) = _
      rw [hpop]
      show syAux (joinT [orTok] ((q :: rest').map termToksAnd))
          ((out ++ termCore p) ++ (termStack p ++ [orTok])) [orTok] = _
      rw [ih (by simp)]
      simp [termRPN, List.append_assoc]

/-- The shunting-yard phase of the whole SOP token stream. -/
theorem syAux_sop (parts : List (List (Char × Char))) (hne : parts ≠ []) :
    syAux (joinT [orTok] (parts.map termToksAnd)) [] [] = .ok (sopRPN parts) := by
  cases parts with
  | nil => exact absurd rfl hne
  | cons p rest =>
    cases rest with
    | nil =>
      show syAux (termToksAnd p) [] [] = _
      have hp : termToksAnd p = termToksAnd p ++ [] := by rw [List.append_nil]
      rw [hp, syAux_term [] (popOps_and_orStack _ (Or.inl rfl)) p [] []]
      show (match flushStack (termStack p ++ []) with
        | .error e => Except.error e
        | .ok ts => .ok (([] ++ termCore p) ++ ts)) = _
      rw [flushStack_ops (termStack p ++ []) (by
        intro t ht
        rw [List.append_nil] at ht
        exact termStack_ops p t ht)]
      show Except.ok (([] ++ termCore p) ++ (termStack p ++ [])) = _
      simp [sopRPN, termRPN]
    | cons q rest' =>
      have hjoin : joinT [orTok] ((p :: q :: rest').map termToksAnd) =
          termToksAnd p ++ orTok :: joinT [orTok] ((q :: rest').map termToksAnd) := by
        show (termToksAnd p ++ [orTok]) ++ joinT [orTok] ((q :: rest').map termToksAnd) = _
        rw [List.append_assoc]
        rfl
      rw [hjoin, syAux_term [] (popOps_and_orStack _ (Or.inl rfl)) p _ []]
      have hpop : popOps orTok (termStack p ++ []) = (termStack p, []) := by
        rw [List.append_nil]
        cases hlits : termStack p with
        | nil => rfl
        | cons t ts =>
          have hts : t = implicitAndTok ∧ ts = [] := by
            cases p with
            | nil => simp [termStack] at hlits
            | cons l0 ls =>
              cases ls with
              | nil => simp [termStack] at hlits
              | cons l1 ls' => simpa [termStack] using hlits.symm
          rw [hts.1, hts.2]
          rfl
      show (let pr := popOps orTok (termStack p ++ [])
        syAux (joinT [orTok] ((q :: rest').map termToksAnd))
          (([] ++ termCore p) ++ pr.1) (orTok :: pr.2)) = _
      rw [hpop]
      show syAux (joinT [orTok] ((q :: rest').map termToksAnd))
          (([] ++ termCore p) ++ termStack p) [orTok] = _
      rw [syAux_tail (q :: rest') (by simp)]
      simp [sopRPN, termRPN, List.append_assoc]

/-- The parser output for the scanner's SOP token stream. -/
theorem toRPN_sop (parts : List (List (Char × Char))) (hne : parts ≠ []) :
    toRPN (joinT [orTok] (parts.map termToks)) = .ok (sopRPN parts) := by
  unfold toRPN
  rw [insertImplicit_sop parts hne, syAux_sop parts hne]

end KMap

namespace KMap

/-- The boolean value of a variable letter under an environment. -/
def envB (env : Env) (v : Char) : Bool :=
  match env [v] with
  | some n => decide (n ≠ 0)
  | none => false

/-- The boolean value of one literal. -/
def litVal (env : Env) (cv : Char × Char) : Bool :=
  if cv.1 = '1' then envB env cv.2 else !(envB env cv.2)

/-- The boolean value of a product term (AND of its literals; empty = `1`). -/
def termVal (env : Env) (lits : List (Char × Char)) : Bool :=
  lits.all (litVal env)

/-- Evaluating one literal's RPN pushes its value, provided the variable is
defined. -/
theorem eval_lit (env : Env) (cv : Char × Char) (hdef : env [cv.2] ≠ none)
    (ts : List Token) (st : List Bool) :
    evalSpecAux (litToks cv ++ ts) env st = evalSpecAux ts env (litVal env cv :: st) := by
  cases hv : env [cv.2] with
  | none => exact absurd hv hdef
  | some v =>
    by_cases h1 : cv.1 = '1'
    · have hs : litToks cv ++ ts = Token.var cv.2 :: ts := by simp [litToks, if_pos h1]
      rw [hs]
      show (match env [cv.2] with
        | none => Except.error EvalErr.undefinedVariable
        | some v => evalSpecAux ts env (decide (v ≠ 0) :: st)) = _
      rw [hv]
      have hval : litVal env cv = decide (v ≠ 0) := by
        unfold litVal envB
        rw [if_pos h1, hv]
      rw [hval]
    · have hs : litToks cv ++ ts = Token.var cv.2 :: notPostTok :: ts := by
        simp [litToks, if_neg h1]
      rw [hs]
      show (match env [cv.2] with
        | none => Except.error EvalErr.undefinedVariable
        | some v => evalSpecAux (notPostTok :: ts) env (decide (v ≠ 0) :: st)) = _
      rw [hv]
      show evalSpecAux ts env ((!decide (v ≠ 0)) :: st) = _
      have hval : litVal env cv = !decide (v ≠ 0) := by
        unfold litVal envB
        rw [if_neg h1, hv]
      rw [hval]

/-- Evaluating the middle literals of a term folds their AND onto the top of
the stack. -/
theorem eval_midlits (env : Env) :
    ∀ (ls : List (Char × Char)), (∀ cv ∈ ls, env [cv.2] ≠ none) →
      ∀ (ts : List Token) (v : Bool) (st : List Bool),
        evalSpecAux (ls.flatMap (fun cv => litToks cv ++ [implicitAndTok]) ++ ts) env (v :: st) =
          evalSpecAux ts env ((v && termVal env ls) :: st) := by
  intro ls
  induction ls with
  | nil =>
    intro _ ts v st
    simp [termVal]
  | cons cv ls' ih =>
    intro hdef ts v st
    have hs : ((cv :: ls').flatMap (fun cv => litToks cv ++ [implicitAndTok])) ++ ts =
        litToks cv ++ (implicitAndTok ::
          (ls'.flatMap (fun cv => litToks cv ++ [implicitAndTok]) ++ ts)) := by
      simp [List.append_assoc]
    rw [hs, eval_lit env cv (hdef cv (List.mem_cons_self _ _))]
    show evalSpecAux (ls'.flatMap (fun cv => litToks cv ++ [implicitAndTok]) ++ ts) env
        ((v && litVal env cv) :: st) = _
    rw [ih (fun x hx => hdef x (List.mem_cons_of_mem _ hx))]
    have : ((v && litVal env cv) && termVal env ls') = (v && termVal env (cv :: ls')) := by
      simp only [termVal, List.all_cons, Bool.and_assoc]
    rw [this]

/-- A term's RPN, reshaped as first literal then (literal, AND) pairs. -/
theorem termRPN_shape :
    ∀ (lits : List (Char × Char)), termRPN lits =
      match lits with
      | [] => [Token.num 1]
      | l0 :: ls => litToks l0 ++ ls.flatMap (fun cv => litToks cv ++ [implicitAndTok]) := by
  have aux : ∀ (ls : List (Char × Char)),
      ls.flatMap (fun cv => implicitAndTok :: litToks cv) ++ [implicitAndTok] =
        implicitAndTok :: ls.flatMap (fun cv => litToks cv ++ [implicitAndTok]) := by
    intro ls
    induction ls with
    | nil => rfl
    | cons cv ls' ih =>
      simp only [List.flatMap_cons, List.cons_append, List.append_assoc, ih,
        List.singleton_append, List.nil_append]
  intro lits
  cases lits with
  | nil => rfl
  | cons l0 ls =>
    cases ls with
    | nil => simp [termRPN, termCore, termStack]
    | cons l1 ls' =>
      show termCore (l0 :: l1 :: ls') ++ [implicitAndTok] = _
      show (litToks l0 ++ litToks l1 ++ ls'.flatMap (fun cv => implicitAndTok :: litToks cv))
          ++ [implicitAndTok] = _
      simp only [List.append_assoc, aux, List.flatMap_cons, List.singleton_append]

/-- Evaluating one term's RPN pushes the term value. -/
theorem eval_term (env : Env) (lits : List (Char × Char))
    (hdef : ∀ cv ∈ lits, env [cv.2] ≠ none) (ts : List Token) (st : List Bool) :
    evalSpecAux (termRPN lits ++ ts) env st =
      evalSpecAux ts env (termVal env lits :: st) := by
  rw [termRPN_shape]
  cases lits with
  | nil =>
    show evalSpecAux ts env (decide ((1 : Nat) ≠ 0) :: st) = _
    rfl
  | cons l0 ls =>
    have hs : (litToks l0 ++ ls.flatMap (fun cv => litToks cv ++ [implicitAndTok])) ++ ts =
        litToks l0 ++ (ls.flatMap (fun cv => litToks cv ++ [implicitAndTok]) ++ ts) := by
      rw [List.append_assoc]
    rw [hs, eval_lit env l0 (hdef l0 (List.mem_cons_self _ _)),
      eval_midlits env ls (fun x hx => hdef x (List.mem_cons_of_mem _ hx))]
    have : (litVal env l0 && termVal env ls) = termVal env (l0 :: ls) := by
      simp only [termVal, List.all_cons]
    rw [this]

/-- Evaluating the OR-joined tail terms folds their OR onto the stack top. -/
theorem eval_ortail (env : Env) :
    ∀ (ps : List (List (Char × Char))), (∀ p ∈ ps, ∀ cv ∈ p, env [cv.2] ≠ none) →
      ∀ (v : Bool) (st : List Bool),
        evalSpecAux (ps.flatMap (fun q => termRPN q ++ [orTok])) env (v :: st) =
          .ok ((v || ps.any (termVal env)) :: st) := by
  intro ps
  induction ps with
  | nil => intro _ v st; simp [evalSpecAux]
  | cons p ps' ih =>
    intro hdef v st
    have hs : ((p :: ps').flatMap (fun q => termRPN q ++ [orTok])) =
        termRPN p ++ (orTok :: ps'.flatMap (fun q => termRPN q ++ [orTok])) := by
      simp [List.append_assoc]
    rw [hs, eval_term env p (hdef p (List.mem_cons_self _ _))]
    show evalSpecAux (ps'.flatMap (fun q => termRPN q ++ [orTok])) env
        ((v || termVal env p) :: st) = _
    rw [ih (fun x hx => hdef x (List.mem_cons_of_mem _ hx))]
    have : ((v || termVal env p) || ps'.any (termVal env)) = (v || (p :: ps').any (termVal env)) := by
      simp only [List.any_cons, Bool.or_assoc]
    rw [this]

/-- Evaluating the whole SOP RPN: `1` iff some term is satisfied. -/
theorem eval_sop (env : Env) (parts : List (List (Char × Char))) (hne : parts ≠ [])
    (hdef : ∀ p ∈ parts, ∀ cv ∈ p, env [cv.2] ≠ none) :
    evalRPN (sopRPN parts) env = .ok (if parts.any (termVal env) then 1 else 0) := by
  cases parts with
  | nil => exact absurd rfl hne
  | cons p ps =>
    unfold evalRPN
    rw [evalAux_eq_spec]
    show (match evalSpecAux (termRPN p ++ ps.flatMap (fun q => termRPN q ++ [orTok])) env [] with
      | .error e => Except.error e
      | .ok st => if st.length ≠ 1 then Except.error EvalErr.invalidExpression
          else .ok (if st.headD false then 1 else 0)) = _
    rw [eval_term env p (hdef p (List.mem_cons_self _ _))]
    show (match evalSpecAux (ps.flatMap (fun q => termRPN q ++ [orTok])) env [termVal env p] with
      | .error e => Except.error e
      | .ok st => if st.length ≠ 1 then Except.error EvalErr.invalidExpression
          else .ok (if st.headD false then 1 else 0)) = _
    have := eval_ortail env ps (fun x hx => hdef x (List.mem_cons_of_mem _ hx))
      (termVal env p) []
    rw [this]
    show (if ([(termVal env p || ps.any (termVal env))] : List Bool).length ≠ 1 then
        Except.error EvalErr.invalidExpression
      else .ok (if ([(termVal env p || ps.any (termVal env))] : List Bool).headD false
        then 1 else 0)) = _
    rw [if_neg (by simp)]
    simp [List.any_cons]

end KMap

namespace KMap

/-- `envFor` over single-letter variables, looked up at the k-th letter. -/
theorem envFor_letter (vch : List Char) (hnd : vch.Nodup) (m k : Nat)
    (hk : k < vch.length) :
    envFor (vch.map (fun v => [v])) m [vch.getD k ' '] =
      some ((m >>> (vch.length - 1 - k)) &&& 1) := by
  have hnd' : (vch.map (fun v => [v])).Nodup :=
    hnd.map (fun a b h => List.head_eq_of_cons_eq h)
  have hk' : k < (vch.map (fun v => [v])).length := by simpa using hk
  have hgetD : (vch.map (fun v => [v])).getD k [] = [vch.getD k ' '] := by
    rw [List.getD_eq_getElem _ _ hk', List.getElem_map, List.getD_eq_getElem _ _ hk]
  have := envFor_getD (vch.map (fun v => [v])) m hnd' k hk'
  rw [hgetD] at this
  rw [this, List.length_map]

/-- The boolean a letter evaluates to under `envFor` is the corresponding
bit character of the minterm's binary string. -/
theorem envB_envFor (vch : List Char) (hnd : vch.Nodup) (m k : Nat)
    (hk : k < vch.length) :
    envB (envFor (vch.map (fun v => [v])) m) (vch.getD k ' ') =
      decide ((bitsM vch.length m).getD k ' ' = '1') := by
  unfold envB
  rw [envFor_letter vch hnd m k hk, bitsM_getD vch.length m k hk]
  show decide ((m >>> (vch.length - 1 - k)) &&& 1 ≠ 0) = _
  rw [Nat.shiftRight_eq_div_pow, Nat.and_one_is_mod, Nat.testBit_to_div_mod]
  rcases Nat.mod_two_eq_zero_or_one (m / 2 ^ (vch.length - 1 - k)) with h | h <;>
    rw [h] <;> decide

end KMap

namespace KMap

/-- A term built from the literal pairs of a mask evaluates to `covers mask x`
whenever the environment's letters agree with the bit string `x`. -/
theorem termVal_eq_covers (env : Env) (vch : List Char) :
    ∀ (mask x : Str) (i : Nat), mask.length = x.length →
      (∀ c ∈ mask, c = '0' ∨ c = '1' ∨ c = '-') →
      (∀ c ∈ x, c = '0' ∨ c = '1') →
      (∀ k, k < mask.length → envB env (vch.getD (i + k) ' ') = decide (x.getD k ' ' = '1')) →
      termVal env (litPairs vch mask i) = covers mask x := by
  intro mask
  induction mask with
  | nil =>
    intro x i hlen _ _ _
    have hx : x = [] := List.length_eq_zero.mp hlen.symm
    subst hx
    rfl
  | cons c rest ih =>
    intro x i hlen hmask hx henv
    cases x with
    | nil => exact absurd hlen (by simp)
    | cons y ys =>
      have hlen' : rest.length = ys.length := by simpa using hlen
      have hmask' : ∀ a ∈ rest, a = '0' ∨ a = '1' ∨ a = '-' :=
        fun a ha => hmask a (List.mem_cons_of_mem _ ha)
      have hx' : ∀ a ∈ ys, a = '0' ∨ a = '1' :=
        fun a ha => hx a (List.mem_cons_of_mem _ ha)
      have henv' : ∀ k, k < rest.length →
          envB env (vch.getD (i + 1 + k) ' ') = decide (ys.getD k ' ' = '1') := by
        intro k hk
        have hidx : i + 1 + k = i + (k + 1) := by omega
        rw [hidx]
        have := henv (k + 1) (by simp; omega)
        rw [this]
        rw [List.getD_cons_succ]
      by_cases hc : c = '-'
      · subst hc
        show termVal env ([] ++ litPairs vch rest (i + 1)) = covers ('-' :: rest) (y :: ys)
        rw [List.nil_append]
        have hcov : covers ('-' :: rest) (y :: ys) = covers rest ys := by
          show (if '-' = '-' then covers rest ys else _) = _
          rw [if_pos rfl]
        rw [hcov]
        exact ih ys (i + 1) hlen' hmask' hx' henv'
      · have hpairs : litPairs vch (c :: rest) i =
            (c, vch.getD i ' ') :: litPairs vch rest (i + 1) := by
          show (if c = '-' then [] else [(c, vch.getD i ' ')]) ++ litPairs vch rest (i + 1) = _
          rw [if_neg hc, List.singleton_append]
        have hcov : covers (c :: rest) (y :: ys) = (decide (c = y) && covers rest ys) := by
          show (if c = '-' then covers rest ys else (decide (c = y) && covers rest ys)) = _
          rw [if_neg hc]
        have hhead : litVal env (c, vch.getD i ' ') = decide (c = y) := by
          have h0 := henv 0 (by simp)
          rw [Nat.add_zero] at h0
          have h0' : envB env (vch.getD i ' ') = decide (y = '1') := by simpa using h0
          rcases hmask c (List.mem_cons_self _ _) with hc' | hc' | hc'
          · subst hc'
            have hlit : litVal env ('0', vch.getD i ' ') = !envB env (vch.getD i ' ') := by
              show (if ('0' : Char) = '1' then _ else !envB env (vch.getD i ' ')) = _
              rw [if_neg (by decide)]
            rw [hlit, h0']
            rcases hx y (List.mem_cons_self _ _) with hy | hy <;> subst hy <;> decide
          · subst hc'
            have hlit : litVal env ('1', vch.getD i ' ') = envB env (vch.getD i ' ') := by
              show (if ('1' : Char) = '1' then envB env (vch.getD i ' ') else _) = _
              rw [if_pos rfl]
            rw [hlit, h0']
            rcases hx y (List.mem_cons_self _ _) with hy | hy <;> subst hy <;> decide
          · exact absurd hc' hc
        rw [hpairs, hcov]
        show (litVal env (c, vch.getD i ' ') && termVal env (litPairs vch rest (i + 1))) = _
        rw [hhead, ih ys (i + 1) hlen' hmask' hx' henv']

end KMap

namespace KMap

/-- C1 (amended): for `1 ≤ n ≤ 4` distinct single uppercase-letter variables
and any set `M` of minterms below `2^n`, the SOP text produced by
`qmSimplify M [] vars SOP` re-evaluates through
tokenize → toRPN → evalRPN to `1` exactly on the assignments corresponding to
members of `M` and to `0` on all others; the unamended claim fails for
duplicate variables, the empty variable list, and lowercase variables. -/
theorem claim_C1 (n : Nat) (h1 : 1 ≤ n) (h4 : n ≤ 4) (vch : List Char)
    (hlen : vch.length = n) (hnd : vch.Nodup) (hvars : ∀ c ∈ vch, c ∈ upperLetters)
    (M : List Nat) (hM : ∀ m ∈ M, m < 2 ^ n) (m : Nat) (hm : m < 2 ^ n) :
    pipelineEval (qmSimplify M [] (vch.map (fun v => [v])) .SOP).2
      (envFor (vch.map (fun v => [v])) m) = .ok (if m ∈ M then 1 else 0) := by
  by_cases hMe : M = []
  · subst hMe
    rw [if_neg (List.not_mem_nil m)]
    rfl
  · have hWl : (vch.map (fun v => [v])).length = n := by simp [hlen]
    have hq : qmSimplify M [] (vch.map (fun v => [v])) QMode.SOP =
        (qmImplicants M [] n,
          implicantsToSOP (qmImplicants M [] n) (vch.map (fun v => [v]))) := by
      unfold qmSimplify
      rw [if_neg (by simpa [List.isEmpty_iff] using hMe), hWl]
    have hprops := qmImplicants_props M n h1 hM
    have hwf := qmImplicants_wf M n h1 hM
    obtain ⟨m0, hm0⟩ := List.exists_mem_of_ne_nil M hMe
    obtain ⟨imp0, himp0, _⟩ := hprops.2 m0 hm0
    have hine : qmImplicants M [] n ≠ [] := List.ne_nil_of_mem himp0
    have hmasklen : ∀ mask ∈ qmImplicants M [] n, mask.length ≤ vch.length := by
      intro mask hmask
      rw [(hwf mask hmask).1, hlen]
    have htok := tokenize_sop (qmImplicants M [] n) vch hine hmasklen hvars
    have hpne : (qmImplicants M [] n).map (fun mask => litPairs vch mask 0) ≠ [] := by
      simpa using hine
    have hrpn := toRPN_sop ((qmImplicants M [] n).map (fun mask => litPairs vch mask 0)) hpne
    have hdef : ∀ p ∈ (qmImplicants M [] n).map (fun mask => litPairs vch mask 0),
        ∀ cv ∈ p, envFor (vch.map (fun v => [v])) m [cv.2] ≠ none := by
      intro p hp cv hcv
      rw [List.mem_map] at hp
      obtain ⟨mask, hmask, rfl⟩ := hp
      have hcv2 : cv.2 ∈ vch :=
        (litPairs_mem vch mask 0 cv hcv (by simpa using hmasklen mask hmask)).2
      obtain ⟨k, hk, hkeq⟩ := List.mem_iff_getElem.mp hcv2
      have hsing : [cv.2] = [vch.getD k ' '] := by
        rw [List.getD_eq_getElem _ _ hk, hkeq]
      rw [hsing, envFor_letter vch hnd m k hk]
      simp
    have heval := eval_sop (envFor (vch.map (fun v => [v])) m)
      ((qmImplicants M [] n).map (fun mask => litPairs vch mask 0)) hpne hdef
    have hterm : ∀ mask ∈ qmImplicants M [] n,
        termVal (envFor (vch.map (fun v => [v])) m) (litPairs vch mask 0) =
          covers mask (bitsM n m) := by
      intro mask hmask
      refine termVal_eq_covers _ vch mask (bitsM n m) 0 ?_ (hwf mask hmask).2
        (bitsM_chars n m) ?_
      · rw [(hwf mask hmask).1, bitsM_length]
      · intro k hk
        rw [(hwf mask hmask).1] at hk
        have hk' : k < vch.length := by rw [hlen]; exact hk
        have := envB_envFor vch hnd m k hk'
        rw [Nat.zero_add, this, hlen]
    have hany : ((qmImplicants M [] n).map (fun mask => litPairs vch mask 0)).any
        (termVal (envFor (vch.map (fun v => [v])) m)) = decide (m ∈ M) := by
      by_cases hmM : m ∈ M
      · obtain ⟨imp, himp, hcov⟩ := hprops.2 m hmM
        have hT : ((qmImplicants M [] n).map (fun mask => litPairs vch mask 0)).any
            (termVal (envFor (vch.map (fun v => [v])) m)) = true :=
          List.any_eq_true.mpr ⟨litPairs vch imp 0, List.mem_map_of_mem _ himp,
            by rw [hterm imp himp]; exact hcov⟩
        rw [hT, decide_eq_true hmM]
      · have hF : ((qmImplicants M [] n).map (fun mask => litPairs vch mask 0)).any
            (termVal (envFor (vch.map (fun v => [v])) m)) = false := by
          rw [Bool.eq_false_iff]
          intro hT
          obtain ⟨p, hp, hpv⟩ := List.any_eq_true.mp hT
          rw [List.mem_map] at hp
          obtain ⟨mask, hmask, rfl⟩ := hp
          rw [hterm mask hmask] at hpv
          exact hmM (hprops.1 mask hmask m hm hpv)
        rw [hF, decide_eq_false hmM]
    rw [hq]
    show pipelineEval (implicantsToSOP (qmImplicants M [] n) (vch.map (fun v => [v])))
      (envFor (vch.map (fun v => [v])) m) = _
    unfold pipelineEval
    simp only [htok, hrpn, heval, hany]
    by_cases hmM : m ∈ M
    · rw [if_pos hmM, if_pos (by rw [decide_eq_true hmM])]
    · rw [if_neg hmM, if_neg (by rw [decide_eq_false hmM]; exact Bool.false_ne_true)]

/-- Witness for C1: one variable `A`, minterm set `{0}`, assignment `m = 0`. -/
theorem claim_C1_witness :
    pipelineEval (qmSimplify [0] [] [['A']] .SOP).2 (envFor [['A']] 0) =
      .ok (if 0 ∈ ([0] : List Nat) then 1 else 0) :=
  claim_C1 1 (by decide) (by decide) ['A'] rfl (by decide) (by decide)
    [0] (by decide) 0 (by decide)

end KMap
